import Mathlib

/-!
Verification development for the NEAR-Kotlin-RPC post-processing scripts
(`scripts/fix_openapi_spec.py`, `scripts/openapi_fixes.py`,
`scripts/convert_naming.py`).

The development shallowly embeds the two transformation engines:
* the Schema Repair Engine — pure passes over a JSON-like document model
  (`fix_empty_schemas`, `fix_anyof_schemas`, `fix_problematic_patterns`,
  `remove_pattern_properties`, and the endpoint-collapsing part of
  `fix_openapi_spec`), and
* the Source Rewrite Pipeline — text passes over generated Kotlin files
  (`fix_imports`, `fix_serialization_annotations`,
  `fix_nullable_types_kotlin`, `add_serializable_annotations`,
  `fix_enum_serialization`, `fix_api_client_paths`),
together with the shared naming utility `snake_to_camel`.

File contents are modelled as `List Char`; the Python regex substitutions
are hand-compiled into deterministic maximal-munch scanners with `re.sub`
left-to-right non-overlapping semantics (for the patterns in these scripts
greedy maximal munch coincides with Python backtracking semantics, since
every adjacent pair of sub-patterns ranges over disjoint character classes).
Character predicates follow Python's ASCII behaviour; the identifiers and
keywords these scripts rewrite are ASCII.
-/

namespace NearRpcFixes

/-- Python `str.isspace` for the ASCII whitespace characters used by
`\s` in the scripts' regular expressions and by `str.strip()`. -/
def isPySpace (c : Char) : Bool :=
  c = ' ' || c = '\t' || c = '\n' || c = '\x0d' || c = '\x0b' || c = '\x0c'

/-- Lower-case ASCII letter, the character class `[a-z]`. -/
def isLowerAZ (c : Char) : Bool :=
  'a' ≤ c && c ≤ 'z'

/-- Word character, the regex class `\w` restricted to ASCII. -/
def isWordChar (c : Char) : Bool :=
  ('a' ≤ c && c ≤ 'z') || ('A' ≤ c && c ≤ 'Z') || ('0' ≤ c && c ≤ '9') || c = '_'

/-- ASCII letter, Python `str.isalpha` on the ASCII range. -/
def isAsciiAlpha (c : Char) : Bool :=
  ('a' ≤ c && c ≤ 'z') || ('A' ≤ c && c ≤ 'Z')

/-- ASCII `str.lower` on one character. -/
def pyLowerChar (c : Char) : Char :=
  if 'A' ≤ c && c ≤ 'Z' then Char.ofNat (c.toNat + 32) else c

/-- ASCII `str.upper` on one character. -/
def pyUpperChar (c : Char) : Char :=
  if 'a' ≤ c && c ≤ 'z' then Char.ofNat (c.toNat - 32) else c

/-- Python `str.title` on a character list: an alphabetic character is
upper-cased when it follows a non-alphabetic character (or starts the
string) and lower-cased otherwise.  `prevAlpha` records whether the
previous character was alphabetic. -/
def pyTitleGo (prevAlpha : Bool) : List Char → List Char
  | [] => []
  | c :: cs =>
    if isAsciiAlpha c then
      (if prevAlpha then pyLowerChar c else pyUpperChar c) :: pyTitleGo true cs
    else
      c :: pyTitleGo false cs

/-- Python `str.title`. -/
def pyTitle (s : List Char) : List Char :=
  pyTitleGo false s

/-- Python `str.split(sep)` for a one-character separator: always returns at
least one (possibly empty) piece, and adjacent separators yield empty
pieces, exactly as in Python. -/
def pySplitOn (sep : Char) : List Char → List (List Char)
  | [] => [[]]
  | c :: cs =>
    if c = sep then [] :: pySplitOn sep cs
    else
      match pySplitOn sep cs with
      | [] => [[c]]
      | p :: ps => (c :: p) :: ps

/-- Python `str.strip()` (strip ASCII whitespace from both ends). -/
def pyStrip (s : List Char) : List Char :=
  ((s.dropWhile isPySpace).reverse.dropWhile isPySpace).reverse

/-- Python `str.strip(chars)` for the single strip character `ch`
(used as `path.strip('/')` in `fix_openapi_spec`). -/
def pyStripChar (ch : Char) (s : List Char) : List Char :=
  ((s.dropWhile (· = ch)).reverse.dropWhile (· = ch)).reverse

/-- `snake_to_camel` from `scripts/openapi_fixes.py` (an identical copy
lives in `scripts/convert_naming.py`):
`components = snake_str.split('_'); components[0] + ''.join(x.title() for x in components[1:])`. -/
def snake_to_camel (s : List Char) : List Char :=
  match pySplitOn '_' s with
  | [] => []
  | p :: ps => p ++ (ps.map pyTitle).flatten

/-- Does the needle start the haystack?  (`List.isPrefixOf` over `Char`,
spelled out so that the substring lemmas below unfold it directly.) -/
def startsWithL : List Char → List Char → Bool
  | [], _ => true
  | _ :: _, [] => false
  | a :: as, b :: bs => a = b && startsWithL as bs

/-- Python's substring test `needle in haystack`. -/
def containsSub (n : List Char) : List Char → Bool
  | [] => startsWithL n []
  | c :: cs => startsWithL n (c :: cs) || containsSub n cs

/-- Does the word list end with the given suffix (used for the regex tail
`\w+Api`, which must consume a whole word run ending in `Api`)? -/
def endsWithL (suf s : List Char) : Bool :=
  startsWithL suf.reverse s.reverse

/-! ## The JSON document model

The schema scripts operate on the result of `json.load`: `None`, booleans,
numbers, strings, arrays, and insertion-ordered objects.  Objects are
modelled as ordered association lists (`JObj`); a document produced by
`json.load` never holds duplicate keys.  The specs these scripts process
use integral numbers only, so numbers are modelled as `Int`. -/

mutual
inductive JSON where
  | null : JSON
  | bool : Bool → JSON
  | num : Int → JSON
  | str : String → JSON
  | arr : JArr → JSON
  | obj : JObj → JSON
  deriving DecidableEq
inductive JArr where
  | nil : JArr
  | cons : JSON → JArr → JArr
  deriving DecidableEq
inductive JObj where
  | nil : JObj
  | cons : String → JSON → JObj → JObj
  deriving DecidableEq
end

/-- First value bound to key `k` (Python `obj[k]` / `obj.get(k)`). -/
def JObj.find? (k : String) : JObj → Option JSON
  | .nil => none
  | .cons k' v t => if k' = k then some v else JObj.find? k t

/-- Python `k in obj`. -/
def JObj.hasKey (k : String) (o : JObj) : Bool :=
  (o.find? k).isSome

/-- Python `obj[k] = v`: replace the value in place when the key exists
(keeping its position), otherwise append the new entry at the end. -/
def JObj.set (o : JObj) (k : String) (v : JSON) : JObj :=
  match o with
  | .nil => .cons k v .nil
  | .cons k' v' t => if k' = k then .cons k' v t else .cons k' v' (t.set k v)

/-- Key list in order. -/
def JObj.keys : JObj → List String
  | .nil => []
  | .cons k _ t => k :: JObj.keys t

/-- Entry list in order. -/
def JObj.toList : JObj → List (String × JSON)
  | .nil => []
  | .cons k v t => (k, v) :: JObj.toList t

/-- Python `len(obj)`. -/
def JObj.length : JObj → Nat
  | .nil => 0
  | .cons _ _ t => JObj.length t + 1

/-- Rewrite every value with a function of the key and the old value
(the scripts' `for name, schema in schemas.items(): schemas[name] = ...`
loops: keys and their order never change). -/
def JObj.mapVals (f : String → JSON → JSON) : JObj → JObj
  | .nil => .nil
  | .cons k v t => .cons k (f k v) (JObj.mapVals f t)

/-- Build an object from a list of entries. -/
def objOf : List (String × JSON) → JObj
  | [] => .nil
  | (k, v) :: t => .cons k v (objOf t)

/-- Build an array from a list of values. -/
def arrOf : List JSON → JArr
  | [] => .nil
  | v :: t => .cons v (arrOf t)

/-- Element list of an array. -/
def JArr.toList : JArr → List JSON
  | .nil => []
  | .cons v t => v :: JArr.toList t

/-- Python truthiness (`bool(x)`) of a JSON value. -/
def truthy : JSON → Bool
  | .null => false
  | .bool b => b
  | .num n => n ≠ 0
  | .str s => s ≠ ""
  | .arr a => a ≠ .nil
  | .obj o => o ≠ .nil

/-- Truthiness of `obj.get(k)` (`False` when the key is absent). -/
def truthyKey (k : String) (o : JObj) : Bool :=
  match o.find? k with
  | some v => truthy v
  | none => false

/-- Last `/`-separated component of a string
(Python `s.split('/')[-1]`). -/
def lastSlashComponent (s : String) : String :=
  ⟨(pySplitOn '/' s.data).getLastD []⟩

/-- Python `str.lower` (ASCII). -/
def pyLower (s : String) : String :=
  ⟨s.data.map pyLowerChar⟩

/-- Python substring test `needle in haystack` on `String`. -/
def containsStr (needle hay : String) : Bool :=
  containsSub needle.data hay.data

/-- Python `s.startswith(p)` on `String`. -/
def pyStartsWith (p s : String) : Bool :=
  startsWithL p.data s.data

/-! ## Schema Repair Engine: `scripts/fix_openapi_spec.py` -/

/-- Apply a per-schema rewrite to `spec['components']['schemas']`, exactly
as the scripts' `schemas = spec.get('components', {}).get('schemas', {})`
followed by in-place value assignments: when either level is missing the
loop runs over a fresh empty dict and the document is unchanged.  (A
non-object value at either level would raise in CPython before any output
is written — the engine's fatal-input path — and is modelled as the
identity.)  The rewrite also receives the schema-table key list, which the
loops never change. -/
def mapSchemas (f : List String → String → JSON → JSON) : JSON → JSON
  | .obj o =>
    match o.find? "components" with
    | some (.obj co) =>
      match co.find? "schemas" with
      | some (.obj so) =>
        .obj (o.set "components" (.obj (co.set "schemas" (.obj (so.mapVals (f so.keys))))))
      | _ => .obj o
    | _ => .obj o
  | j => j

/-- The emptiness test of `fix_empty_schemas`: none of the six keywords is
present with a truthy value (`not schema.get('properties') and ...`). -/
def pyEmptySchema (s : JObj) : Bool :=
  !truthyKey "properties" s && !truthyKey "enum" s && !truthyKey "anyOf" s &&
  !truthyKey "oneOf" s && !truthyKey "allOf" s && !truthyKey "type" s

/-- The fixed table `empty_schema_fixes` of `fix_empty_schemas`. -/
def emptySchemaFixes (name : String) : Option JSON :=
  match name with
  | "AccountId" => some (.obj (objOf
      [("type", .str "string"), ("description", .str "NEAR Account Identifier")]))
  | "CryptoHash" => some (.obj (objOf
      [("type", .str "string"), ("description", .str "Cryptographic hash")]))
  | "PublicKey" => some (.obj (objOf
      [("type", .str "string"), ("description", .str "Public key")]))
  | "FunctionArgs" => some (.obj (objOf
      [("type", .str "string"), ("format", .str "byte"),
       ("description", .str "Base64-encoded function arguments")]))
  | "CreateAccountAction" => some (.obj (objOf
      [("type", .str "object"),
       ("properties", .obj (objOf
         [("type", .obj (objOf
           [("type", .str "string"),
            ("enum", .arr (arrOf [.str "CreateAccount"])),
            ("default", .str "CreateAccount")]))])),
       ("required", .arr (arrOf [.str "type"]))]))
  | "ShardId" => some (.obj (objOf
      [("type", .str "integer"), ("format", .str "int64"),
       ("description", .str "Shard identifier")]))
  | "NearGas" => some (.obj (objOf
      [("type", .str "string"), ("description", .str "NEAR Gas amount")]))
  | "AccountIdValidityRulesVersion" => some (.obj (objOf
      [("type", .str "integer"),
       ("description", .str "Account ID validity rules version")]))
  | "MutableConfigValue" => some (.obj (objOf
      [("type", .str "object"),
       ("properties", .obj (objOf
         [("value", .obj (objOf
           [("type", .str "string"),
            ("description", .str "Configuration value")]))]))]))
  | "RpcSplitStorageInfoRequest" => some (.obj (objOf
      [("type", .str "object"),
       ("properties", .obj (objOf
         [("request_type", .obj (objOf
           [("type", .str "string"),
            ("default", .str "split_storage_info")]))]))]))
  | _ => none

/-- The generic fallback replacement of `fix_empty_schemas` for an empty
schema whose name has no table entry. -/
def emptySchemaFallback (name : String) : JSON :=
  .obj (objOf
    [("type", .str "string"),
     ("description", .str ("Auto-fixed empty schema for " ++ name))])

/-- Per-schema action of `fix_empty_schemas`.  (A non-object schema value
would raise on `schema.get` in CPython; modelled as unchanged.) -/
def fixEmptyOne (name : String) (v : JSON) : JSON :=
  match v with
  | .obj s =>
    if pyEmptySchema s then
      match emptySchemaFixes name with
      | some r => r
      | none => emptySchemaFallback name
    else v
  | _ => v

/-- `fix_empty_schemas`. -/
def fixEmptySchemas : JSON → JSON :=
  mapSchemas (fun _ => fixEmptyOne)

/-- `schema.get('description', '')`. -/
def descOr (s : JObj) : JSON :=
  match s.find? "description" with
  | some d => d
  | none => .str ""

/-- The hard-coded `BlockId` replacement of `fix_anyof_schemas`. -/
def blockIdReplacement (s : JObj) : JSON :=
  .obj (objOf
    [("type", .str "object"),
     ("description", descOr s),
     ("properties", .obj (objOf
       [("block_hash", .obj (objOf
          [("type", .str "string"), ("description", .str "Block hash")])),
        ("block_height", .obj (objOf
          [("type", .str "integer"), ("format", .str "int64"),
           ("description", .str "Block height")]))]))])

/-- Python `item != {'type': 'null'}`, negated.  Python dict equality
ignores key order; a parsed JSON object has no duplicate keys, so for this
singleton comparison the structural test is equivalent. -/
def isTypeNullOnly : JSON → Bool
  | .obj (.cons "type" (.str "null") .nil) => true
  | _ => false

/-- The property key chosen by `fix_anyof_schemas` for a typed
alternative: `item.get('title', 'value')`.  (CPython would use a
non-string title value itself as the dict key; the specs' titles are
strings, and a missing title yields `"value"`.) -/
def titleKey (io : JObj) : String :=
  match io.find? "title" with
  | some (.str t) => t
  | _ => "value"

/-- The `properties` dict the `Rpc…Request` branch of `fix_anyof_schemas`
builds from the union's alternatives: `$ref`-bearing alternatives are
keyed by the lower-cased reference tail, typed alternatives by their
title.  (A non-object alternative or non-string `$ref` would raise in
CPython; skipped here.) -/
def derivedPropsGo (acc : JObj) : List JSON → JObj
  | [] => acc
  | item :: rest =>
    match item with
    | .obj io =>
      match io.find? "$ref" with
      | some (.str r) =>
        derivedPropsGo (acc.set (pyLower (lastSlashComponent r)) item) rest
      | some _ => derivedPropsGo acc rest
      | none =>
        if io.hasKey "type" then
          derivedPropsGo (acc.set (titleKey io) item) rest
        else derivedPropsGo acc rest
    | _ => derivedPropsGo acc rest

/-- The `properties` dict of the `Rpc…Request` branch. -/
def derivedProps (items : JArr) : JObj :=
  derivedPropsGo .nil items.toList

/-- First alternative that is truthy and differs from `{'type': 'null'}`
(the generic fallback of `fix_anyof_schemas`). -/
def firstNonNull : List JSON → Option JSON
  | [] => none
  | item :: rest =>
    if truthy item && !isTypeNullOnly item then some item else firstNonNull rest

/-- Per-schema action of `fix_anyof_schemas`: only schemas whose top level
carries the key `anyOf` are touched; `oneOf` is never inspected.  (A
non-array `anyOf` value would raise on `len`/iteration in CPython;
modelled as unchanged.) -/
def fixAnyofOne (name : String) (v : JSON) : JSON :=
  match v with
  | .obj s =>
    match s.find? "anyOf" with
    | some anyofVal =>
      if name = "BlockId" then blockIdReplacement s
      else if containsStr "Rpc" name && containsStr "Request" name then
        match anyofVal with
        | .arr items =>
          let props := derivedProps items
          if props ≠ JObj.nil then
            .obj (objOf
              [("type", .str "object"),
               ("description", descOr s),
               ("properties", .obj props)])
          else v
        | _ => v
      else
        match anyofVal with
        | .arr items =>
          match firstNonNull items.toList with
          | some item => item
          | none => v
        | _ => v
    | none => v
  | _ => v

/-- `fix_anyof_schemas`. -/
def fixAnyofSchemas : JSON → JSON :=
  mapSchemas (fun _ => fixAnyofOne)

/-- Per-schema action of `fix_problematic_patterns`.  The two clauses run
in sequence on the same loop binding: the broken-reference test reads the
original `schema`, and its assignment overrides the description-only one
(the two conditions are disjoint anyway, since a description-only schema
has no `$ref`).  `ks` is the schema-table key list, which the loop never
changes.  (A non-string `$ref` would raise on `.startswith` in
CPython.) -/
def fixProblematicOne (ks : List String) (_name : String) (v : JSON) : JSON :=
  match v with
  | .obj s =>
    let r1 :=
      if s.length = 1 && s.hasKey "description" then
        .obj (objOf [("type", .str "string"), ("description", descOr s)])
      else v
    match s.find? "$ref" with
    | some (.str r) =>
      if pyStartsWith "#/components/schemas/" r
          && !(ks.contains (lastSlashComponent r)) then
        .obj (objOf
          [("type", .str "string"),
           ("description", .str ("Reference to " ++ lastSlashComponent r))])
      else r1
    | _ => r1
  | _ => v

/-- `fix_problematic_patterns`. -/
def fixProblematicPatterns : JSON → JSON :=
  mapSchemas fixProblematicOne

mutual
/-- `remove_pattern_properties`: depth-first deletion of every
`patternProperties` entry in the whole document (the key is deleted before
the remaining values are visited, so nothing below a deleted entry
survives). -/
def removePatternProps : JSON → JSON
  | .obj o => .obj (removePatternPropsO o)
  | .arr a => .arr (removePatternPropsA a)
  | j => j
/-- `remove_pattern_properties` on an array. -/
def removePatternPropsA : JArr → JArr
  | .nil => .nil
  | .cons j t => .cons (removePatternProps j) (removePatternPropsA t)
/-- `remove_pattern_properties` on an object. -/
def removePatternPropsO : JObj → JObj
  | .nil => .nil
  | .cons k v t =>
    if k = "patternProperties" then removePatternPropsO t
    else .cons k (removePatternProps v) (removePatternPropsO t)
end

mutual
/-- Does any object at any depth carry the key `patternProperties`? -/
def hasPatternProps : JSON → Bool
  | .obj o => hasPatternPropsO o
  | .arr a => hasPatternPropsA a
  | _ => false
/-- `hasPatternProps` on an array. -/
def hasPatternPropsA : JArr → Bool
  | .nil => false
  | .cons j t => hasPatternProps j || hasPatternPropsA t
/-- `hasPatternProps` on an object. -/
def hasPatternPropsO : JObj → Bool
  | .nil => false
  | .cons k v t => k = "patternProperties" || hasPatternProps v || hasPatternPropsO t
end

/-- The whole fix pass of `fix_openapi_spec.py`'s `main` (parse and
re-serialisation aside): the four repair passes in program order. -/
def fixSpecScript (spec : JSON) : JSON :=
  removePatternProps (fixProblematicPatterns (fixAnyofSchemas (fixEmptySchemas spec)))

/-! ## Schema Repair Engine: `fix_openapi_spec` in `scripts/openapi_fixes.py` -/

/-- The `post` operation of a path item (`path_item['post']` guarded by
`'post' in path_item`; a non-object item would raise on indexing in
CPython and yields `none` here). -/
def postOfItem : JSON → Option JSON
  | .obj o => o.find? "post"
  | _ => none

/-- A path name stripped of leading and trailing slashes
(`path.strip('/')`). -/
def strippedName (p : String) : String :=
  ⟨pyStripChar '/' p.data⟩

/-- The `all_methods` loop of `fix_openapi_spec`: walk the path table in
order and bind each stripped path name to that path's `post` descriptor
(a later duplicate stripped name overwrites an earlier one, as in a
Python dict). -/
def allMethodsGo (acc : JObj) : List (String × JSON) → JObj
  | [] => acc
  | (p, item) :: rest =>
    match postOfItem item with
    | some v => allMethodsGo (acc.set (strippedName p) v) rest
    | none => allMethodsGo acc rest

/-- The collected method table. -/
def allMethods (paths : JObj) : JObj :=
  allMethodsGo .nil paths.toList

/-- The synthetic single operation descriptor that replaces the path
table: description, operationId, the method table under `x-methods`, and
the fixed request/response schema references. -/
def collapsedPostOp (methods : JObj) : JSON :=
  .obj (objOf
    [("description", .str "NEAR JSON-RPC endpoint"),
     ("operationId", .str "jsonrpc"),
     ("x-methods", .obj methods),
     ("requestBody", .obj (objOf
       [("content", .obj (objOf
         [("application/json", .obj (objOf
           [("schema", .obj (objOf
             [("$ref", .str "#/components/schemas/JsonRpcRequest")]))]))]))])),
     ("responses", .obj (objOf
       [("200", .obj (objOf
         [("description", .str "Successful response"),
          ("content", .obj (objOf
            [("application/json", .obj (objOf
              [("schema", .obj (objOf
                [("$ref", .str "#/components/schemas/JsonRpcResponse")]))]))]))]))]))])

/-- The endpoint-collapsing step of `fix_openapi_spec` (lines 21–59):
when the document has a `paths` table, collect the method table and
replace `paths` by the single synthetic `/` entry.  (A non-object `paths`
value would raise on `.items()` in CPython; modelled as unchanged.) -/
def collapseEndpoints (spec : JSON) : JSON :=
  match spec with
  | .obj o =>
    match o.find? "paths" with
    | some (.obj pe) =>
      .obj (o.set "paths"
        (.obj (objOf
          [("/", .obj (objOf [("post", collapsedPostOp (allMethods pe))]))])))
    | _ => .obj o
  | j => j

mutual
/-- The `fix_nullable_types` helper of `fix_openapi_spec`: mark any object
carrying both `type` and a truthy `nullable` with `x-nullable: True`, and
recurse into all values.  CPython sets the mark first and then recurses
over the mutated dict; since recursing into the atomic value `True` is the
identity, setting the mark after the recursion yields the same object, and
the guard reads the original entries either way. -/
def fixNullableSpec : JSON → JSON
  | .obj o =>
    let o2 := fixNullableSpecO o
    .obj
      (if o.hasKey "type" && o.hasKey "nullable" && truthyKey "nullable" o then
        o2.set "x-nullable" (.bool true)
      else o2)
  | .arr a => .arr (fixNullableSpecA a)
  | j => j
/-- `fix_nullable_types` on an array. -/
def fixNullableSpecA : JArr → JArr
  | .nil => .nil
  | .cons j t => .cons (fixNullableSpec j) (fixNullableSpecA t)
/-- `fix_nullable_types` on the values of an object. -/
def fixNullableSpecO : JObj → JObj
  | .nil => .nil
  | .cons k v t => .cons k (fixNullableSpec v) (fixNullableSpecO t)
end

mutual
/-- Python `str(val)` on a JSON value (`repr` escaping inside strings is
not reproduced; the enum values this renders are plain tokens). -/
def pyStr : JSON → String
  | .str s => s
  | .num n => toString n
  | .bool true => "True"
  | .bool false => "False"
  | .null => "None"
  | .arr a => "[" ++ pyStrA a ++ "]"
  | .obj o => "\x7b" ++ pyStrO o ++ "\x7d"
/-- Python `repr(val)` on a JSON value. -/
def pyReprVal : JSON → String
  | .str s => "\x27" ++ s ++ "\x27"
  | .num n => toString n
  | .bool true => "True"
  | .bool false => "False"
  | .null => "None"
  | .arr a => "[" ++ pyStrA a ++ "]"
  | .obj o => "\x7b" ++ pyStrO o ++ "\x7d"
/-- Comma-joined `repr`s of array elements. -/
def pyStrA : JArr → String
  | .nil => ""
  | .cons v .nil => pyReprVal v
  | .cons v t => pyReprVal v ++ ", " ++ pyStrA t
/-- Comma-joined `repr`ed entries of an object. -/
def pyStrO : JObj → String
  | .nil => ""
  | .cons k v .nil => "\x27" ++ k ++ "\x27: " ++ pyReprVal v
  | .cons k v t => "\x27" ++ k ++ "\x27: " ++ pyReprVal v ++ ", " ++ pyStrO t
end

/-- The enum-variable-name derivation of `fix_openapi_spec`:
`re.sub(r'[^a-zA-Z0-9_]', '_', str(val)).upper()`. -/
def enumVarname (val : JSON) : String :=
  ⟨((pyStr val).data.map (fun c => if isWordChar c then c else '_')).map pyUpperChar⟩

/-- The enum-naming step of `fix_openapi_spec`: every component schema
whose top level carries an `enum` list gains `x-enum-varnames`.  (A
non-list `enum` value is outside the modelled domain and left
unchanged.) -/
def enumVarnamesPass : JSON → JSON :=
  mapSchemas (fun _ _ v =>
    match v with
    | .obj s =>
      match s.find? "enum" with
      | some (.arr items) =>
        .obj (s.set "x-enum-varnames"
          (.arr (arrOf (items.toList.map (fun it => .str (enumVarname it))))))
      | _ => v
    | _ => v)

mutual
/-- The `add_descriptions` helper of `fix_openapi_spec`: any object with
`properties` but no `description` gains an auto-generated description
naming its path.  CPython appends the entry first and then recurses over
the mutated dict; since recursing into the appended string value is the
identity, appending it after the recursion yields the same object. -/
def addDescriptions : JSON → String → JSON
  | .obj o, path =>
    let o2 := addDescriptionsO o path
    .obj
      (if o.hasKey "properties" && !o.hasKey "description" then
        o2.set "description" (.str ("Auto-generated type for " ++ path))
      else o2)
  | .arr a, path => .arr (addDescriptionsA a path 0)
  | j, _ => j
/-- `add_descriptions` on an array, tracking element indices. -/
def addDescriptionsA : JArr → String → Nat → JArr
  | .nil, _, _ => .nil
  | .cons j t, path, i =>
    .cons (addDescriptions j (path ++ "[" ++ toString i ++ "]"))
      (addDescriptionsA t path (i + 1))
/-- `add_descriptions` on the values of an object. -/
def addDescriptionsO : JObj → String → JObj
  | .nil, _ => .nil
  | .cons k v t, path =>
    .cons k (addDescriptions v (if path = "" then k else path ++ "." ++ k))
      (addDescriptionsO t path)
end

/-- The whole spec transform of `fix_openapi_spec` in
`scripts/openapi_fixes.py`: endpoint collapsing, nullable marking, enum
variable names, and auto-descriptions, in program order. -/
def collapseScript (spec : JSON) : JSON :=
  addDescriptions (enumVarnamesPass (fixNullableSpec (collapseEndpoints spec))) ""

/-- Both repair scripts in the order the spec lists the passes:
the four-pass fix script and then the collapsing script. -/
def engineRepair (spec : JSON) : JSON :=
  collapseScript (fixSpecScript spec)

/-! ## Document accessors used in the claim statements -/

/-- The `paths` table of a document. -/
def pathsObj : JSON → Option JObj
  | .obj o =>
    match o.find? "paths" with
    | some (.obj pe) => some pe
    | _ => none
  | _ => none

/-- The `x-methods` table of the collapsed single endpoint. -/
def xMethodsObj (spec : JSON) : Option JObj :=
  match pathsObj spec with
  | some pe =>
    match pe.find? "/" with
    | some (.obj slash) =>
      match slash.find? "post" with
      | some (.obj post) =>
        match post.find? "x-methods" with
        | some (.obj m) => some m
        | _ => none
      | _ => none
    | _ => none
  | none => none

/-- Key list of the collapsed method table (empty when absent). -/
def xMethodsKeys (spec : JSON) : List String :=
  match xMethodsObj spec with
  | some m => m.keys
  | none => []

/-- The collapsed single `post` operation descriptor. -/
def collapsedOp (spec : JSON) : Option JSON :=
  match pathsObj spec with
  | some pe =>
    match pe.find? "/" with
    | some (.obj slash) => slash.find? "post"
    | _ => none
  | none => none

/-- The component schema table of a document (empty when absent). -/
def schemasOf (spec : JSON) : JObj :=
  match spec with
  | .obj o =>
    match o.find? "components" with
    | some (.obj co) =>
      match co.find? "schemas" with
      | some (.obj so) => so
      | _ => .nil
    | _ => .nil
  | _ => .nil

/-- The named path names of a document's path table, stripped of leading
and trailing slashes (the claim's "original path names"). -/
def strippedPathNames (spec : JSON) : List String :=
  match pathsObj spec with
  | some pe => pe.keys.map strippedName
  | none => []

/-- Look up a method in the collapsed method table. -/
def xMethodsFind (k : String) (spec : JSON) : Option JSON :=
  match xMethodsObj spec with
  | some m => m.find? k
  | none => none

/-- The path-table entries that carry a `post` operation. -/
def postPathEntries (pe : JObj) : List (String × JSON) :=
  pe.toList.filter (fun e => (postOfItem e.2).isSome)

/-- The replacement `fix_empty_schemas` installs for an empty schema
named `n`: the fixed table's entry when there is one, else the generic
fallback. -/
def fixEmptyReplacement (n : String) : JSON :=
  match emptySchemaFixes n with
  | some r => r
  | none => emptySchemaFallback n

/-- The claim's notion of an empty schema: none of the six keywords is
present at all (absence implies the code's truthiness-based test). -/
def claimEmptySchema (s : JObj) : Bool :=
  !s.hasKey "properties" && !s.hasKey "enum" && !s.hasKey "anyOf" &&
  !s.hasKey "oneOf" && !s.hasKey "allOf" && !s.hasKey "type"

/-- Does a schema value carry the key `anyOf` at its top level? -/
def schemaHasAnyOf : JSON → Bool
  | .obj s => s.hasKey "anyOf"
  | _ => false

/-- Does a schema value carry the key `oneOf` at its top level? -/
def schemaHasOneOf : JSON → Bool
  | .obj s => s.hasKey "oneOf"
  | _ => false

/-- A named schema's union is resolvable by `fix_anyof_schemas`: whenever
its top level carries `anyOf`, either the hard-coded `BlockId` rewrite
applies, or the `Rpc…Request` rewrite applies and derives at least one
property, or the generic fallback finds a first truthy non-`null`
alternative that itself carries no top-level `anyOf`. -/
def anyofResolvable (name : String) (s : JObj) : Prop :=
  ∀ av, s.find? "anyOf" = some av →
    name = "BlockId" ∨
    (containsStr "Rpc" name = true ∧ containsStr "Request" name = true ∧
      ∃ items, av = .arr items ∧ derivedProps items ≠ JObj.nil) ∨
    ((containsStr "Rpc" name && containsStr "Request" name) = false ∧
      ∃ items it, av = .arr items ∧ firstNonNull items.toList = some it ∧
        schemaHasAnyOf it = false)

/-! ## Concrete documents and contents for the counterexamples and
witnesses -/

/-- A path table whose only path has no `post` operation. -/
def pathsNoPostDoc : JSON :=
  .obj (objOf [("paths", .obj (objOf [("/foo", .obj .nil)]))])

/-- A document with an empty path table. -/
def emptyPathsDoc : JSON :=
  .obj (objOf [("paths", .obj .nil)])

/-- A path table with two distinct `post`-bearing paths. -/
def twoPathsDoc : JSON :=
  .obj (objOf
    [("paths", .obj (objOf
      [("/a_method", .obj (objOf [("post", .str "opA")])),
       ("/b_method", .obj (objOf [("post", .str "opB")]))]))])

/-- A schema document with a `oneOf` union and an `anyOf` union whose
only alternative is `{'type': 'null'}`. -/
def unionCounterexampleDoc : JSON :=
  .obj (objOf
    [("components", .obj (objOf
      [("schemas", .obj (objOf
        [("U", .obj (objOf
          [("oneOf", .arr (arrOf [.obj (objOf [("type", .str "string")])]))])),
         ("V", .obj (objOf
           [("anyOf", .arr (arrOf [.obj (objOf [("type", .str "null")])]))]))]))]))])

/-- A schema document exercising the three union-resolution strategies. -/
def unionWitnessDoc : JSON :=
  .obj (objOf
    [("components", .obj (objOf
      [("schemas", .obj (objOf
        [("W", .obj (objOf
          [("anyOf", .arr (arrOf
            [.obj (objOf [("type", .str "null")]),
             .obj (objOf [("type", .str "string")])]))]))]))]))])

/-- A schema document with an empty `AccountId` schema, an unknown empty
schema, and a non-empty schema. -/
def emptySchemasDoc : JSON :=
  .obj (objOf
    [("components", .obj (objOf
      [("schemas", .obj (objOf
        [("AccountId", .obj .nil),
         ("Zzz", .obj .nil),
         ("Keep", .obj (objOf [("type", .str "string")]))]))]))])

/-- A schema document whose dangling `$ref` sits nested inside a
property, where the repair never looks. -/
def nestedRefDoc : JSON :=
  .obj (objOf
    [("components", .obj (objOf
      [("schemas", .obj (objOf
        [("Foo", .obj (objOf
          [("type", .str "object"),
           ("properties", .obj (objOf
             [("x", .obj (objOf
               [("$ref", .str "#/components/schemas/Missing")]))]))]))]))]))])

/-- A schema document with one resolving and one dangling top-level
reference. -/
def topRefDoc : JSON :=
  .obj (objOf
    [("components", .obj (objOf
      [("schemas", .obj (objOf
        [("A", .obj (objOf [("$ref", .str "#/components/schemas/B")])),
         ("B", .obj (objOf [("type", .str "string")])),
         ("C", .obj (objOf [("$ref", .str "#/components/schemas/Zap")]))]))]))])

/-- A document with a `patternProperties` key nested under a property. -/
def patternPropsDoc : JSON :=
  .obj (objOf
    [("components", .obj (objOf
      [("schemas", .obj (objOf
        [("M", .obj (objOf
          [("type", .str "object"),
           ("patternProperties", .obj (objOf
             [(".*", .obj (objOf [("type", .str "string")]))]))]))]))]))])

/-- The named schema bound to `n` (or `null` when absent). -/
def schemaAt (n : String) (doc : JSON) : JSON :=
  ((schemasOf doc).find? n).getD .null

/-- The underscore-joined tail of a snake_case identifier: one leading
underscore before each further token.  `t0 ++ underscoreJoin toks` is the
general form of an identifier matched by the field pattern
`[a-z]+(?:_[a-z]+)+` when `t0` and every token are nonempty and
all-lowercase. -/
def underscoreJoin : List (List Char) → List Char
  | [] => []
  | t :: ts => '_' :: (t ++ underscoreJoin ts)

/-- An enum value that is a plain identifier: nonempty, word characters
only (so in particular it carries no annotation and no constructor
arguments). -/
def plainEnumVal (v : List Char) : Prop :=
  v ≠ [] ∧ ∀ ch ∈ v, isWordChar ch = true

/-- An enum value already carrying a serialized-name annotation on the
line above it, in the layout `fix_enum_serialization` itself emits. -/
def annotatedEnumVal (v : List Char) : Prop :=
  ∃ lit w, v = "@SerialName(\"".toList ++ lit ++ "\")\n    ".toList ++ w ∧
    lit ≠ [] ∧ (∀ ch ∈ lit, isWordChar ch = true ∨ ch = '-') ∧
    w ≠ [] ∧ ∀ ch ∈ w, isWordChar ch = true

mutual
/-- All `#/components/schemas/…` reference tails occurring anywhere in a
document (on any object, at any depth). -/
def refTails : JSON → List String
  | .obj o => refTailsO o
  | .arr a => refTailsA a
  | _ => []
  termination_by structural j => j
/-- `refTails` on an array. -/
def refTailsA : JArr → List String
  | .nil => []
  | .cons j t => refTails j ++ refTailsA t
  termination_by structural a => a
/-- `refTails` on an object, including the object's own `$ref`. -/
def refTailsO : JObj → List String
  | .nil => []
  | .cons k v t =>
    (if k = "$ref" then
      match v with
      | .str r =>
        if pyStartsWith "#/components/schemas/" r then
          [lastSlashComponent r]
        else []
      | _ => []
    else []) ++ refTails v ++ refTailsO t
  termination_by structural o => o
end

/-- Does the document contain a `$ref` into the component schema table
whose target name is absent from it? -/
def hasDanglingRef (spec : JSON) : Bool :=
  (refTails spec).any (fun t => !(schemasOf spec).keys.contains t)

/-! ## Source Rewrite Pipeline: `fix_generated_kotlin` in
`scripts/openapi_fixes.py`

Each Python `re.sub` becomes `pySub step`, a left-to-right scan over the
content: at each position the hand-compiled matcher `step` either
recognises the pattern (returning the replacement text and the number of
consumed characters, always at least one since every pattern starts with
a nonempty literal) and the scan resumes after the consumed span, or the
character is copied — exactly `re.sub`'s non-overlapping leftmost
semantics.  The matcher also receives the already-scanned prefix of the
*original* content in reverse, because `fix_serialization_annotations`
inspects `content[:match.start()]`. -/

/-- Push a list onto an accumulator in reverse. -/
def revApp : List Char → List Char → List Char
  | [], acc => acc
  | c :: t, acc => revApp t (c :: acc)

/-- The `re.sub` scan; `fuel` starts at the content length, which bounds
the number of steps since every match consumes at least one character. -/
def subScanGo (step : List Char → List Char → Option (List Char × Nat)) :
    Nat → List Char → List Char → List Char
  | 0, _, s => s
  | _ + 1, _, [] => []
  | fuel + 1, preRev, c :: cs =>
    match step preRev (c :: cs) with
    | some (rep, k) =>
      rep ++ subScanGo step fuel (revApp (List.take k (c :: cs)) preRev)
        (List.drop k (c :: cs))
    | none => c :: subScanGo step fuel (c :: preRev) cs

/-- One whole `re.sub` application. -/
def pySub (step : List Char → List Char → Option (List Char × Nat))
    (s : List Char) : List Char :=
  subScanGo step s.length [] s

/-- Match a literal, returning the rest. -/
def matchLit : List Char → List Char → Option (List Char)
  | [], s => some s
  | _ :: _, [] => none
  | a :: as, b :: bs => if a = b then matchLit as bs else none

/-- Greedy character-class munch: the maximal matching prefix and the
rest. -/
def munch (p : Char → Bool) (s : List Char) : List Char × List Char :=
  (s.takeWhile p, s.dropWhile p)

/-- Greedy `(?:_[a-z]+)*`: consumed characters and rest. -/
def snakeMore : Nat → List Char → List Char × List Char
  | 0, s => ([], s)
  | fuel + 1, s =>
    match s with
    | '_' :: c :: rest =>
      if isLowerAZ c then
        let (tk, r) := munch isLowerAZ rest
        let (gs, r2) := snakeMore fuel r
        ('_' :: c :: (tk ++ gs), r2)
      else ([], s)
    | _ => ([], s)

/-- Greedy `(?:_[a-z]+)+` (at least one group). -/
def snakeParts (s : List Char) : Option (List Char × List Char) :=
  match snakeMore s.length s with
  | ([], _) => none
  | (gs, r) => some (gs, r)

/-- Matcher for `fix_serialization_annotations`'s pattern
`val\s+([a-z]+(?:_[a-z]+)+)\s*:` with its replacement function: the
camel-cased declaration, preceded by a `@SerialName` annotation carrying
the snake_case name unless `@SerialName` already occurs in the text of
the match's own line (`content[:match.start()]` after its last
newline). -/
def serAnnStep (preRev s : List Char) : Option (List Char × Nat) :=
  match matchLit ("val".toList) s with
  | none => none
  | some r0 =>
    let (ws1, r1) := munch isPySpace r0
    if ws1 = [] then none else
    let (t0, r2) := munch isLowerAZ r1
    if t0 = [] then none else
    match snakeParts r2 with
    | none => none
    | some (gs, r3) =>
      let snake := t0 ++ gs
      let r4 := (munch isPySpace r3).2
      match matchLit [':'] r4 with
      | none => none
      | some r5 =>
        let lastLine := (preRev.takeWhile (· ≠ '\n')).reverse
        let rep :=
          if containsSub ("@SerialName".toList) lastLine then
            "val ".toList ++ snake_to_camel snake ++ [':']
          else
            let ind := List.replicate (lastLine.takeWhile isPySpace).length ' '
            ind ++ "@SerialName(\"".toList ++ snake ++ "\")\n".toList ++
              ind ++ "val ".toList ++ snake_to_camel snake ++ [':']
        some (rep, s.length - r5.length)

/-- `fix_serialization_annotations`. -/
def fix_serialization_annotations (c : List Char) : List Char :=
  pySub serAnnStep c

/-- Matcher for `:\s*Optional<([^>]+)>` with replacement `: \1?`. -/
def optionalStep (_preRev s : List Char) : Option (List Char × Nat) :=
  match matchLit [':'] s with
  | none => none
  | some r0 =>
    let r1 := (munch isPySpace r0).2
    match matchLit ("Optional<".toList) r1 with
    | none => none
    | some r2 =>
      let (g, r3) := munch (· ≠ '>') r2
      if g = [] then none else
      match matchLit ['>'] r3 with
      | none => none
      | some r4 => some (": ".toList ++ g ++ ['?'], s.length - r4.length)

/-- Matcher for `:\s*Array<([^>]+)>` with replacement `: List<\1>`. -/
def arrayStep (_preRev s : List Char) : Option (List Char × Nat) :=
  match matchLit [':'] s with
  | none => none
  | some r0 =>
    let r1 := (munch isPySpace r0).2
    match matchLit ("Array<".toList) r1 with
    | none => none
    | some r2 =>
      let (g, r3) := munch (· ≠ '>') r2
      if g = [] then none else
      match matchLit ['>'] r3 with
      | none => none
      | some r4 => some (": List<".toList ++ g ++ ['>'], s.length - r4.length)

/-- `fix_nullable_types_kotlin`: the `Optional` rewrite, then the `Array`
rewrite. -/
def fix_nullable_types_kotlin (c : List Char) : List Char :=
  pySub arrayStep (pySub optionalStep c)

/-- Is the scan at the start of a line (`^` with `re.MULTILINE`)? -/
def atLineStart : List Char → Bool
  | [] => true
  | c :: _ => c = '\n'

/-- Matcher for `^(data\s+class\s+\w+)` (multiline; `\s` may cross
lines) with replacement `@Serializable\n\1`. -/
def dataClassStep (preRev s : List Char) : Option (List Char × Nat) :=
  if !atLineStart preRev then none else
  match matchLit ("data".toList) s with
  | none => none
  | some r0 =>
    let (ws1, r1) := munch isPySpace r0
    if ws1 = [] then none else
    match matchLit ("class".toList) r1 with
    | none => none
    | some r2 =>
      let (ws2, r3) := munch isPySpace r2
      if ws2 = [] then none else
      let (nm, r4) := munch isWordChar r3
      if nm = [] then none else
      let k := s.length - r4.length
      some ("@Serializable\n".toList ++ List.take k s, k)

/-- Matcher for `^(enum\s+class\s+\w+)` with replacement
`@Serializable\n\1`. -/
def enumClassStep (preRev s : List Char) : Option (List Char × Nat) :=
  if !atLineStart preRev then none else
  match matchLit ("enum".toList) s with
  | none => none
  | some r0 =>
    let (ws1, r1) := munch isPySpace r0
    if ws1 = [] then none else
    match matchLit ("class".toList) r1 with
    | none => none
    | some r2 =>
      let (ws2, r3) := munch isPySpace r2
      if ws2 = [] then none else
      let (nm, r4) := munch isWordChar r3
      if nm = [] then none else
      let k := s.length - r4.length
      some ("@Serializable\n".toList ++ List.take k s, k)

/-- Consume `\s*\n` greedily: the maximal whitespace run must contain a
newline, and the match ends at the run's last newline. -/
def munchWsThruNewline (s : List Char) : Option (List Char) :=
  let ws := s.takeWhile isPySpace
  let pre := ws.reverse.dropWhile (· ≠ '\n')
  if pre = [] then none else some (s.drop pre.length)

/-- Consume `(@Serializable\s*\n)+` greedily: at least one unit, as many
as match. -/
def serializableUnits : Nat → List Char → Option (List Char)
  | 0, _ => none
  | fuel + 1, s =>
    match matchLit ("@Serializable".toList) s with
    | none => none
    | some r0 =>
      match munchWsThruNewline r0 with
      | none => none
      | some r1 =>
        match serializableUnits fuel r1 with
        | some r2 => some r2
        | none => some r1

/-- Matcher for the de-duplication `(@Serializable\s*\n)+` with
replacement `@Serializable\n`. -/
def dedupStep (_preRev s : List Char) : Option (List Char × Nat) :=
  match serializableUnits s.length s with
  | some r => some ("@Serializable\n".toList, s.length - r.length)
  | none => none

/-- `add_serializable_annotations`: annotate data classes, annotate enum
classes, then collapse runs of repeated markers. -/
def add_serializable_annotations (c : List Char) : List Char :=
  pySub dedupStep (pySub enumClassStep (pySub dataClassStep c))

/-- Join pieces with a separator (Python `sep.join`). -/
def joinSep (sep : List Char) : List (List Char) → List Char
  | [] => []
  | [x] => x
  | x :: xs => x ++ sep ++ joinSep sep xs

/-- The per-value rewrite of `fix_enum_serialization`: a value without a
`@SerialName` occurrence gains an annotation whose literal is the value
with underscores replaced by hyphens, lower-cased; an annotated value is
re-emitted with the standard indent only. -/
def enumEntry (v : List Char) : List Char :=
  if containsSub ("@SerialName".toList) v then
    "    ".toList ++ v
  else
    "    @SerialName(\"".toList ++
      ((v.map (fun c => if c = '_' then '-' else c)).map pyLowerChar) ++
      "\")\n    ".toList ++ v

/-- Matcher for `enum\s+class\s+(\w+)[^{]*\{([^}]+)\}` (dotall) with
`fix_enum_serialization`'s replacement function: the body is split on
commas, each piece stripped, empty pieces dropped, each remaining value
rewritten by `enumEntry`, and the declaration is re-assembled with a
normalised header. -/
def enumSerStep (_preRev s : List Char) : Option (List Char × Nat) :=
  match matchLit ("enum".toList) s with
  | none => none
  | some r0 =>
    let (ws1, r1) := munch isPySpace r0
    if ws1 = [] then none else
    match matchLit ("class".toList) r1 with
    | none => none
    | some r2 =>
      let (ws2, r3) := munch isPySpace r2
      if ws2 = [] then none else
      let (nm, r4) := munch isWordChar r3
      if nm = [] then none else
      let r5 := (munch (· ≠ '\x7b') r4).2
      match matchLit ['\x7b'] r5 with
      | none => none
      | some r6 =>
        let (body, r7) := munch (· ≠ '\x7d') r6
        if body = [] then none else
        match matchLit ['\x7d'] r7 with
        | none => none
        | some r8 =>
          let values :=
            ((pySplitOn ',' (pyStrip body)).map pyStrip).filter (· ≠ [])
          let rep :=
            "enum class ".toList ++ nm ++ " \x7b\n".toList ++
              joinSep (",\n".toList) (values.map enumEntry) ++ "\n\x7d".toList
          some (rep, s.length - r8.length)

/-- `fix_enum_serialization`. -/
def fix_enum_serialization (c : List Char) : List Char :=
  pySub enumSerStep c

/-- Matcher for
`@(GET|POST|PUT|DELETE)\("([^"]+)"\)\s*\n\s*suspend fun (\w+)` with
replacement `suspend fun \3`. -/
def apiCallStep (_preRev s : List Char) : Option (List Char × Nat) :=
  match matchLit ['@'] s with
  | none => none
  | some r0 =>
    let verb :=
      match matchLit ("GET".toList) r0 with
      | some r => some r
      | none =>
        match matchLit ("POST".toList) r0 with
        | some r => some r
        | none =>
          match matchLit ("PUT".toList) r0 with
          | some r => some r
          | none => matchLit ("DELETE".toList) r0
    match verb with
    | none => none
    | some r1 =>
      match matchLit ("(\"".toList) r1 with
      | none => none
      | some r2 =>
        let (path, r3) := munch (· ≠ '"') r2
        if path = [] then none else
        match matchLit ("\")".toList) r3 with
        | none => none
        | some r4 =>
          let (ws, r5) := munch isPySpace r4
          if !ws.any (· = '\n') then none else
          match matchLit ("suspend fun ".toList) r5 with
          | none => none
          | some r6 =>
            let (nm, r7) := munch isWordChar r6
            if nm = [] then none else
            some ("suspend fun ".toList ++ nm, s.length - r7.length)

/-- Matcher for `interface\s+\w+Api\s*\{` with replacement
`interface NearJsonRpcApi {` (the word run must wholly end in `Api` with
at least one character before it, since `\{` cannot follow a word
character). -/
def apiIfaceStep (_preRev s : List Char) : Option (List Char × Nat) :=
  match matchLit ("interface".toList) s with
  | none => none
  | some r0 =>
    let (ws1, r1) := munch isPySpace r0
    if ws1 = [] then none else
    let (w, r2) := munch isWordChar r1
    if !(endsWithL ("Api".toList) w && 4 ≤ w.length) then none else
    let r3 := (munch isPySpace r2).2
    match matchLit ['\x7b'] r3 with
    | none => none
    | some r4 => some ("interface NearJsonRpcApi \x7b".toList, s.length - r4.length)

/-- Matcher for `retrofit\.create\(\w+Api::class\.java\)` with its fixed
replacement. -/
def apiCreateStep (_preRev s : List Char) : Option (List Char × Nat) :=
  match matchLit ("retrofit.create(".toList) s with
  | none => none
  | some r0 =>
    let (w, r1) := munch isWordChar r0
    if !(endsWithL ("Api".toList) w && 4 ≤ w.length) then none else
    match matchLit ("::class.java)".toList) r1 with
    | none => none
    | some r2 =>
      some ("retrofit.create(NearJsonRpcApi::class.java)".toList, s.length - r2.length)

/-- `fix_api_client_paths`: the three substitutions in program order. -/
def fix_api_client_paths (c : List Char) : List Char :=
  pySub apiCreateStep (pySub apiIfaceStep (pySub apiCallStep c))

/-- First conditional of `fix_imports`: prepend the `Serializable` import
when `@Serializable` occurs without any `kotlinx.serialization` import. -/
def importSerializableStep (c : List Char) : List Char :=
  if containsSub ("@Serializable".toList) c &&
      !containsSub ("import kotlinx.serialization".toList) c then
    "import kotlinx.serialization.Serializable\n".toList ++ c
  else c

/-- Second conditional of `fix_imports`: prepend the `SerialName` import
when `@SerialName` occurs without it. -/
def importSerialNameStep (c : List Char) : List Char :=
  if containsSub ("@SerialName".toList) c &&
      !containsSub ("import kotlinx.serialization.SerialName".toList) c then
    "import kotlinx.serialization.SerialName\n".toList ++ c
  else c

/-- `fix_imports`: the two conditionals in program order. -/
def fix_imports (c : List Char) : List Char :=
  importSerialNameStep (importSerializableStep c)

/-- The whole per-file rewrite of `fix_generated_kotlin`: the six passes
in program order. -/
def fixGeneratedContent (c : List Char) : List Char :=
  fix_api_client_paths
    (fix_enum_serialization
      (add_serializable_annotations
        (fix_nullable_types_kotlin
          (fix_serialization_annotations
            (fix_imports c)))))

/-- The per-file rewrite on `String`. -/
def fixGeneratedString (s : String) : String :=
  ⟨fixGeneratedContent s.data⟩

/-! ## Helper lemmas -/

/-- A prefix of a list is a prefix of any extension. -/
theorem startsWithL_append {n s : List Char} (r : List Char)
    (h : startsWithL n s = true) : startsWithL n (s ++ r) = true := by
  induction n generalizing s with
  | nil => simp [startsWithL]
  | cons a as ih =>
    cases s with
    | nil => simp [startsWithL] at h
    | cons b bs =>
      simp only [startsWithL, Bool.and_eq_true] at h ⊢
      exact ⟨h.1, ih h.2⟩

/-- A list starting with the needle contains it. -/
theorem containsSub_of_startsWithL {n s : List Char}
    (h : startsWithL n s = true) : containsSub n s = true := by
  cases s with
  | nil => simpa [containsSub] using h
  | cons c cs => simp [containsSub, h]

/-- Containment is preserved by prepending. -/
theorem containsSub_append_right {n c : List Char} (p : List Char)
    (h : containsSub n c = true) : containsSub n (p ++ c) = true := by
  induction p with
  | nil => simpa using h
  | cons a t ih =>
    simp only [List.cons_append, containsSub, List.append_eq, ih, Bool.or_true]

/-- A needle that starts the prepended block is contained in the whole. -/
theorem containsSub_append_left {n p : List Char} (c : List Char)
    (h : startsWithL n p = true) : containsSub n (p ++ c) = true :=
  containsSub_of_startsWithL (startsWithL_append c h)

mutual
/-- No `patternProperties` key survives `remove_pattern_properties`. -/
theorem no_pp_removePatternProps :
    ∀ j, hasPatternProps (removePatternProps j) = false
  | .null => rfl
  | .bool _ => rfl
  | .num _ => rfl
  | .str _ => rfl
  | .arr a => by
    simpa [removePatternProps, hasPatternProps] using no_pp_removePatternPropsA a
  | .obj o => by
    simpa [removePatternProps, hasPatternProps] using no_pp_removePatternPropsO o
/-- Array case of `no_pp_removePatternProps`. -/
theorem no_pp_removePatternPropsA :
    ∀ a, hasPatternPropsA (removePatternPropsA a) = false
  | .nil => rfl
  | .cons j t => by
    simp [removePatternPropsA, hasPatternPropsA, no_pp_removePatternProps j,
      no_pp_removePatternPropsA t]
/-- Object case of `no_pp_removePatternProps`. -/
theorem no_pp_removePatternPropsO :
    ∀ o, hasPatternPropsO (removePatternPropsO o) = false
  | .nil => rfl
  | .cons k v t => by
    by_cases h : k = "patternProperties"
    · simpa [removePatternPropsO, h] using no_pp_removePatternPropsO t
    · simp [removePatternPropsO, h, hasPatternPropsO,
        no_pp_removePatternProps v, no_pp_removePatternPropsO t]
end

mutual
/-- On a document with no `patternProperties` key anywhere,
`remove_pattern_properties` is the identity. -/
theorem removePatternProps_eq_self :
    ∀ j, hasPatternProps j = false → removePatternProps j = j
  | .null, _ => rfl
  | .bool _, _ => rfl
  | .num _, _ => rfl
  | .str _, _ => rfl
  | .arr a, h => by
    simp only [hasPatternProps] at h
    simp [removePatternProps, removePatternPropsA_eq_self a h]
  | .obj o, h => by
    simp only [hasPatternProps] at h
    simp [removePatternProps, removePatternPropsO_eq_self o h]
/-- Array case of `removePatternProps_eq_self`. -/
theorem removePatternPropsA_eq_self :
    ∀ a, hasPatternPropsA a = false → removePatternPropsA a = a
  | .nil, _ => rfl
  | .cons j t, h => by
    simp only [hasPatternPropsA, Bool.or_eq_false_iff] at h
    simp [removePatternPropsA, removePatternProps_eq_self j h.1,
      removePatternPropsA_eq_self t h.2]
/-- Object case of `removePatternProps_eq_self`. -/
theorem removePatternPropsO_eq_self :
    ∀ o, hasPatternPropsO o = false → removePatternPropsO o = o
  | .nil, _ => rfl
  | .cons k v t, h => by
    simp only [hasPatternPropsO, Bool.or_eq_false_iff, decide_eq_false_iff_not] at h
    obtain ⟨⟨h1, h2⟩, h3⟩ := h
    simp [removePatternPropsO, h1, removePatternProps_eq_self v h2,
      removePatternPropsO_eq_self t h3]
end

/-- `remove_pattern_properties` is idempotent. -/
theorem removePatternProps_idem (j : JSON) :
    removePatternProps (removePatternProps j) = removePatternProps j :=
  removePatternProps_eq_self _ (no_pp_removePatternProps j)

/-- Python `split` never returns an empty piece list. -/
theorem pySplitOn_ne_nil (sep : Char) (s : List Char) :
    pySplitOn sep s ≠ [] := by
  induction s with
  | nil => simp [pySplitOn]
  | cons c cs ih =>
    simp only [pySplitOn]
    split
    · simp
    · rcases h : pySplitOn sep cs with _ | ⟨p, ps⟩ <;> simp [h]

/-- No piece produced by Python `split` contains the separator. -/
theorem not_mem_of_mem_pySplitOn {sep : Char} {s p : List Char}
    (h : p ∈ pySplitOn sep s) : sep ∉ p := by
  induction s generalizing p with
  | nil =>
    simp only [pySplitOn, List.mem_singleton] at h
    subst h; simp
  | cons c cs ih =>
    simp only [pySplitOn] at h
    by_cases hc : c = sep
    · simp only [if_pos hc, List.mem_cons] at h
      rcases h with h | h
      · subst h; simp
      · exact ih h
    · simp only [if_neg hc] at h
      rcases hq : pySplitOn sep cs with _ | ⟨q, qs⟩
      · exact absurd hq (pySplitOn_ne_nil sep cs)
      · rw [hq, List.mem_cons] at h
        rcases h with h | h
        · subst h
          intro hm
          rcases List.mem_cons.mp hm with hm | hm
          · exact hc hm.symm
          · exact ih (by rw [hq]; exact List.mem_cons_self q qs) hm
        · exact ih (by rw [hq]; exact List.mem_cons_of_mem q h)

/-- Python `split` on a separator-free string returns the whole string. -/
theorem pySplitOn_eq_self {sep : Char} {s : List Char} (h : sep ∉ s) :
    pySplitOn sep s = [s] := by
  induction s with
  | nil => rfl
  | cons c cs ih =>
    simp only [List.mem_cons, not_or] at h
    simp [pySplitOn, Ne.symm h.1, ih h.2]

/-- ASCII lower-casing sends no other character to `_`. -/
theorem pyLowerChar_ne_underscore {c : Char} (h : c ≠ '_') :
    pyLowerChar c ≠ '_' := by
  unfold pyLowerChar
  split
  · intro hc
    rename_i hr
    simp only [Bool.and_eq_true, decide_eq_true_eq] at hr
    have h1 : c.toNat ≤ 90 := hr.2
    have h2 : 65 ≤ c.toNat := hr.1
    have hv : (c.toNat + 32).isValidChar := by constructor; omega
    have h3 := congrArg Char.toNat hc
    rw [Char.ofNat, dif_pos hv] at h3
    have h4 : ('_').toNat = 95 := by decide
    have h5 : (Char.ofNatAux (c.toNat + 32) hv).toNat = c.toNat + 32 := rfl
    rw [h5] at h3
    omega
  · exact h

/-- ASCII upper-casing sends no other character to `_`. -/
theorem pyUpperChar_ne_underscore {c : Char} (h : c ≠ '_') :
    pyUpperChar c ≠ '_' := by
  unfold pyUpperChar
  split
  · intro hc
    rename_i hr
    simp only [Bool.and_eq_true, decide_eq_true_eq] at hr
    have h1 : c.toNat ≤ 122 := hr.2
    have h2 : 97 ≤ c.toNat := hr.1
    have hv : (c.toNat - 32).isValidChar := by constructor; omega
    have h3 := congrArg Char.toNat hc
    rw [Char.ofNat, dif_pos hv] at h3
    have h4 : ('_').toNat = 95 := by decide
    have h5 : (Char.ofNatAux (c.toNat - 32) hv).toNat = c.toNat - 32 := rfl
    rw [h5] at h3
    omega
  · exact h

/-- `str.title` introduces no underscore. -/
theorem not_underscore_mem_pyTitleGo {l : List Char} (b : Bool)
    (h : '_' ∉ l) : '_' ∉ pyTitleGo b l := by
  induction l generalizing b with
  | nil => simp [pyTitleGo]
  | cons c cs ih =>
    simp only [List.mem_cons, not_or] at h
    simp only [pyTitleGo]
    split
    · intro hm
      rcases List.mem_cons.mp hm with hm | hm
      · split at hm
        · exact pyLowerChar_ne_underscore (Ne.symm h.1) hm.symm
        · exact pyUpperChar_ne_underscore (Ne.symm h.1) hm.symm
      · exact ih true h.2 hm
    · intro hm
      rcases List.mem_cons.mp hm with hm | hm
      · exact h.1 hm
      · exact ih false h.2 hm

/-- `snake_to_camel` produces an underscore-free string. -/
theorem not_underscore_mem_snake_to_camel (s : List Char) :
    '_' ∉ snake_to_camel s := by
  unfold snake_to_camel
  rcases h : pySplitOn '_' s with _ | ⟨p, ps⟩
  · simp
  · intro hm
    rcases List.mem_append.mp hm with hm | hm
    · exact not_mem_of_mem_pySplitOn (by rw [h]; exact List.mem_cons_self p ps) hm
    · rcases List.mem_flatten.mp hm with ⟨piece, hp, hmem⟩
      rcases List.mem_map.mp hp with ⟨q, hq, rfl⟩
      have hq' : q ∈ pySplitOn '_' s := by
        rw [h]; exact List.mem_cons_of_mem p hq
      exact not_underscore_mem_pyTitleGo false (not_mem_of_mem_pySplitOn hq') hmem

/-- Setting a key makes it found with the new value. -/
theorem JObj.find?_set_self :
    ∀ (o : JObj) (k : String) (v : JSON), (o.set k v).find? k = some v
  | .nil, k, v => by simp [JObj.set, JObj.find?]
  | .cons k' v' t, k, v => by
    by_cases h : k' = k
    · simp [JObj.set, JObj.find?, h]
    · simp [JObj.set, JObj.find?, h, JObj.find?_set_self t k v]

/-- Setting a key leaves other keys' values unchanged. -/
theorem JObj.find?_set_ne :
    ∀ (o : JObj) {k k' : String} (v : JSON), k' ≠ k →
      (o.set k v).find? k' = o.find? k'
  | .nil, k, k', v, h => by simp [JObj.set, JObj.find?, Ne.symm h]
  | .cons k0 v0 t, k, k', v, h => by
    by_cases h0 : k0 = k
    · subst h0
      simp [JObj.set, JObj.find?, Ne.symm h]
    · by_cases h1 : k0 = k'
      · simp [JObj.set, JObj.find?, h0, h1, h]
      · simp [JObj.set, JObj.find?, h0, h1, JObj.find?_set_ne t v h]

/-- Key membership after a set. -/
theorem JObj.mem_keys_set :
    ∀ (o : JObj) (k m : String) (v : JSON),
      m ∈ (o.set k v).keys ↔ m = k ∨ m ∈ o.keys
  | .nil, k, m, v => by simp [JObj.set, JObj.keys]
  | .cons k' v' t, k, m, v => by
    by_cases h : k' = k
    · subst h
      simp only [JObj.set, if_pos rfl, JObj.keys, List.mem_cons]
      tauto
    · simp only [JObj.set, if_neg h, JObj.keys, List.mem_cons,
        JObj.mem_keys_set t k m v]
      tauto

/-- `mapVals` preserves the key list. -/
theorem JObj.keys_mapVals (f : String → JSON → JSON) :
    ∀ o : JObj, (o.mapVals f).keys = o.keys
  | .nil => rfl
  | .cons k v t => by simp [JObj.mapVals, JObj.keys, JObj.keys_mapVals f t]

/-- `mapVals` acts pointwise on lookups. -/
theorem JObj.find?_mapVals (f : String → JSON → JSON) :
    ∀ (o : JObj) (k : String),
      (o.mapVals f).find? k = (o.find? k).map (f k)
  | .nil, k => rfl
  | .cons k' v t, k => by
    by_cases h : k' = k
    · simp [JObj.mapVals, JObj.find?, h]
    · simp [JObj.mapVals, JObj.find?, h, JObj.find?_mapVals f t k]

/-- What `mapSchemas` does to the schema table of a well-formed
document. -/
theorem schemasOf_mapSchemas (f : List String → String → JSON → JSON)
    (o co so : JObj)
    (hc : o.find? "components" = some (.obj co))
    (hs : co.find? "schemas" = some (.obj so)) :
    schemasOf (mapSchemas f (.obj o)) = so.mapVals (f so.keys) := by
  simp [mapSchemas, hc, hs, schemasOf, JObj.find?_set_self]

/-- Key membership of the collected method table. -/
theorem mem_keys_allMethodsGo (l : List (String × JSON)) (acc : JObj)
    (k : String) :
    k ∈ (allMethodsGo acc l).keys ↔
      k ∈ acc.keys ∨
        ∃ p it, (p, it) ∈ l ∧ (postOfItem it).isSome = true ∧
          strippedName p = k := by
  induction l generalizing acc with
  | nil => simp [allMethodsGo]
  | cons e rest ih =>
    obtain ⟨p, it⟩ := e
    cases hpost : postOfItem it with
    | some v =>
      simp only [allMethodsGo, hpost, ih, JObj.mem_keys_set, List.mem_cons]
      constructor
      · rintro ((h | h) | ⟨q, qt, hq, hq2, hq3⟩)
        · exact Or.inr ⟨p, it, Or.inl rfl, by simp [hpost], h.symm⟩
        · exact Or.inl h
        · exact Or.inr ⟨q, qt, Or.inr hq, hq2, hq3⟩
      · rintro (h | ⟨q, qt, hq | hq, hq2, hq3⟩)
        · exact Or.inl (Or.inr h)
        · obtain ⟨rfl, rfl⟩ := Prod.mk.injEq .. ▸ hq
          exact Or.inl (Or.inl hq3.symm)
        · exact Or.inr ⟨q, qt, hq, hq2, hq3⟩
    | none =>
      simp only [allMethodsGo, hpost, ih, List.mem_cons]
      constructor
      · rintro (h | ⟨q, qt, hq, hq2, hq3⟩)
        · exact Or.inl h
        · exact Or.inr ⟨q, qt, Or.inr hq, hq2, hq3⟩
      · rintro (h | ⟨q, qt, hq | hq, hq2, hq3⟩)
        · exact Or.inl h
        · obtain ⟨rfl, rfl⟩ := Prod.mk.injEq .. ▸ hq
          simp [hpost] at hq2
        · exact Or.inr ⟨q, qt, hq, hq2, hq3⟩

/-- A key bound by no remaining entry keeps its accumulator value through
the method-table loop. -/
theorem find?_allMethodsGo_of_not_mem (l : List (String × JSON))
    (acc : JObj) (k : String)
    (h : ∀ p it, (p, it) ∈ l → (postOfItem it).isSome = true →
      strippedName p ≠ k) :
    (allMethodsGo acc l).find? k = acc.find? k := by
  induction l generalizing acc with
  | nil => rfl
  | cons e rest ih =>
    obtain ⟨p, it⟩ := e
    cases hpost : postOfItem it with
    | some v =>
      have hne : strippedName p ≠ k :=
        h p it (List.mem_cons_self _ _) (by simp [hpost])
      rw [allMethodsGo, hpost]
      rw [ih _ (fun q qt hq hq2 => h q qt (List.mem_cons_of_mem _ hq) hq2)]
      exact JObj.find?_set_ne _ _ (Ne.symm hne)
    | none =>
      rw [allMethodsGo, hpost]
      exact ih _ (fun q qt hq hq2 => h q qt (List.mem_cons_of_mem _ hq) hq2)

/-- When the `post`-bearing entries have pairwise distinct stripped names,
each one is found in the collected method table with its own `post`
descriptor. -/
theorem find?_allMethodsGo_mem (l : List (String × JSON)) (acc : JObj)
    (p : String) (it v : JSON)
    (hmem : (p, it) ∈ l) (hpost : postOfItem it = some v)
    (hdist : (l.filter fun e => (postOfItem e.2).isSome).Pairwise
      (fun a b => strippedName a.1 ≠ strippedName b.1)) :
    (allMethodsGo acc l).find? (strippedName p) = some v := by
  induction l generalizing acc with
  | nil => cases hmem
  | cons e rest ih =>
    obtain ⟨q0, it0⟩ := e
    rcases List.mem_cons.mp hmem with he | he
    · obtain ⟨rfl, rfl⟩ := Prod.mk.injEq .. ▸ he
      have hfil :
          ((p, it) :: rest).filter (fun e => (postOfItem e.2).isSome) =
            (p, it) :: rest.filter (fun e => (postOfItem e.2).isSome) := by
        simp [List.filter_cons, hpost]
      rw [hfil] at hdist
      have hhead := (List.pairwise_cons.mp hdist).1
      rw [allMethodsGo, hpost]
      rw [find?_allMethodsGo_of_not_mem _ _ _ ?hne]
      · exact JObj.find?_set_self _ _ _
      case hne =>
        intro q qt hq hq2
        have hb := hhead (q, qt) (List.mem_filter.mpr ⟨hq, by simpa using hq2⟩)
        exact fun hcontra => hb hcontra.symm
    · cases hpost0 : postOfItem it0 with
      | some u =>
        have hfil :
            ((q0, it0) :: rest).filter (fun e => (postOfItem e.2).isSome) =
              (q0, it0) :: rest.filter (fun e => (postOfItem e.2).isSome) := by
          simp [List.filter_cons, hpost0]
        rw [hfil] at hdist
        rw [allMethodsGo, hpost0]
        exact ih _ he ((List.pairwise_cons.mp hdist).2)
      | none =>
        have hfil :
            ((q0, it0) :: rest).filter (fun e => (postOfItem e.2).isSome) =
              rest.filter (fun e => (postOfItem e.2).isSome) := by
          simp [List.filter_cons, hpost0]
        rw [hfil] at hdist
        rw [allMethodsGo, hpost0]
        exact ih _ he hdist

/-- A key that is absent contributes a falsy `get`. -/
theorem truthyKey_of_not_hasKey {k : String} {s : JObj}
    (h : s.hasKey k = false) : truthyKey k s = false := by
  unfold JObj.hasKey at h
  unfold truthyKey
  cases hf : s.find? k with
  | none => rfl
  | some v => rw [hf] at h; simp at h

/-- The claim's absence-based emptiness implies the code's
truthiness-based emptiness test. -/
theorem pyEmpty_of_claimEmpty {s : JObj} (h : claimEmptySchema s = true) :
    pyEmptySchema s = true := by
  unfold claimEmptySchema at h
  simp only [Bool.and_eq_true, Bool.not_eq_true'] at h
  obtain ⟨⟨⟨⟨⟨h1, h2⟩, h3⟩, h4⟩, h5⟩, h6⟩ := h
  unfold pyEmptySchema
  simp [truthyKey_of_not_hasKey h1, truthyKey_of_not_hasKey h2,
    truthyKey_of_not_hasKey h3, truthyKey_of_not_hasKey h4,
    truthyKey_of_not_hasKey h5, truthyKey_of_not_hasKey h6]

/-- Every replacement `fix_empty_schemas` installs is a non-empty object
schema. -/
theorem fixEmptyReplacement_not_empty (n : String) :
    ∃ ro, fixEmptyReplacement n = .obj ro ∧ pyEmptySchema ro = false := by
  unfold fixEmptyReplacement
  rcases h : emptySchemaFixes n with _ | r
  · refine ⟨_, rfl, ?_⟩
    simp [emptySchemaFallback, pyEmptySchema, truthyKey, JObj.find?, objOf,
      truthy]
  · unfold emptySchemaFixes at h
    split at h <;> first
      | (cases h; exact ⟨_, rfl, by decide⟩)
      | cases h

/-- Both conditionals ignore a content that satisfies neither guard. -/
theorem fix_imports_eq_self {d : List Char}
    (k1 : (containsSub ("@Serializable".toList) d &&
      !containsSub ("import kotlinx.serialization".toList) d) = false)
    (k2 : (containsSub ("@SerialName".toList) d &&
      !containsSub ("import kotlinx.serialization.SerialName".toList) d) = false) :
    fix_imports d = d := by
  have h1 : importSerializableStep d = d := by
    unfold importSerializableStep
    rw [k1]
    simp
  have h2 : importSerialNameStep d = d := by
    unfold importSerialNameStep
    rw [k2]
    simp
  rw [fix_imports, h1, h2]

/-- `fix_imports` is idempotent: a second application finds every import
it could add already present (each prepended import line begins with the
very text whose absence the corresponding guard requires). -/
theorem fix_imports_idem (c : List Char) :
    fix_imports (fix_imports c) = fix_imports c := by
  have hpre1 : startsWithL ("import kotlinx.serialization".toList)
      ("import kotlinx.serialization.Serializable\n".toList) = true := by decide
  have hpre2 : startsWithL ("import kotlinx.serialization".toList)
      ("import kotlinx.serialization.SerialName\n".toList) = true := by decide
  have hpre3 : startsWithL ("import kotlinx.serialization.SerialName".toList)
      ("import kotlinx.serialization.SerialName\n".toList) = true := by decide
  have hd : containsSub ("import kotlinx.serialization".toList) (fix_imports c) = true ∨
      containsSub ("@Serializable".toList) (fix_imports c) = false := by
    by_cases hP : (containsSub ("@Serializable".toList) c &&
        !containsSub ("import kotlinx.serialization".toList) c) = true
    · left
      have hu : importSerializableStep c =
          "import kotlinx.serialization.Serializable\n".toList ++ c := by
        unfold importSerializableStep
        rw [if_pos hP]
      have himp_u : containsSub ("import kotlinx.serialization".toList)
          (importSerializableStep c) = true := by
        rw [hu]
        exact containsSub_append_left _ hpre1
      unfold fix_imports importSerialNameStep
      split
      · exact containsSub_append_right _ himp_u
      · exact himp_u
    · have hPf : (containsSub ("@Serializable".toList) c &&
          !containsSub ("import kotlinx.serialization".toList) c) = false :=
        Bool.eq_false_iff.mpr hP
      have hu : importSerializableStep c = c := by
        unfold importSerializableStep
        rw [hPf]
        simp
      rcases Bool.and_eq_false_iff.mp hPf with hA | hB
      · unfold fix_imports
        rw [hu]
        unfold importSerialNameStep
        split
        · exact Or.inl (containsSub_append_left _ hpre2)
        · exact Or.inr hA
      · have hB' : containsSub ("import kotlinx.serialization".toList) c = true := by
          simpa using hB
        left
        unfold fix_imports
        rw [hu]
        unfold importSerialNameStep
        split
        · exact containsSub_append_right _ hB'
        · exact hB'
  apply fix_imports_eq_self
  · rcases hd with h | h
    · rw [h]
      simp
    · rw [h]
      simp
  · by_cases hQ : (containsSub ("@SerialName".toList) (importSerializableStep c) &&
        !containsSub ("import kotlinx.serialization.SerialName".toList)
          (importSerializableStep c)) = true
    · have hfix : fix_imports c =
          "import kotlinx.serialization.SerialName\n".toList ++
            importSerializableStep c := by
        unfold fix_imports importSerialNameStep
        rw [if_pos hQ]
      have hsn : containsSub ("import kotlinx.serialization.SerialName".toList)
          (fix_imports c) = true := by
        rw [hfix]
        exact containsSub_append_left _ hpre3
      rw [hsn]
      simp
    · have hQf := Bool.eq_false_iff.mpr hQ
      have hfix : fix_imports c = importSerializableStep c := by
        unfold fix_imports importSerialNameStep
        rw [hQf]
        simp
      rw [hfix]
      exact hQf

/-- `snake_to_camel` leaves an underscore-free input unchanged. -/
theorem snake_to_camel_fixed {t : List Char} (h : '_' ∉ t) :
    snake_to_camel t = t := by
  unfold snake_to_camel
  rw [pySplitOn_eq_self h]
  simp

/-- A character satisfying a Boolean class differs from every character
failing it. -/
theorem ne_of_pred {p : Char → Bool} {ch b : Char} (h : p ch = true)
    (hb : p b = false) : ch ≠ b := by
  intro e
  rw [e, hb] at h
  cases h

/-- Word characters are not Python whitespace. -/
theorem isPySpace_eq_false_of_word {c : Char} (h : isWordChar c = true) :
    isPySpace c = false := by
  unfold isPySpace
  rw [decide_eq_false (ne_of_pred h (by decide : isWordChar ' ' = false)),
    decide_eq_false (ne_of_pred h (by decide : isWordChar '\t' = false)),
    decide_eq_false (ne_of_pred h (by decide : isWordChar '\n' = false)),
    decide_eq_false (ne_of_pred h (by decide : isWordChar '\x0d' = false)),
    decide_eq_false (ne_of_pred h (by decide : isWordChar '\x0b' = false)),
    decide_eq_false (ne_of_pred h (by decide : isWordChar '\x0c' = false))]
  rfl

/-- Lower-case letters are word characters. -/
theorem isWordChar_of_lower {c : Char} (h : isLowerAZ c = true) :
    isWordChar c = true := by
  unfold isLowerAZ at h
  unfold isWordChar
  rw [h]
  rfl

/-- ASCII letters are word characters. -/
theorem isWordChar_of_alpha {c : Char} (h : isAsciiAlpha c = true) :
    isWordChar c = true := by
  unfold isAsciiAlpha at h
  unfold isWordChar
  rcases Bool.or_eq_true_iff.mp h with h1 | h1
  · rw [h1]
    rfl
  · rw [h1]
    simp

/-- Numeric bounds of a lower-case letter. -/
theorem isLowerAZ_toNat {c : Char} (h : isLowerAZ c = true) :
    97 ≤ c.toNat ∧ c.toNat ≤ 122 := by
  unfold isLowerAZ at h
  simp only [Bool.and_eq_true, decide_eq_true_eq] at h
  exact ⟨h.1, h.2⟩

/-- Upper-casing a lower-case letter yields an ASCII letter. -/
theorem pyUpperChar_alpha_of_lower {c : Char} (h : isLowerAZ c = true) :
    isAsciiAlpha (pyUpperChar c) = true := by
  obtain ⟨h1, h2⟩ := isLowerAZ_toNat h
  unfold pyUpperChar
  rw [if_pos (by unfold isLowerAZ at h; exact h)]
  have hv : (c.toNat - 32).isValidChar := by constructor; omega
  have ht : (Char.ofNat (c.toNat - 32)).toNat = c.toNat - 32 := by
    rw [Char.ofNat, dif_pos hv]
    rfl
  have hA : 'A' ≤ Char.ofNat (c.toNat - 32) := by
    show (65 : Nat) ≤ (Char.ofNat (c.toNat - 32)).toNat
    omega
  have hZ : Char.ofNat (c.toNat - 32) ≤ 'Z' := by
    show (Char.ofNat (c.toNat - 32)).toNat ≤ (90 : Nat)
    omega
  unfold isAsciiAlpha
  rw [decide_eq_true hA, decide_eq_true hZ]
  simp

/-- Lower-casing fixes a lower-case letter. -/
theorem pyLowerChar_eq_self_of_lower {c : Char} (h : isLowerAZ c = true) :
    pyLowerChar c = c := by
  obtain ⟨h1, h2⟩ := isLowerAZ_toNat h
  unfold pyLowerChar
  rw [if_neg]
  intro hc
  simp only [Bool.and_eq_true, decide_eq_true_eq] at hc
  have h3 : c.toNat ≤ 90 := hc.2
  omega

/-- `str.title` on an all-lower-case token yields ASCII letters only. -/
theorem pyTitleGo_alpha :
    ∀ (q : List Char) (b : Bool), (∀ ch ∈ q, isLowerAZ ch = true) →
      ∀ ch ∈ pyTitleGo b q, isAsciiAlpha ch = true
  | [], _, _ => by simp [pyTitleGo]
  | c :: cs, b, hq => by
    intro ch hch
    have hc := hq c (List.mem_cons_self _ _)
    have halpha : isAsciiAlpha c = true := by
      unfold isAsciiAlpha
      unfold isLowerAZ at hc
      rw [hc]
      rfl
    have htail := pyTitleGo_alpha cs true (fun x hx => hq x (List.mem_cons_of_mem _ hx))
    unfold pyTitleGo at hch
    rw [if_pos halpha] at hch
    rcases List.mem_cons.mp hch with rfl | hch2
    · cases b with
      | true =>
        rw [if_pos rfl, pyLowerChar_eq_self_of_lower hc]
        exact halpha
      | false =>
        rw [if_neg (by simp)]
        exact pyUpperChar_alpha_of_lower hc
    · exact htail ch hch2

/-- Characters of a split piece come from the split string. -/
theorem mem_of_mem_pySplitOn {sep : Char} :
    ∀ {s p : List Char} {ch : Char}, p ∈ pySplitOn sep s → ch ∈ p → ch ∈ s := by
  intro s
  induction s with
  | nil =>
    intro p ch hp hch
    simp only [pySplitOn, List.mem_singleton] at hp
    subst hp
    cases hch
  | cons c cs ih =>
    intro p ch hp hch
    simp only [pySplitOn] at hp
    by_cases hc : c = sep
    · rw [if_pos hc] at hp
      rcases List.mem_cons.mp hp with rfl | hp2
      · cases hch
      · exact List.mem_cons_of_mem _ (ih hp2 hch)
    · rw [if_neg hc] at hp
      rcases hq : pySplitOn sep cs with _ | ⟨q, qs⟩
      · exact absurd hq (pySplitOn_ne_nil sep cs)
      · rw [hq] at hp
        rcases List.mem_cons.mp hp with rfl | hp2
        · rcases List.mem_cons.mp hch with rfl | hch2
          · exact List.mem_cons_self _ _
          · exact List.mem_cons_of_mem _
              (ih (by rw [hq]; exact List.mem_cons_self _ _) hch2)
        · exact List.mem_cons_of_mem _
            (ih (by rw [hq]; exact List.mem_cons_of_mem _ hp2) hch)

/-- On an identifier of lower-case letters and underscores,
`snake_to_camel` produces ASCII letters only. -/
theorem snake_to_camel_alpha {name : List Char}
    (h : ∀ ch ∈ name, isLowerAZ ch = true ∨ ch = '_') :
    ∀ ch ∈ snake_to_camel name, isAsciiAlpha ch = true := by
  intro ch hch
  unfold snake_to_camel at hch
  rcases hsp : pySplitOn '_' name with _ | ⟨p, ps⟩
  · rw [hsp] at hch
    cases hch
  · rw [hsp] at hch
    rcases List.mem_append.mp hch with hm | hm
    · have hin : ch ∈ name :=
        mem_of_mem_pySplitOn (by rw [hsp]; exact List.mem_cons_self _ _) hm
      rcases h ch hin with hl | he
      · unfold isAsciiAlpha
        unfold isLowerAZ at hl
        rw [hl]
        rfl
      · subst he
        exact absurd hm
          (not_mem_of_mem_pySplitOn (by rw [hsp]; exact List.mem_cons_self _ _))
    · rcases List.mem_flatten.mp hm with ⟨piece, hpc, hmem⟩
      rcases List.mem_map.mp hpc with ⟨q, hq, rfl⟩
      have hq' : q ∈ pySplitOn '_' name := by
        rw [hsp]
        exact List.mem_cons_of_mem _ hq
      refine pyTitleGo_alpha q false ?_ ch hmem
      intro x hx
      rcases h x (mem_of_mem_pySplitOn hq' hx) with hl | he
      · exact hl
      · subst he
        exact absurd hx (not_mem_of_mem_pySplitOn hq')

/-- A needle whose first character does not occur in the haystack is not
contained in it. -/
theorem containsSub_eq_false_of_head_not_mem {a : Char} {as h : List Char}
    (hmem : a ∉ h) : containsSub (a :: as) h = false := by
  induction h with
  | nil => rfl
  | cons c cs ih =>
    simp only [List.mem_cons, not_or] at hmem
    simp [containsSub, startsWithL, hmem.1, ih hmem.2]

/-- The scan of an empty content is empty. -/
theorem subScanGo_nil (step : List Char → List Char → Option (List Char × Nat))
    (fuel : Nat) (preR : List Char) : subScanGo step fuel preR [] = [] := by
  cases fuel <;> rfl

/-- The scan equation at a position where the matcher declines. -/
theorem subScanGo_cons_none
    {step : List Char → List Char → Option (List Char × Nat)}
    {fuel : Nat} {preR : List Char} {c : Char} {cs : List Char}
    (h : step preR (c :: cs) = none) :
    subScanGo step (fuel + 1) preR (c :: cs) =
      c :: subScanGo step fuel (c :: preR) cs := by
  simp only [subScanGo]
  rw [h]

/-- The scan equation at a position where the matcher fires. -/
theorem subScanGo_cons_some
    {step : List Char → List Char → Option (List Char × Nat)}
    {fuel : Nat} {preR : List Char} {c : Char} {cs rep : List Char} {k : Nat}
    (h : step preR (c :: cs) = some (rep, k)) :
    subScanGo step (fuel + 1) preR (c :: cs) =
      rep ++ subScanGo step fuel (revApp (List.take k (c :: cs)) preR)
        (List.drop k (c :: cs)) := by
  simp only [subScanGo]
  rw [h]

/-- A region where the matcher never fires is copied verbatim, and the
scan continues behind it with the fuel and reversed-prefix bookkeeping
advanced accordingly. -/
theorem subScanGo_append_of_none
    {step : List Char → List Char → Option (List Char × Nat)}
    {pre suf : List Char}
    (h : ∀ preR p₁ p₂, pre = p₁ ++ p₂ → p₂ ≠ [] → step preR (p₂ ++ suf) = none) :
    ∀ fuel preR, subScanGo step fuel preR (pre ++ suf) =
      pre ++ subScanGo step (fuel - pre.length) (revApp pre preR) suf := by
  induction pre with
  | nil =>
    intro fuel preR
    simp [revApp]
  | cons c p' ih =>
    intro fuel preR
    cases fuel with
    | zero =>
      have h0 : ∀ s preR2, subScanGo step 0 preR2 s = s := fun s preR2 => by
        cases s <;> rfl
      rw [Nat.zero_sub, h0, h0]
    | succ f =>
      have hstep : step preR (c :: (p' ++ suf)) = none := by
        have := h preR [] (c :: p') rfl (by simp)
        simpa using this
      rw [List.cons_append, subScanGo_cons_none hstep]
      rw [ih (fun preR2 p₁ p₂ hsplit hne => h preR2 (c :: p₁) p₂ (by rw [hsplit]; rfl) hne)
        f (c :: preR)]
      simp only [revApp, List.length_cons, Nat.succ_sub_succ]
      rfl

/-- A content where the matcher never fires is left unchanged. -/
theorem subScanGo_eq_self
    {step : List Char → List Char → Option (List Char × Nat)} {s : List Char}
    (h : ∀ preR p₁ p₂, s = p₁ ++ p₂ → p₂ ≠ [] → step preR p₂ = none) :
    ∀ fuel preR, subScanGo step fuel preR s = s := by
  intro fuel preR
  have h2 : ∀ preR p₁ p₂, s = p₁ ++ p₂ → p₂ ≠ [] → step preR (p₂ ++ []) = none := by
    intro preR p₁ p₂ hs hne
    rw [List.append_nil]
    exact h preR p₁ p₂ hs hne
  have := subScanGo_append_of_none h2 fuel preR
  rw [List.append_nil] at this
  rw [this, subScanGo_nil, List.append_nil]

/-- A suffix of a concatenation is a suffix of the right part or extends
it by a nonempty suffix of the left part. -/
theorem suffix_append_cases {p X Y : List Char} (h : p <:+ X ++ Y) :
    p <:+ Y ∨ ∃ u, u <:+ X ∧ u ≠ [] ∧ p = u ++ Y := by
  induction X with
  | nil =>
    left
    simpa using h
  | cons c X' ih =>
    obtain ⟨t, ht⟩ := h
    cases t with
    | nil =>
      right
      refine ⟨c :: X', List.suffix_refl _, by simp, ?_⟩
      simpa using ht
    | cons d t' =>
      have ht2 : t' ++ p = X' ++ Y := by
        have := ht
        simp only [List.cons_append] at this
        exact (List.cons.injEq .. ▸ this).2
      rcases ih ⟨t', ht2⟩ with h1 | ⟨u, hu, hne, rfl⟩
      · left
        exact h1
      · right
        exact ⟨u, hu.trans ⟨[c], rfl⟩, hne, rfl⟩

/-- `matchLit` distributes over appended literals. -/
theorem matchLit_append (L₁ L₂ s : List Char) :
    matchLit (L₁ ++ L₂) s = (matchLit L₁ s).bind (matchLit L₂) := by
  induction L₁ generalizing s with
  | nil => simp [matchLit]
  | cons a as ih =>
    cases s with
    | nil => simp [matchLit]
    | cons b bs =>
      by_cases hab : a = b
      · simp [matchLit, hab, ih]
      · simp [matchLit, hab]

/-- A word-character literal matched against a word region either fails or
consumes an initial copy of itself from the region. -/
theorem matchLit_word_region {L w X : List Char}
    (hL : ∀ ch ∈ L, isWordChar ch = true)
    (hw : ∀ ch ∈ w, isWordChar ch = true)
    (hX : ∀ c, X.head? = some c → isWordChar c = false) :
    matchLit L (w ++ X) = none ∨
      ∃ w', w = L ++ w' ∧ matchLit L (w ++ X) = some (w' ++ X) := by
  induction L generalizing w with
  | nil =>
    right
    exact ⟨w, rfl, by simp [matchLit]⟩
  | cons a as ih =>
    cases w with
    | nil =>
      left
      cases hX2 : X with
      | nil => simp [matchLit]
      | cons x xs =>
        have hxw : isWordChar x = false := hX x (by rw [hX2]; rfl)
        have hax : a ≠ x := ne_of_pred (hL a (List.mem_cons_self _ _)) hxw
        simp [matchLit, hax]
    | cons b w' =>
      by_cases hab : a = b
      · subst hab
        rcases ih (fun ch hc => hL ch (List.mem_cons_of_mem _ hc))
            (w := w') (fun ch hc => hw ch (List.mem_cons_of_mem _ hc)) with h1 | ⟨w'', he, h2⟩
        · left
          simp [matchLit, h1]
        · right
          exact ⟨w'', by rw [he]; rfl, by simp [matchLit, h2]⟩
      · left
        simp [matchLit, hab]

/-- `takeWhile` at an exact class boundary. -/
theorem takeWhile_exact {p : Char → Bool} {xs ys : List Char}
    (hx : ∀ c ∈ xs, p c = true)
    (hy : ∀ c, ys.head? = some c → p c = false) :
    List.takeWhile p (xs ++ ys) = xs := by
  induction xs with
  | nil =>
    cases ys with
    | nil => rfl
    | cons y ys' => simp [List.takeWhile_cons, hy y rfl]
  | cons a as ih =>
    simp [List.takeWhile_cons, hx a (List.mem_cons_self _ _),
      ih (fun c hc => hx c (List.mem_cons_of_mem _ hc))]

/-- `dropWhile` at an exact class boundary. -/
theorem dropWhile_exact {p : Char → Bool} {xs ys : List Char}
    (hx : ∀ c ∈ xs, p c = true)
    (hy : ∀ c, ys.head? = some c → p c = false) :
    List.dropWhile p (xs ++ ys) = ys := by
  induction xs with
  | nil =>
    cases ys with
    | nil => rfl
    | cons y ys' => simp [List.dropWhile_cons, hy y rfl]
  | cons a as ih =>
    simp [List.dropWhile_cons, hx a (List.mem_cons_self _ _),
      ih (fun c hc => hx c (List.mem_cons_of_mem _ hc))]

/-- `munch` splits exactly at a class boundary. -/
theorem munch_exact {p : Char → Bool} {xs ys : List Char}
    (hx : ∀ c ∈ xs, p c = true)
    (hy : ∀ c, ys.head? = some c → p c = false) :
    munch p (xs ++ ys) = (xs, ys) := by
  unfold munch
  rw [takeWhile_exact hx hy, dropWhile_exact hx hy]

/-- `dropWhile` skips a fully matching prefix. -/
theorem dropWhile_append_of_all {p : Char → Bool} {a x : List Char}
    (h : ∀ c ∈ a, p c = true) :
    List.dropWhile p (a ++ x) = List.dropWhile p x := by
  induction a with
  | nil => rfl
  | cons c cs ih =>
    simp [List.dropWhile_cons, h c (List.mem_cons_self _ _),
      ih (fun d hd => h d (List.mem_cons_of_mem _ hd))]

/-- `dropWhile` stops at a failing head. -/
theorem dropWhile_of_head_false {p : Char → Bool} {x : List Char}
    (h : ∀ c, x.head? = some c → p c = false) :
    List.dropWhile p x = x := by
  cases x with
  | nil => rfl
  | cons c cs => simp [List.dropWhile_cons, h c rfl]

/-- `dropWhile` consumes an all-matching list entirely. -/
theorem dropWhile_eq_nil_of_all {p : Char → Bool} {a : List Char}
    (h : ∀ c ∈ a, p c = true) : List.dropWhile p a = [] := by
  induction a with
  | nil => rfl
  | cons c cs ih =>
    simp [List.dropWhile_cons, h c (List.mem_cons_self _ _),
      ih (fun d hd => h d (List.mem_cons_of_mem _ hd))]

/-- `str.strip()` of a core framed by whitespace, when the core neither
starts nor ends with whitespace. -/
theorem pyStrip_frame {a m b : List Char}
    (ha : ∀ c ∈ a, isPySpace c = true) (hb : ∀ c ∈ b, isPySpace c = true)
    (hm1 : ∀ c, m.head? = some c → isPySpace c = false)
    (hm2 : ∀ c, m.getLast? = some c → isPySpace c = false) :
    pyStrip (a ++ m ++ b) = m := by
  cases m with
  | nil =>
    have h1 : List.dropWhile isPySpace (a ++ b) = [] :=
      dropWhile_eq_nil_of_all (by
        intro c hc
        rcases List.mem_append.mp hc with hx | hx
        exacts [ha c hx, hb c hx])
    unfold pyStrip
    rw [show a ++ ([] : List Char) ++ b = a ++ b by simp, h1]
    rfl
  | cons c0 m' =>
    have h1 : List.dropWhile isPySpace (a ++ ((c0 :: m') ++ b)) = (c0 :: m') ++ b := by
      rw [dropWhile_append_of_all ha]
      exact dropWhile_of_head_false (by
        intro d hd
        have hd0 : c0 = d := by simpa using hd
        subst hd0
        exact hm1 c0 rfl)
    have h2 : List.dropWhile isPySpace (((c0 :: m') ++ b).reverse) = (c0 :: m').reverse := by
      rw [List.reverse_append]
      rw [dropWhile_append_of_all (fun c hc => hb c (List.mem_reverse.mp hc))]
      exact dropWhile_of_head_false (by
        intro d hd
        rw [List.head?_reverse] at hd
        exact hm2 d hd)
    unfold pyStrip
    rw [List.append_assoc, h1, h2, List.reverse_reverse]

/-- Splitting at the first separator after a separator-free prefix. -/
theorem pySplitOn_append_sep {sep : Char} {p rest : List Char} (h : sep ∉ p) :
    pySplitOn sep (p ++ sep :: rest) = p :: pySplitOn sep rest := by
  induction p with
  | nil => simp [pySplitOn]
  | cons c cs ih =>
    simp only [List.mem_cons, not_or] at h
    simp only [List.cons_append, pySplitOn, List.append_eq]
    rw [if_neg (fun e => h.1 e.symm), ih h.2]

/-- A separator-free prefix joins the first split piece. -/
theorem pySplitOn_prefix_nosep {sep : Char} {t rest : List Char} (h : sep ∉ t)
    (p : List Char) (ps : List (List Char)) (h2 : pySplitOn sep rest = p :: ps) :
    pySplitOn sep (t ++ rest) = (t ++ p) :: ps := by
  induction t with
  | nil => simpa using h2
  | cons c cs ih =>
    simp only [List.mem_cons, not_or] at h
    simp only [List.cons_append, pySplitOn, List.append_eq]
    rw [if_neg (fun e => h.1 e.symm), ih h.2]

/-- Splitting a separator-joined list of comma-free pieces: the first
piece is recovered exactly, and each later piece keeps the separator's
tail (here the layout whitespace) glued to its front. -/
theorem pySplitOn_joinSep {t : List Char} (ht : ',' ∉ t) :
    ∀ {vs : List (List Char)} {v : List Char}, ',' ∉ v → (∀ w ∈ vs, ',' ∉ w) →
      pySplitOn ',' (joinSep (',' :: t) (v :: vs)) =
        v :: vs.map (fun w => t ++ w) := by
  intro vs
  induction vs with
  | nil =>
    intro v hv _
    simp only [joinSep, List.map_nil]
    rw [pySplitOn_eq_self hv]
  | cons w ws ih =>
    intro v hv hws
    have hsplit := ih (v := w) (hws w (List.mem_cons_self _ _))
      (fun x hx => hws x (List.mem_cons_of_mem _ hx))
    simp only [joinSep]
    rw [List.append_assoc, List.cons_append, pySplitOn_append_sep hv,
      pySplitOn_prefix_nosep ht _ _ hsplit]
    simp

/-- `matchLit` fails on a head mismatch. -/
theorem matchLit_none_of_head_ne {a : Char} {as : List Char} {b : Char}
    {bs : List Char} (h : a ≠ b) : matchLit (a :: as) (b :: bs) = none := by
  simp [matchLit, h]

/-- `munch` takes nothing when the head already fails the class. -/
theorem munch_nil_of_front {p : Char → Bool} {s : List Char}
    (h : ∀ c, s.head? = some c → p c = false) : munch p s = ([], s) := by
  have := @munch_exact p [] s (by intro c hc; cases hc) h
  simpa using this

/-- Transport a Boolean head fact along a known head. -/
theorem head_pred_of_eq {X : List Char} {h0 : Char} {p : Char → Bool}
    (hh : X.head? = some h0) (hp : p h0 = false) :
    ∀ c, X.head? = some c → p c = false := by
  intro c hc
  rw [hh] at hc
  cases hc
  exact hp

/-- The head of a word region followed by a non-space continuation is not
whitespace. -/
theorem head_not_space_of_word_front {w X : List Char}
    (hw : ∀ ch ∈ w, isWordChar ch = true)
    (hX : ∀ c, X.head? = some c → isPySpace c = false) :
    ∀ c, (w ++ X).head? = some c → isPySpace c = false := by
  intro c hc
  cases w with
  | nil => exact hX c (by simpa using hc)
  | cons a w' =>
    have ha : a = c := by simpa using hc
    subst ha
    exact isPySpace_eq_false_of_word (hw a (List.mem_cons_self _ _))

/-- `serAnnStep` declines unless the position starts with `v`. -/
theorem serAnnStep_none_head {preR : List Char} {c : Char} {cs : List Char}
    (h : c ≠ 'v') : serAnnStep preR (c :: cs) = none := by
  unfold serAnnStep
  rw [show ("val".toList) = 'v' :: "al".toList from rfl,
    matchLit_none_of_head_ne (fun e => h e.symm)]

/-- `optionalStep` declines unless the position starts with `:`. -/
theorem optionalStep_none_head {preR : List Char} {c : Char} {cs : List Char}
    (h : c ≠ ':') : optionalStep preR (c :: cs) = none := by
  unfold optionalStep
  rw [matchLit_none_of_head_ne (fun e => h e.symm)]

/-- `arrayStep` declines unless the position starts with `:`. -/
theorem arrayStep_none_head {preR : List Char} {c : Char} {cs : List Char}
    (h : c ≠ ':') : arrayStep preR (c :: cs) = none := by
  unfold arrayStep
  rw [matchLit_none_of_head_ne (fun e => h e.symm)]

/-- `dedupStep` declines unless the position starts with `@`. -/
theorem dedupStep_none_head {preR : List Char} {c : Char} {cs : List Char}
    (h : c ≠ '@') : dedupStep preR (c :: cs) = none := by
  have hu : serializableUnits (cs.length + 1) (c :: cs) = none := by
    unfold serializableUnits
    rw [show ("@Serializable".toList) = '@' :: "Serializable".toList from rfl,
      matchLit_none_of_head_ne (fun e => h e.symm)]
  unfold dedupStep
  rw [show (c :: cs).length = cs.length + 1 from rfl, hu]

/-- `apiCallStep` declines unless the position starts with `@`. -/
theorem apiCallStep_none_head {preR : List Char} {c : Char} {cs : List Char}
    (h : c ≠ '@') : apiCallStep preR (c :: cs) = none := by
  unfold apiCallStep
  rw [matchLit_none_of_head_ne (fun e => h e.symm)]

/-- `optionalStep` declines on a nonempty word region. -/
theorem optionalStep_none_word {preR w z : List Char} (hne : w ≠ [])
    (hw : ∀ ch ∈ w, isWordChar ch = true) :
    optionalStep preR (w ++ z) = none := by
  cases w with
  | nil => exact absurd rfl hne
  | cons c w' =>
    exact optionalStep_none_head
      (ne_of_pred (hw c (List.mem_cons_self _ _)) (by decide))

/-- `arrayStep` declines on a nonempty word region. -/
theorem arrayStep_none_word {preR w z : List Char} (hne : w ≠ [])
    (hw : ∀ ch ∈ w, isWordChar ch = true) :
    arrayStep preR (w ++ z) = none := by
  cases w with
  | nil => exact absurd rfl hne
  | cons c w' =>
    exact arrayStep_none_head
      (ne_of_pred (hw c (List.mem_cons_self _ _)) (by decide))

/-- `dedupStep` declines on a nonempty word region. -/
theorem dedupStep_none_word {preR w z : List Char} (hne : w ≠ [])
    (hw : ∀ ch ∈ w, isWordChar ch = true) :
    dedupStep preR (w ++ z) = none := by
  cases w with
  | nil => exact absurd rfl hne
  | cons c w' =>
    exact dedupStep_none_head
      (ne_of_pred (hw c (List.mem_cons_self _ _)) (by decide))

/-- `apiCallStep` declines on a nonempty word region. -/
theorem apiCallStep_none_word {preR w z : List Char} (hne : w ≠ [])
    (hw : ∀ ch ∈ w, isWordChar ch = true) :
    apiCallStep preR (w ++ z) = none := by
  cases w with
  | nil => exact absurd rfl hne
  | cons c w' =>
    exact apiCallStep_none_head
      (ne_of_pred (hw c (List.mem_cons_self _ _)) (by decide))

/-- `dataClassStep` declines on a word region followed by a non-word,
non-space continuation. -/
theorem dataClassStep_none_word {preR w X : List Char} (hne : w ≠ [])
    (hw : ∀ ch ∈ w, isWordChar ch = true)
    (hXw : ∀ c, X.head? = some c → isWordChar c = false)
    (hXs : ∀ c, X.head? = some c → isPySpace c = false) :
    dataClassStep preR (w ++ X) = none := by
  unfold dataClassStep
  split
  · rfl
  · rcases matchLit_word_region (L := "data".toList) (by decide) hw hXw with
      hnone | ⟨w', hw', hsome⟩
    · rw [hnone]
    · have hw'' : ∀ ch ∈ w', isWordChar ch = true := by
        intro ch hc
        apply hw
        rw [hw']
        exact List.mem_append.mpr (Or.inr hc)
      have hm : munch isPySpace (w' ++ X) = ([], w' ++ X) :=
        munch_nil_of_front (head_not_space_of_word_front hw'' hXs)
      rw [show ("data".toList) = ['d', 'a', 't', 'a'] from rfl] at hsome
      simp [hsome, hm]

/-- `enumClassStep` declines on a word region followed by a non-word,
non-space continuation. -/
theorem enumClassStep_none_word {preR w X : List Char} (hne : w ≠ [])
    (hw : ∀ ch ∈ w, isWordChar ch = true)
    (hXw : ∀ c, X.head? = some c → isWordChar c = false)
    (hXs : ∀ c, X.head? = some c → isPySpace c = false) :
    enumClassStep preR (w ++ X) = none := by
  unfold enumClassStep
  split
  · rfl
  · rcases matchLit_word_region (L := "enum".toList) (by decide) hw hXw with
      hnone | ⟨w', hw', hsome⟩
    · rw [hnone]
    · have hw'' : ∀ ch ∈ w', isWordChar ch = true := by
        intro ch hc
        apply hw
        rw [hw']
        exact List.mem_append.mpr (Or.inr hc)
      have hm : munch isPySpace (w' ++ X) = ([], w' ++ X) :=
        munch_nil_of_front (head_not_space_of_word_front hw'' hXs)
      rw [show ("enum".toList) = ['e', 'n', 'u', 'm'] from rfl] at hsome
      simp [hsome, hm]

/-- `enumSerStep` declines on a word region followed by a non-word,
non-space continuation. -/
theorem enumSerStep_none_word {preR w X : List Char} (hne : w ≠ [])
    (hw : ∀ ch ∈ w, isWordChar ch = true)
    (hXw : ∀ c, X.head? = some c → isWordChar c = false)
    (hXs : ∀ c, X.head? = some c → isPySpace c = false) :
    enumSerStep preR (w ++ X) = none := by
  unfold enumSerStep
  rcases matchLit_word_region (L := "enum".toList) (by decide) hw hXw with
    hnone | ⟨w', hw', hsome⟩
  · rw [hnone]
  · have hw'' : ∀ ch ∈ w', isWordChar ch = true := by
      intro ch hc
      apply hw
      rw [hw']
      exact List.mem_append.mpr (Or.inr hc)
    have hm : munch isPySpace (w' ++ X) = ([], w' ++ X) :=
      munch_nil_of_front (head_not_space_of_word_front hw'' hXs)
    rw [show ("enum".toList) = ['e', 'n', 'u', 'm'] from rfl] at hsome
    simp [hsome, hm]

/-- `apiIfaceStep` declines on a word region followed by a non-word,
non-space continuation. -/
theorem apiIfaceStep_none_word {preR w X : List Char} (hne : w ≠ [])
    (hw : ∀ ch ∈ w, isWordChar ch = true)
    (hXw : ∀ c, X.head? = some c → isWordChar c = false)
    (hXs : ∀ c, X.head? = some c → isPySpace c = false) :
    apiIfaceStep preR (w ++ X) = none := by
  unfold apiIfaceStep
  rcases matchLit_word_region (L := "interface".toList) (by decide) hw hXw with
    hnone | ⟨w', hw', hsome⟩
  · rw [hnone]
  · have hw'' : ∀ ch ∈ w', isWordChar ch = true := by
      intro ch hc
      apply hw
      rw [hw']
      exact List.mem_append.mpr (Or.inr hc)
    have hm : munch isPySpace (w' ++ X) = ([], w' ++ X) :=
      munch_nil_of_front (head_not_space_of_word_front hw'' hXs)
    rw [show ("interface".toList) = ['i', 'n', 't', 'e', 'r', 'f', 'a', 'c', 'e'] from rfl] at hsome
    simp [hsome, hm]

/-- `apiCreateStep` declines on a word region followed by a continuation
that does not start with a word character or a dot. -/
theorem apiCreateStep_none_word {preR w X : List Char} (hne : w ≠ [])
    (hw : ∀ ch ∈ w, isWordChar ch = true)
    (hXw : ∀ c, X.head? = some c → isWordChar c = false)
    (hXd : ∀ c, X.head? = some c → c ≠ '.') :
    apiCreateStep preR (w ++ X) = none := by
  unfold apiCreateStep
  rw [show ("retrofit.create(".toList) =
    "retrofit".toList ++ ('.' :: "create(".toList) from rfl, matchLit_append]
  rcases matchLit_word_region (L := "retrofit".toList) (by decide) hw hXw with
    hnone | ⟨w', hw', hsome⟩
  · rw [hnone]
    rfl
  · have hdot : matchLit ('.' :: "create(".toList) (w' ++ X) = none := by
      cases w' with
      | nil =>
        cases hXc : X with
        | nil => rfl
        | cons x xs =>
          have hx : x ≠ '.' := hXd x (by rw [hXc]; rfl)
          exact matchLit_none_of_head_ne (fun e => hx e.symm)
      | cons a w'' =>
        have ha : isWordChar a = true := by
          apply hw
          rw [hw']
          exact List.mem_append.mpr (Or.inr (List.mem_cons_self _ _))
        exact matchLit_none_of_head_ne (Ne.symm (ne_of_pred ha (by decide)))
    rw [show ("retrofit".toList) =
      ['r', 'e', 't', 'r', 'o', 'f', 'i', 't'] from rfl] at hsome
    rw [show ('.' :: "create(".toList) =
      ['.', 'c', 'r', 'e', 'a', 't', 'e', '('] from rfl] at hdot
    simp [hsome, hdot]

/-- `arrayStep` declines at every position inside the annotation prefix, the
mid segment, and the rewritten type tail of the field shape. -/
theorem arrayStep_none_zone {preR u z : List Char}
    (hu : u <:+ "@SerialName(\"".toList ∨ u <:+ "\")\nval ".toList ∨
      u <:+ ": String?".toList)
    (hne : u ≠ []) : arrayStep preR (u ++ z) = none := by
  rcases hu with hu | hu | hu
  · have hmem := (List.mem_tails _ _).mpr hu
    rw [show ("@SerialName(\"".toList) =
      ['@', 'S', 'e', 'r', 'i', 'a', 'l', 'N', 'a', 'm', 'e', '(', '"'] from rfl] at hmem
    simp [List.tails] at hmem
    rcases hmem with rfl|rfl|rfl|rfl|rfl|rfl|rfl|rfl|rfl|rfl|rfl|rfl|rfl|rfl
    all_goals first | exact absurd rfl hne | rfl
  · have hmem := (List.mem_tails _ _).mpr hu
    rw [show ("\")\nval ".toList) =
      ['"', ')', '\n', 'v', 'a', 'l', ' '] from rfl] at hmem
    simp [List.tails] at hmem
    rcases hmem with rfl|rfl|rfl|rfl|rfl|rfl|rfl|rfl
    all_goals first | exact absurd rfl hne | rfl
  · have hmem := (List.mem_tails _ _).mpr hu
    rw [show (": String?".toList) =
      [':', ' ', 'S', 't', 'r', 'i', 'n', 'g', '?'] from rfl] at hmem
    simp [List.tails] at hmem
    rcases hmem with rfl|rfl|rfl|rfl|rfl|rfl|rfl|rfl|rfl|rfl
    all_goals first | exact absurd rfl hne | rfl


/-- `dataClassStep` declines at every position inside the annotation prefix, the
mid segment, and the rewritten type tail of the field shape. -/
theorem dataClassStep_none_zone {preR u z : List Char}
    (hu : u <:+ "@SerialName(\"".toList ∨ u <:+ "\")\nval ".toList ∨
      u <:+ ": String?".toList)
    (hne : u ≠ []) : dataClassStep preR (u ++ z) = none := by
  rcases hu with hu | hu | hu
  · have hmem := (List.mem_tails _ _).mpr hu
    rw [show ("@SerialName(\"".toList) =
      ['@', 'S', 'e', 'r', 'i', 'a', 'l', 'N', 'a', 'm', 'e', '(', '"'] from rfl] at hmem
    simp [List.tails] at hmem
    rcases hmem with rfl|rfl|rfl|rfl|rfl|rfl|rfl|rfl|rfl|rfl|rfl|rfl|rfl|rfl
    all_goals first | exact absurd rfl hne | (unfold dataClassStep; split <;> rfl)
  · have hmem := (List.mem_tails _ _).mpr hu
    rw [show ("\")\nval ".toList) =
      ['"', ')', '\n', 'v', 'a', 'l', ' '] from rfl] at hmem
    simp [List.tails] at hmem
    rcases hmem with rfl|rfl|rfl|rfl|rfl|rfl|rfl|rfl
    all_goals first | exact absurd rfl hne | (unfold dataClassStep; split <;> rfl)
  · have hmem := (List.mem_tails _ _).mpr hu
    rw [show (": String?".toList) =
      [':', ' ', 'S', 't', 'r', 'i', 'n', 'g', '?'] from rfl] at hmem
    simp [List.tails] at hmem
    rcases hmem with rfl|rfl|rfl|rfl|rfl|rfl|rfl|rfl|rfl|rfl
    all_goals first | exact absurd rfl hne | (unfold dataClassStep; split <;> rfl)


/-- `enumClassStep` declines at every position inside the annotation prefix, the
mid segment, and the rewritten type tail of the field shape. -/
theorem enumClassStep_none_zone {preR u z : List Char}
    (hu : u <:+ "@SerialName(\"".toList ∨ u <:+ "\")\nval ".toList ∨
      u <:+ ": String?".toList)
    (hne : u ≠ []) : enumClassStep preR (u ++ z) = none := by
  rcases hu with hu | hu | hu
  · have hmem := (List.mem_tails _ _).mpr hu
    rw [show ("@SerialName(\"".toList) =
      ['@', 'S', 'e', 'r', 'i', 'a', 'l', 'N', 'a', 'm', 'e', '(', '"'] from rfl] at hmem
    simp [List.tails] at hmem
    rcases hmem with rfl|rfl|rfl|rfl|rfl|rfl|rfl|rfl|rfl|rfl|rfl|rfl|rfl|rfl
    all_goals first | exact absurd rfl hne | (unfold enumClassStep; split <;> rfl)
  · have hmem := (List.mem_tails _ _).mpr hu
    rw [show ("\")\nval ".toList) =
      ['"', ')', '\n', 'v', 'a', 'l', ' '] from rfl] at hmem
    simp [List.tails] at hmem
    rcases hmem with rfl|rfl|rfl|rfl|rfl|rfl|rfl|rfl
    all_goals first | exact absurd rfl hne | (unfold enumClassStep; split <;> rfl)
  · have hmem := (List.mem_tails _ _).mpr hu
    rw [show (": String?".toList) =
      [':', ' ', 'S', 't', 'r', 'i', 'n', 'g', '?'] from rfl] at hmem
    simp [List.tails] at hmem
    rcases hmem with rfl|rfl|rfl|rfl|rfl|rfl|rfl|rfl|rfl|rfl
    all_goals first | exact absurd rfl hne | (unfold enumClassStep; split <;> rfl)


/-- `dedupStep` declines at every position inside the annotation prefix, the
mid segment, and the rewritten type tail of the field shape. -/
theorem dedupStep_none_zone {preR u z : List Char}
    (hu : u <:+ "@SerialName(\"".toList ∨ u <:+ "\")\nval ".toList ∨
      u <:+ ": String?".toList)
    (hne : u ≠ []) : dedupStep preR (u ++ z) = none := by
  rcases hu with hu | hu | hu
  · have hmem := (List.mem_tails _ _).mpr hu
    rw [show ("@SerialName(\"".toList) =
      ['@', 'S', 'e', 'r', 'i', 'a', 'l', 'N', 'a', 'm', 'e', '(', '"'] from rfl] at hmem
    simp [List.tails] at hmem
    rcases hmem with rfl|rfl|rfl|rfl|rfl|rfl|rfl|rfl|rfl|rfl|rfl|rfl|rfl|rfl
    all_goals first | exact absurd rfl hne | rfl
  · have hmem := (List.mem_tails _ _).mpr hu
    rw [show ("\")\nval ".toList) =
      ['"', ')', '\n', 'v', 'a', 'l', ' '] from rfl] at hmem
    simp [List.tails] at hmem
    rcases hmem with rfl|rfl|rfl|rfl|rfl|rfl|rfl|rfl
    all_goals first | exact absurd rfl hne | rfl
  · have hmem := (List.mem_tails _ _).mpr hu
    rw [show (": String?".toList) =
      [':', ' ', 'S', 't', 'r', 'i', 'n', 'g', '?'] from rfl] at hmem
    simp [List.tails] at hmem
    rcases hmem with rfl|rfl|rfl|rfl|rfl|rfl|rfl|rfl|rfl|rfl
    all_goals first | exact absurd rfl hne | rfl


/-- `enumSerStep` declines at every position inside the annotation prefix, the
mid segment, and the rewritten type tail of the field shape. -/
theorem enumSerStep_none_zone {preR u z : List Char}
    (hu : u <:+ "@SerialName(\"".toList ∨ u <:+ "\")\nval ".toList ∨
      u <:+ ": String?".toList)
    (hne : u ≠ []) : enumSerStep preR (u ++ z) = none := by
  rcases hu with hu | hu | hu
  · have hmem := (List.mem_tails _ _).mpr hu
    rw [show ("@SerialName(\"".toList) =
      ['@', 'S', 'e', 'r', 'i', 'a', 'l', 'N', 'a', 'm', 'e', '(', '"'] from rfl] at hmem
    simp [List.tails] at hmem
    rcases hmem with rfl|rfl|rfl|rfl|rfl|rfl|rfl|rfl|rfl|rfl|rfl|rfl|rfl|rfl
    all_goals first | exact absurd rfl hne | rfl
  · have hmem := (List.mem_tails _ _).mpr hu
    rw [show ("\")\nval ".toList) =
      ['"', ')', '\n', 'v', 'a', 'l', ' '] from rfl] at hmem
    simp [List.tails] at hmem
    rcases hmem with rfl|rfl|rfl|rfl|rfl|rfl|rfl|rfl
    all_goals first | exact absurd rfl hne | rfl
  · have hmem := (List.mem_tails _ _).mpr hu
    rw [show (": String?".toList) =
      [':', ' ', 'S', 't', 'r', 'i', 'n', 'g', '?'] from rfl] at hmem
    simp [List.tails] at hmem
    rcases hmem with rfl|rfl|rfl|rfl|rfl|rfl|rfl|rfl|rfl|rfl
    all_goals first | exact absurd rfl hne | rfl


/-- `apiCallStep` declines at every position inside the annotation prefix, the
mid segment, and the rewritten type tail of the field shape. -/
theorem apiCallStep_none_zone {preR u z : List Char}
    (hu : u <:+ "@SerialName(\"".toList ∨ u <:+ "\")\nval ".toList ∨
      u <:+ ": String?".toList)
    (hne : u ≠ []) : apiCallStep preR (u ++ z) = none := by
  rcases hu with hu | hu | hu
  · have hmem := (List.mem_tails _ _).mpr hu
    rw [show ("@SerialName(\"".toList) =
      ['@', 'S', 'e', 'r', 'i', 'a', 'l', 'N', 'a', 'm', 'e', '(', '"'] from rfl] at hmem
    simp [List.tails] at hmem
    rcases hmem with rfl|rfl|rfl|rfl|rfl|rfl|rfl|rfl|rfl|rfl|rfl|rfl|rfl|rfl
    all_goals first | exact absurd rfl hne | rfl
  · have hmem := (List.mem_tails _ _).mpr hu
    rw [show ("\")\nval ".toList) =
      ['"', ')', '\n', 'v', 'a', 'l', ' '] from rfl] at hmem
    simp [List.tails] at hmem
    rcases hmem with rfl|rfl|rfl|rfl|rfl|rfl|rfl|rfl
    all_goals first | exact absurd rfl hne | rfl
  · have hmem := (List.mem_tails _ _).mpr hu
    rw [show (": String?".toList) =
      [':', ' ', 'S', 't', 'r', 'i', 'n', 'g', '?'] from rfl] at hmem
    simp [List.tails] at hmem
    rcases hmem with rfl|rfl|rfl|rfl|rfl|rfl|rfl|rfl|rfl|rfl
    all_goals first | exact absurd rfl hne | rfl


/-- `apiIfaceStep` declines at every position inside the annotation prefix, the
mid segment, and the rewritten type tail of the field shape. -/
theorem apiIfaceStep_none_zone {preR u z : List Char}
    (hu : u <:+ "@SerialName(\"".toList ∨ u <:+ "\")\nval ".toList ∨
      u <:+ ": String?".toList)
    (hne : u ≠ []) : apiIfaceStep preR (u ++ z) = none := by
  rcases hu with hu | hu | hu
  · have hmem := (List.mem_tails _ _).mpr hu
    rw [show ("@SerialName(\"".toList) =
      ['@', 'S', 'e', 'r', 'i', 'a', 'l', 'N', 'a', 'm', 'e', '(', '"'] from rfl] at hmem
    simp [List.tails] at hmem
    rcases hmem with rfl|rfl|rfl|rfl|rfl|rfl|rfl|rfl|rfl|rfl|rfl|rfl|rfl|rfl
    all_goals first | exact absurd rfl hne | rfl
  · have hmem := (List.mem_tails _ _).mpr hu
    rw [show ("\")\nval ".toList) =
      ['"', ')', '\n', 'v', 'a', 'l', ' '] from rfl] at hmem
    simp [List.tails] at hmem
    rcases hmem with rfl|rfl|rfl|rfl|rfl|rfl|rfl|rfl
    all_goals first | exact absurd rfl hne | rfl
  · have hmem := (List.mem_tails _ _).mpr hu
    rw [show (": String?".toList) =
      [':', ' ', 'S', 't', 'r', 'i', 'n', 'g', '?'] from rfl] at hmem
    simp [List.tails] at hmem
    rcases hmem with rfl|rfl|rfl|rfl|rfl|rfl|rfl|rfl|rfl|rfl
    all_goals first | exact absurd rfl hne | rfl


/-- `apiCreateStep` declines at every position inside the annotation prefix, the
mid segment, and the rewritten type tail of the field shape. -/
theorem apiCreateStep_none_zone {preR u z : List Char}
    (hu : u <:+ "@SerialName(\"".toList ∨ u <:+ "\")\nval ".toList ∨
      u <:+ ": String?".toList)
    (hne : u ≠ []) : apiCreateStep preR (u ++ z) = none := by
  rcases hu with hu | hu | hu
  · have hmem := (List.mem_tails _ _).mpr hu
    rw [show ("@SerialName(\"".toList) =
      ['@', 'S', 'e', 'r', 'i', 'a', 'l', 'N', 'a', 'm', 'e', '(', '"'] from rfl] at hmem
    simp [List.tails] at hmem
    rcases hmem with rfl|rfl|rfl|rfl|rfl|rfl|rfl|rfl|rfl|rfl|rfl|rfl|rfl|rfl
    all_goals first | exact absurd rfl hne | rfl
  · have hmem := (List.mem_tails _ _).mpr hu
    rw [show ("\")\nval ".toList) =
      ['"', ')', '\n', 'v', 'a', 'l', ' '] from rfl] at hmem
    simp [List.tails] at hmem
    rcases hmem with rfl|rfl|rfl|rfl|rfl|rfl|rfl|rfl
    all_goals first | exact absurd rfl hne | rfl
  · have hmem := (List.mem_tails _ _).mpr hu
    rw [show (": String?".toList) =
      [':', ' ', 'S', 't', 'r', 'i', 'n', 'g', '?'] from rfl] at hmem
    simp [List.tails] at hmem
    rcases hmem with rfl|rfl|rfl|rfl|rfl|rfl|rfl|rfl|rfl|rfl
    all_goals first | exact absurd rfl hne | rfl


/-- `optionalStep` declines at every position inside the annotation
prefix and the mid segment of the field shape. -/
theorem optionalStep_none_zone {preR u z : List Char}
    (hu : u <:+ "@SerialName(\"".toList ∨ u <:+ "\")\nval ".toList)
    (hne : u ≠ []) : optionalStep preR (u ++ z) = none := by
  rcases hu with hu | hu
  · have hmem := (List.mem_tails _ _).mpr hu
    rw [show ("@SerialName(\"".toList) =
      ['@', 'S', 'e', 'r', 'i', 'a', 'l', 'N', 'a', 'm', 'e', '(', '"'] from rfl] at hmem
    simp [List.tails] at hmem
    rcases hmem with rfl|rfl|rfl|rfl|rfl|rfl|rfl|rfl|rfl|rfl|rfl|rfl|rfl|rfl
    all_goals first | exact absurd rfl hne | rfl
  · have hmem := (List.mem_tails _ _).mpr hu
    rw [show ("\")\nval ".toList) =
      ['"', ')', '\n', 'v', 'a', 'l', ' '] from rfl] at hmem
    simp [List.tails] at hmem
    rcases hmem with rfl|rfl|rfl|rfl|rfl|rfl|rfl|rfl
    all_goals first | exact absurd rfl hne | rfl


/-- `serAnnStep` declines at every position inside the remainder
` Optional<String>` of a matched field declaration. -/
theorem serAnnStep_none_optRest {preR u : List Char}
    (hu : u <:+ " Optional<String>".toList) (hne : u ≠ []) :
    serAnnStep preR u = none := by
  have hmem := (List.mem_tails _ _).mpr hu
  rw [show (" Optional<String>".toList) =
    [' ', 'O', 'p', 't', 'i', 'o', 'n', 'a', 'l', '<', 'S', 't', 'r', 'i', 'n', 'g', '>'] from rfl] at hmem
  simp [List.tails] at hmem
  rcases hmem with rfl|rfl|rfl|rfl|rfl|rfl|rfl|rfl|rfl|rfl|rfl|rfl|rfl|rfl|rfl|rfl|rfl|rfl
  all_goals first | exact absurd rfl hne | rfl


/-- Classify a suffix of the five-segment field shape into its zones. -/
theorem shape_suffix_cases {S1 name S2 camel T p : List Char}
    (hp : p <:+ S1 ++ name ++ S2 ++ camel ++ T) :
    p <:+ T ∨
    (∃ u, u <:+ camel ∧ u ≠ [] ∧ p = u ++ T) ∨
    (∃ u, u <:+ S2 ∧ u ≠ [] ∧ p = u ++ (camel ++ T)) ∨
    (∃ u, u <:+ name ∧ u ≠ [] ∧ p = u ++ (S2 ++ (camel ++ T))) ∨
    (∃ u, u <:+ S1 ∧ u ≠ [] ∧ p = u ++ (name ++ (S2 ++ (camel ++ T)))) := by
  rcases suffix_append_cases hp with h | ⟨u1, hu1, hne1, rfl⟩
  · exact Or.inl h
  rcases suffix_append_cases hu1 with h | ⟨u2, hu2, hne2, rfl⟩
  · exact Or.inr (Or.inl ⟨u1, h, hne1, rfl⟩)
  rcases suffix_append_cases hu2 with h | ⟨u3, hu3, hne3, rfl⟩
  · exact Or.inr (Or.inr (Or.inl ⟨u2, h, hne2, by simp⟩))
  rcases suffix_append_cases hu3 with h | ⟨u4, hu4, hne4, rfl⟩
  · exact Or.inr (Or.inr (Or.inr (Or.inl ⟨u3, h, hne3, by simp⟩)))
  · exact Or.inr (Or.inr (Or.inr (Or.inr ⟨u4, hu4, hne4, by simp⟩)))

/-- A scan pass leaves the five-segment field shape unchanged when its
matcher declines in every zone. -/
theorem pySub_eq_self_of_zones
    {step : List Char → List Char → Option (List Char × Nat)}
    {S1 name S2 camel T : List Char}
    (hzone : ∀ preR u z, (u <:+ S1 ∨ u <:+ S2 ∨ u <:+ T) → u ≠ [] →
      step preR (u ++ z) = none)
    (hname : ∀ preR u, u <:+ name → u ≠ [] →
      step preR (u ++ (S2 ++ (camel ++ T))) = none)
    (hcamel : ∀ preR u, u <:+ camel → u ≠ [] → step preR (u ++ T) = none) :
    pySub step (S1 ++ name ++ S2 ++ camel ++ T) =
      S1 ++ name ++ S2 ++ camel ++ T := by
  unfold pySub
  apply subScanGo_eq_self
  intro preR p₁ p₂ hsplit hne
  have hsuf : p₂ <:+ S1 ++ name ++ S2 ++ camel ++ T := ⟨p₁, hsplit.symm⟩
  rcases shape_suffix_cases hsuf with h | ⟨u, hu, hun, rfl⟩ | ⟨u, hu, hun, rfl⟩ |
    ⟨u, hu, hun, rfl⟩ | ⟨u, hu, hun, rfl⟩
  · have h2 := hzone preR p₂ [] (Or.inr (Or.inr h)) hne
    rw [List.append_nil] at h2
    exact h2
  · exact hcamel preR u hu hun
  · exact hzone preR u (camel ++ T) (Or.inr (Or.inl hu)) hun
  · exact hname preR u hu hun
  · exact hzone preR u _ (Or.inl hu) hun

/-- Transport a disequality along a known head. -/
theorem head_ne_of_eq {X : List Char} {h0 b : Char}
    (hh : X.head? = some h0) (hne2 : h0 ≠ b) :
    ∀ c, X.head? = some c → c ≠ b := by
  intro c hc
  rw [hh] at hc
  cases hc
  exact hne2


/-- The `arrayStep` scan leaves a rewritten field declaration unchanged. -/
theorem arrayStep_id_on_shape {name camel : List Char}
    (hnw : ∀ ch ∈ name, isWordChar ch = true)
    (hcw : ∀ ch ∈ camel, isWordChar ch = true) :
    pySub arrayStep ("@SerialName(\"".toList ++ name ++ "\")\nval ".toList ++ camel ++
      ": String?".toList) =
      "@SerialName(\"".toList ++ name ++ "\")\nval ".toList ++ camel ++
      ": String?".toList := by
  apply pySub_eq_self_of_zones
  · intro preR u z hu hne
    exact arrayStep_none_zone hu hne
  · intro preR u hu hne
    exact arrayStep_none_word hne (fun ch h => hnw ch (hu.subset h))
  · intro preR u hu hne
    exact arrayStep_none_word hne (fun ch h => hcw ch (hu.subset h))


/-- The `dataClassStep` scan leaves a rewritten field declaration unchanged. -/
theorem dataClassStep_id_on_shape {name camel : List Char}
    (hnw : ∀ ch ∈ name, isWordChar ch = true)
    (hcw : ∀ ch ∈ camel, isWordChar ch = true) :
    pySub dataClassStep ("@SerialName(\"".toList ++ name ++ "\")\nval ".toList ++ camel ++
      ": String?".toList) =
      "@SerialName(\"".toList ++ name ++ "\")\nval ".toList ++ camel ++
      ": String?".toList := by
  apply pySub_eq_self_of_zones
  · intro preR u z hu hne
    exact dataClassStep_none_zone hu hne
  · intro preR u hu hne
    exact dataClassStep_none_word hne (fun ch h => hnw ch (hu.subset h))
      (head_pred_of_eq rfl (by decide)) (head_pred_of_eq rfl (by decide))
  · intro preR u hu hne
    exact dataClassStep_none_word hne (fun ch h => hcw ch (hu.subset h))
      (head_pred_of_eq rfl (by decide)) (head_pred_of_eq rfl (by decide))


/-- The `enumClassStep` scan leaves a rewritten field declaration unchanged. -/
theorem enumClassStep_id_on_shape {name camel : List Char}
    (hnw : ∀ ch ∈ name, isWordChar ch = true)
    (hcw : ∀ ch ∈ camel, isWordChar ch = true) :
    pySub enumClassStep ("@SerialName(\"".toList ++ name ++ "\")\nval ".toList ++ camel ++
      ": String?".toList) =
      "@SerialName(\"".toList ++ name ++ "\")\nval ".toList ++ camel ++
      ": String?".toList := by
  apply pySub_eq_self_of_zones
  · intro preR u z hu hne
    exact enumClassStep_none_zone hu hne
  · intro preR u hu hne
    exact enumClassStep_none_word hne (fun ch h => hnw ch (hu.subset h))
      (head_pred_of_eq rfl (by decide)) (head_pred_of_eq rfl (by decide))
  · intro preR u hu hne
    exact enumClassStep_none_word hne (fun ch h => hcw ch (hu.subset h))
      (head_pred_of_eq rfl (by decide)) (head_pred_of_eq rfl (by decide))


/-- The `dedupStep` scan leaves a rewritten field declaration unchanged. -/
theorem dedupStep_id_on_shape {name camel : List Char}
    (hnw : ∀ ch ∈ name, isWordChar ch = true)
    (hcw : ∀ ch ∈ camel, isWordChar ch = true) :
    pySub dedupStep ("@SerialName(\"".toList ++ name ++ "\")\nval ".toList ++ camel ++
      ": String?".toList) =
      "@SerialName(\"".toList ++ name ++ "\")\nval ".toList ++ camel ++
      ": String?".toList := by
  apply pySub_eq_self_of_zones
  · intro preR u z hu hne
    exact dedupStep_none_zone hu hne
  · intro preR u hu hne
    exact dedupStep_none_word hne (fun ch h => hnw ch (hu.subset h))
  · intro preR u hu hne
    exact dedupStep_none_word hne (fun ch h => hcw ch (hu.subset h))


/-- The `enumSerStep` scan leaves a rewritten field declaration unchanged. -/
theorem enumSerStep_id_on_shape {name camel : List Char}
    (hnw : ∀ ch ∈ name, isWordChar ch = true)
    (hcw : ∀ ch ∈ camel, isWordChar ch = true) :
    pySub enumSerStep ("@SerialName(\"".toList ++ name ++ "\")\nval ".toList ++ camel ++
      ": String?".toList) =
      "@SerialName(\"".toList ++ name ++ "\")\nval ".toList ++ camel ++
      ": String?".toList := by
  apply pySub_eq_self_of_zones
  · intro preR u z hu hne
    exact enumSerStep_none_zone hu hne
  · intro preR u hu hne
    exact enumSerStep_none_word hne (fun ch h => hnw ch (hu.subset h))
      (head_pred_of_eq rfl (by decide)) (head_pred_of_eq rfl (by decide))
  · intro preR u hu hne
    exact enumSerStep_none_word hne (fun ch h => hcw ch (hu.subset h))
      (head_pred_of_eq rfl (by decide)) (head_pred_of_eq rfl (by decide))


/-- The `apiCallStep` scan leaves a rewritten field declaration unchanged. -/
theorem apiCallStep_id_on_shape {name camel : List Char}
    (hnw : ∀ ch ∈ name, isWordChar ch = true)
    (hcw : ∀ ch ∈ camel, isWordChar ch = true) :
    pySub apiCallStep ("@SerialName(\"".toList ++ name ++ "\")\nval ".toList ++ camel ++
      ": String?".toList) =
      "@SerialName(\"".toList ++ name ++ "\")\nval ".toList ++ camel ++
      ": String?".toList := by
  apply pySub_eq_self_of_zones
  · intro preR u z hu hne
    exact apiCallStep_none_zone hu hne
  · intro preR u hu hne
    exact apiCallStep_none_word hne (fun ch h => hnw ch (hu.subset h))
  · intro preR u hu hne
    exact apiCallStep_none_word hne (fun ch h => hcw ch (hu.subset h))


/-- The `apiIfaceStep` scan leaves a rewritten field declaration unchanged. -/
theorem apiIfaceStep_id_on_shape {name camel : List Char}
    (hnw : ∀ ch ∈ name, isWordChar ch = true)
    (hcw : ∀ ch ∈ camel, isWordChar ch = true) :
    pySub apiIfaceStep ("@SerialName(\"".toList ++ name ++ "\")\nval ".toList ++ camel ++
      ": String?".toList) =
      "@SerialName(\"".toList ++ name ++ "\")\nval ".toList ++ camel ++
      ": String?".toList := by
  apply pySub_eq_self_of_zones
  · intro preR u z hu hne
    exact apiIfaceStep_none_zone hu hne
  · intro preR u hu hne
    exact apiIfaceStep_none_word hne (fun ch h => hnw ch (hu.subset h))
      (head_pred_of_eq rfl (by decide)) (head_pred_of_eq rfl (by decide))
  · intro preR u hu hne
    exact apiIfaceStep_none_word hne (fun ch h => hcw ch (hu.subset h))
      (head_pred_of_eq rfl (by decide)) (head_pred_of_eq rfl (by decide))


/-- The `apiCreateStep` scan leaves a rewritten field declaration unchanged. -/
theorem apiCreateStep_id_on_shape {name camel : List Char}
    (hnw : ∀ ch ∈ name, isWordChar ch = true)
    (hcw : ∀ ch ∈ camel, isWordChar ch = true) :
    pySub apiCreateStep ("@SerialName(\"".toList ++ name ++ "\")\nval ".toList ++ camel ++
      ": String?".toList) =
      "@SerialName(\"".toList ++ name ++ "\")\nval ".toList ++ camel ++
      ": String?".toList := by
  apply pySub_eq_self_of_zones
  · intro preR u z hu hne
    exact apiCreateStep_none_zone hu hne
  · intro preR u hu hne
    exact apiCreateStep_none_word hne (fun ch h => hnw ch (hu.subset h))
      (head_pred_of_eq rfl (by decide)) (head_ne_of_eq rfl (by decide))
  · intro preR u hu hne
    exact apiCreateStep_none_word hne (fun ch h => hcw ch (hu.subset h))
      (head_pred_of_eq rfl (by decide)) (head_ne_of_eq rfl (by decide))

/-- A nonempty token list joins to an underscore-headed text. -/
theorem underscoreJoin_head {toks : List (List Char)} (h : toks ≠ [])
    (y : List Char) : (underscoreJoin toks ++ y).head? = some '_' := by
  obtain ⟨t, ts, rfl⟩ := List.exists_cons_of_ne_nil h
  rfl

/-- The underscore join is at least as long as the token list. -/
theorem underscoreJoin_length :
    ∀ toks : List (List Char), toks.length ≤ (underscoreJoin toks).length := by
  intro toks
  induction toks with
  | nil => simp [underscoreJoin]
  | cons t ts ih =>
    simp only [underscoreJoin, List.length_cons, List.length_append]
    omega

/-- Characters of an underscore join are underscores or token characters. -/
theorem mem_underscoreJoin {toks : List (List Char)} {ch : Char}
    (h : ch ∈ underscoreJoin toks) : ch = '_' ∨ ∃ t ∈ toks, ch ∈ t := by
  induction toks with
  | nil => cases h
  | cons t ts ih =>
    simp only [underscoreJoin, List.mem_cons, List.mem_append] at h
    rcases h with rfl | h2 | h3
    · exact Or.inl rfl
    · exact Or.inr ⟨t, List.mem_cons_self _ _, h2⟩
    · rcases ih h3 with h4 | ⟨t2, ht2, hc⟩
      · exact Or.inl h4
      · exact Or.inr ⟨t2, List.mem_cons_of_mem _ ht2, hc⟩

/-- `snakeMore` consumes nothing when no `_[a-z]` group starts. -/
theorem snakeMore_default {fuel : Nat} {s : List Char}
    (h : ∀ c r, s = '_' :: c :: r → False) : snakeMore fuel s = ([], s) := by
  cases fuel with
  | zero => rfl
  | succ f =>
    unfold snakeMore
    split
    · rename_i c r
      exact (h c r rfl).elim
    · rfl

/-- The `snakeMore` equation on a well-formed group head. -/
theorem snakeMore_group {f : Nat} {c : Char} {r : List Char}
    (hc : isLowerAZ c = true) :
    snakeMore (f + 1) ('_' :: c :: r) =
      ('_' :: c :: ((munch isLowerAZ r).1 ++ (snakeMore f (munch isLowerAZ r).2).1),
        (snakeMore f (munch isLowerAZ r).2).2) := by
  rcases hm : munch isLowerAZ r with ⟨tk, rr⟩
  rcases hs : snakeMore f rr with ⟨gs, r2⟩
  simp only [snakeMore, hm, hs, hc, if_true]

/-- `(?:_[a-z]+)*` consumes exactly a joined token list when the
continuation starts with neither a lower-case letter nor an underscore. -/
theorem snakeMore_joined {toks : List (List Char)} {rest : List Char}
    (htc : ∀ t ∈ toks, t ≠ [] ∧ ∀ ch ∈ t, isLowerAZ ch = true)
    (hrest : ∀ c, rest.head? = some c → isLowerAZ c = false ∧ c ≠ '_') :
    ∀ fuel, toks.length ≤ fuel →
      snakeMore fuel (underscoreJoin toks ++ rest) = (underscoreJoin toks, rest) := by
  induction toks with
  | nil =>
    intro fuel _
    have hd : ∀ c r, rest = '_' :: c :: r → False := by
      intro c r he
      exact (hrest '_' (by rw [he]; rfl)).2 rfl
    have h2 := @snakeMore_default fuel rest hd
    simpa [underscoreJoin] using h2
  | cons t ts ih =>
    intro fuel hf
    obtain ⟨hne, hlow⟩ := htc t (List.mem_cons_self _ _)
    obtain ⟨c, t', rfl⟩ := List.exists_cons_of_ne_nil hne
    cases fuel with
    | zero => exact absurd hf (by simp)
    | succ f =>
      have hshape : underscoreJoin ((c :: t') :: ts) ++ rest =
          '_' :: c :: (t' ++ (underscoreJoin ts ++ rest)) := by
        simp [underscoreJoin]
      rw [hshape, snakeMore_group (hlow c (List.mem_cons_self _ _))]
      have hm : munch isLowerAZ (t' ++ (underscoreJoin ts ++ rest)) =
          (t', underscoreJoin ts ++ rest) := by
        apply munch_exact
        · intro ch hc2
          exact hlow ch (List.mem_cons_of_mem _ hc2)
        · intro ch hc2
          cases ts with
          | nil =>
            exact (hrest ch (by simpa [underscoreJoin] using hc2)).1
          | cons t2 ts2 =>
            have h3 : '_' = ch := by simpa [underscoreJoin] using hc2
            subst h3
            rfl
      rw [hm]
      have hih := ih (fun t2 ht2 => htc t2 (List.mem_cons_of_mem _ ht2)) f (by
        simp only [List.length_cons] at hf
        omega)
      rw [hih]
      simp [underscoreJoin]

/-- `(?:_[a-z]+)+` consumes exactly a nonempty joined token list. -/
theorem snakeParts_joined {toks : List (List Char)} {rest : List Char}
    (hts : toks ≠ [])
    (htc : ∀ t ∈ toks, t ≠ [] ∧ ∀ ch ∈ t, isLowerAZ ch = true)
    (hrest : ∀ c, rest.head? = some c → isLowerAZ c = false ∧ c ≠ '_') :
    snakeParts (underscoreJoin toks ++ rest) = some (underscoreJoin toks, rest) := by
  unfold snakeParts
  have hlen : toks.length ≤ (underscoreJoin toks ++ rest).length := by
    have h2 := underscoreJoin_length toks
    simp only [List.length_append]
    omega
  rw [snakeMore_joined htc hrest _ hlen]
  obtain ⟨t, ts, rfl⟩ := List.exists_cons_of_ne_nil hts
  rfl

/-- The matcher of `fix_serialization_annotations` at an unannotated
snake_case field declaration starting the content: it fires and produces
the annotation, the camel-cased declaration, and the consumed length. -/
theorem serAnnStep_at_decl {c0 : Char} {t0r : List Char}
    {toks : List (List Char)} {rest2 : List Char}
    (hc0 : isLowerAZ c0 = true) (ht0 : ∀ ch ∈ t0r, isLowerAZ ch = true)
    (hts : toks ≠ []) (htc : ∀ t ∈ toks, t ≠ [] ∧ ∀ ch ∈ t, isLowerAZ ch = true) :
    serAnnStep [] ('v' :: 'a' :: 'l' :: ' ' ::
        (((c0 :: t0r) ++ underscoreJoin toks) ++ (':' :: rest2))) =
      some ("@SerialName(\"".toList ++ ((c0 :: t0r) ++ underscoreJoin toks) ++
          "\")\n".toList ++ "val ".toList ++
          snake_to_camel ((c0 :: t0r) ++ underscoreJoin toks) ++ [':'],
        ((c0 :: t0r) ++ underscoreJoin toks).length + 5) := by
  have e1 : matchLit ("val".toList) ('v' :: 'a' :: 'l' :: ' ' ::
      (((c0 :: t0r) ++ underscoreJoin toks) ++ (':' :: rest2))) =
      some ([' '] ++ (((c0 :: t0r) ++ underscoreJoin toks) ++ (':' :: rest2))) := rfl
  have e2 : munch isPySpace ([' '] ++ (((c0 :: t0r) ++ underscoreJoin toks) ++
      (':' :: rest2))) =
      ([' '], ((c0 :: t0r) ++ underscoreJoin toks) ++ (':' :: rest2)) := by
    apply munch_exact
    · intro c hc
      have h3 : c = ' ' := by simpa using hc
      subst h3
      rfl
    · exact head_pred_of_eq rfl (isPySpace_eq_false_of_word (isWordChar_of_lower hc0))
  have e3 : munch isLowerAZ (((c0 :: t0r) ++ underscoreJoin toks) ++ (':' :: rest2)) =
      (c0 :: t0r, underscoreJoin toks ++ (':' :: rest2)) := by
    rw [List.append_assoc]
    apply munch_exact
    · intro ch hc
      rcases List.mem_cons.mp hc with rfl | h2
      · exact hc0
      · exact ht0 ch h2
    · exact head_pred_of_eq (underscoreJoin_head hts _) (by decide)
  have e4 : snakeParts (underscoreJoin toks ++ (':' :: rest2)) =
      some (underscoreJoin toks, ':' :: rest2) := by
    apply snakeParts_joined hts htc
    intro c hc
    have h3 : ':' = c := by simpa using hc
    subst h3
    exact ⟨by decide, by decide⟩
  have e5 : munch isPySpace (':' :: rest2) = ([], ':' :: rest2) :=
    munch_nil_of_front (head_pred_of_eq rfl (by decide))
  have e6 : matchLit [':'] (':' :: rest2) = some rest2 := by
    simp [matchLit]
  unfold serAnnStep
  rw [e1]
  simp only []
  rw [e2]
  simp only []
  rw [if_neg (by simp)]
  rw [e3]
  simp only []
  rw [if_neg (by simp)]
  rw [e4]
  simp only []
  rw [e5]
  simp only []
  rw [e6]
  simp only []
  simp [List.length_append, List.length_cons]
  exact ⟨by rfl, by omega⟩

/-- `fix_serialization_annotations` on a whole unannotated snake_case
field declaration: annotation inserted, identifier camel-cased, the
declared type untouched. -/
theorem serAnn_on_decl {c0 : Char} {t0r : List Char} {toks : List (List Char)}
    (hc0 : isLowerAZ c0 = true) (ht0 : ∀ ch ∈ t0r, isLowerAZ ch = true)
    (hts : toks ≠ []) (htc : ∀ t ∈ toks, t ≠ [] ∧ ∀ ch ∈ t, isLowerAZ ch = true) :
    fix_serialization_annotations ("val ".toList ++
        ((c0 :: t0r) ++ underscoreJoin toks) ++ ": Optional<String>".toList) =
      "@SerialName(\"".toList ++ ((c0 :: t0r) ++ underscoreJoin toks) ++
        "\")\nval ".toList ++ snake_to_camel ((c0 :: t0r) ++ underscoreJoin toks) ++
        ": Optional<String>".toList := by
  unfold fix_serialization_annotations pySub
  rw [show ("val ".toList ++ ((c0 :: t0r) ++ underscoreJoin toks) ++
    ": Optional<String>".toList) = 'v' :: 'a' :: 'l' :: ' ' ::
    (((c0 :: t0r) ++ underscoreJoin toks) ++ (':' :: " Optional<String>".toList)) from rfl]
  rw [show ('v' :: 'a' :: 'l' :: ' ' ::
      (((c0 :: t0r) ++ underscoreJoin toks) ++ (':' :: " Optional<String>".toList))).length =
    ('a' :: 'l' :: ' ' ::
      (((c0 :: t0r) ++ underscoreJoin toks) ++ (':' :: " Optional<String>".toList))).length + 1
    from rfl]
  rw [subScanGo_cons_some (serAnnStep_at_decl hc0 ht0 hts htc)]
  have hdrop : List.drop (((c0 :: t0r) ++ underscoreJoin toks).length + 5)
      ('v' :: 'a' :: 'l' :: ' ' :: (((c0 :: t0r) ++ underscoreJoin toks) ++
        (':' :: " Optional<String>".toList))) = " Optional<String>".toList := by
    have h1 : ('v' :: 'a' :: 'l' :: ' ' :: (((c0 :: t0r) ++ underscoreJoin toks) ++
        (':' :: " Optional<String>".toList))) =
        ('v' :: 'a' :: 'l' :: ' ' :: (((c0 :: t0r) ++ underscoreJoin toks) ++ [':'])) ++
          " Optional<String>".toList := by
      simp
    have h2 : ('v' :: 'a' :: 'l' :: ' ' ::
        (((c0 :: t0r) ++ underscoreJoin toks) ++ [':'])).length =
        ((c0 :: t0r) ++ underscoreJoin toks).length + 5 := by
      simp [List.length_append, List.length_cons]
      omega
    rw [h1, ← h2, List.drop_left]
  rw [hdrop]
  have htail : ∀ fuel preR,
      subScanGo serAnnStep fuel preR (" Optional<String>".toList) =
        " Optional<String>".toList := fun fuel preR =>
    subScanGo_eq_self
      (fun preR p₁ p₂ hs hne => serAnnStep_none_optRest ⟨p₁, hs.symm⟩ hne) fuel preR
  rw [htail]
  simp

/-- The Optional-rewrite scan applied to the remainder of a field
declaration: the suffix `: Optional<String>` becomes `: String?`. -/
theorem optional_tail_scan : ∀ preR,
    subScanGo optionalStep ((": Optional<String>".toList)).length preR
      (": Optional<String>".toList) = ": String?".toList := by
  intro preR
  rfl

/-- The Optional-rewrite pass on the annotated field shape: only the
declared type changes. -/
theorem optionalStep_pass_on_shape {name camel : List Char}
    (hnw : ∀ ch ∈ name, isWordChar ch = true)
    (hcw : ∀ ch ∈ camel, isWordChar ch = true) :
    pySub optionalStep ("@SerialName(\"".toList ++ name ++ "\")\nval ".toList ++
        camel ++ ": Optional<String>".toList) =
      "@SerialName(\"".toList ++ name ++ "\")\nval ".toList ++ camel ++
        ": String?".toList := by
  have hnone : ∀ preR p₁ p₂,
      "@SerialName(\"".toList ++ name ++ "\")\nval ".toList ++ camel = p₁ ++ p₂ →
      p₂ ≠ [] → optionalStep preR (p₂ ++ ": Optional<String>".toList) = none := by
    intro preR p₁ p₂ hsplit hne
    have hsuf : p₂ <:+ "@SerialName(\"".toList ++ name ++ "\")\nval ".toList ++ camel :=
      ⟨p₁, hsplit.symm⟩
    rcases suffix_append_cases hsuf with h | ⟨u, hu, hun, rfl⟩
    · exact optionalStep_none_word hne (fun ch hh => hcw ch (h.subset hh))
    · rcases suffix_append_cases hu with h | ⟨u2, hu2, hun2, rfl⟩
      · rw [List.append_assoc]
        exact optionalStep_none_zone (Or.inr h) hun
      · rcases suffix_append_cases hu2 with h | ⟨u3, hu3, hun3, rfl⟩
        · simp only [List.append_assoc]
          exact optionalStep_none_word hun2 (fun ch hh => hnw ch (h.subset hh))
        · simp only [List.append_assoc]
          exact optionalStep_none_zone (Or.inl hu3) hun3
  unfold pySub
  rw [subScanGo_append_of_none hnone]
  have hlen : (("@SerialName(\"".toList ++ name ++ "\")\nval ".toList ++ camel) ++
      ": Optional<String>".toList).length -
      ("@SerialName(\"".toList ++ name ++ "\")\nval ".toList ++ camel).length =
      ((": Optional<String>".toList)).length := by
    simp
    omega
  rw [hlen, optional_tail_scan]

/-- Every character of a matched snake_case identifier is a word
character. -/
theorem name_chars_word {c0 : Char} {t0r : List Char} {toks : List (List Char)}
    (hc0 : isLowerAZ c0 = true) (ht0 : ∀ ch ∈ t0r, isLowerAZ ch = true)
    (htc : ∀ t ∈ toks, t ≠ [] ∧ ∀ ch ∈ t, isLowerAZ ch = true) :
    ∀ ch ∈ (c0 :: t0r) ++ underscoreJoin toks, isWordChar ch = true := by
  intro ch hch
  rcases List.mem_append.mp hch with h | h
  · rcases List.mem_cons.mp h with rfl | h2
    · exact isWordChar_of_lower hc0
    · exact isWordChar_of_lower (ht0 ch h2)
  · rcases mem_underscoreJoin h with rfl | ⟨t, ht, hc⟩
    · decide
    · exact isWordChar_of_lower ((htc t ht).2 ch hc)

/-- Every character of a matched snake_case identifier is a lower-case
letter or an underscore. -/
theorem name_chars_lower {c0 : Char} {t0r : List Char} {toks : List (List Char)}
    (hc0 : isLowerAZ c0 = true) (ht0 : ∀ ch ∈ t0r, isLowerAZ ch = true)
    (htc : ∀ t ∈ toks, t ≠ [] ∧ ∀ ch ∈ t, isLowerAZ ch = true) :
    ∀ ch ∈ (c0 :: t0r) ++ underscoreJoin toks, isLowerAZ ch = true ∨ ch = '_' := by
  intro ch hch
  rcases List.mem_append.mp hch with h | h
  · rcases List.mem_cons.mp h with rfl | h2
    · exact Or.inl hc0
    · exact Or.inl (ht0 ch h2)
  · rcases mem_underscoreJoin h with rfl | ⟨t, ht, hc⟩
    · exact Or.inr rfl
    · exact Or.inl ((htc t ht).2 ch hc)

/-- The import pass leaves the bare field declaration unchanged: no `@`
occurs in it, so neither annotation is present. -/
theorem fix_imports_on_decl {c0 : Char} {t0r : List Char} {toks : List (List Char)}
    (hc0 : isLowerAZ c0 = true) (ht0 : ∀ ch ∈ t0r, isLowerAZ ch = true)
    (htc : ∀ t ∈ toks, t ≠ [] ∧ ∀ ch ∈ t, isLowerAZ ch = true) :
    fix_imports ("val ".toList ++ ((c0 :: t0r) ++ underscoreJoin toks) ++
        ": Optional<String>".toList) =
      "val ".toList ++ ((c0 :: t0r) ++ underscoreJoin toks) ++
        ": Optional<String>".toList := by
  have hat : '@' ∉ ("val ".toList ++ ((c0 :: t0r) ++ underscoreJoin toks) ++
      ": Optional<String>".toList) := by
    intro hm
    rcases List.mem_append.mp hm with h | h
    · rcases List.mem_append.mp h with h2 | h2
      · revert h2
        decide
      · exact absurd (name_chars_word hc0 ht0 htc '@' h2) (by decide)
    · revert h
      decide
  apply fix_imports_eq_self
  · rw [show ("@Serializable".toList) = '@' :: "Serializable".toList from rfl,
      containsSub_eq_false_of_head_not_mem hat]
    rfl
  · rw [show ("@SerialName".toList) = '@' :: "SerialName".toList from rfl,
      containsSub_eq_false_of_head_not_mem hat]
    rfl

/-- `head?` looks only at a nonempty left part. -/
theorem head?_append_of_ne_nil {l₁ l₂ : List Char} (h : l₁ ≠ []) :
    (l₁ ++ l₂).head? = l₁.head? := by
  cases l₁ with
  | nil => exact absurd rfl h
  | cons a t => rfl

/-- `getLast?` looks only at a nonempty right part. -/
theorem getLast?_append_of_ne_nil {l₁ l₂ : List Char} (h : l₂ ≠ []) :
    (l₁ ++ l₂).getLast? = l₂.getLast? := by
  rw [← List.head?_reverse, List.reverse_append,
    head?_append_of_ne_nil (by simpa using h), List.head?_reverse]

/-- The last element of a list is one of its members. -/
theorem mem_of_getLast?Char {l : List Char} {a : Char}
    (h : l.getLast? = some a) : a ∈ l := by
  rw [← List.head?_reverse] at h
  have h2 : a ∈ l.reverse := by
    cases hl : l.reverse with
    | nil =>
      rw [hl] at h
      cases h
    | cons x xs =>
      rw [hl] at h
      have hx : x = a := by simpa using h
      subst hx
      exact List.mem_cons_self _ _
  exact List.mem_reverse.mp h2

/-- A needle whose text starts the haystack is contained in it (head
membership direction). -/
theorem head_mem_of_containsSub {a : Char} {as h : List Char}
    (hc : containsSub (a :: as) h = true) : a ∈ h := by
  induction h with
  | nil => simp [containsSub, startsWithL] at hc
  | cons c cs ih =>
    simp only [containsSub, Bool.or_eq_true] at hc
    rcases hc with h1 | h2
    · simp only [startsWithL, Bool.and_eq_true, decide_eq_true_eq] at h1
      rw [h1.1]
      exact List.mem_cons_self _ _
    · exact List.mem_cons_of_mem _ (ih h2)

/-- A value of either enum-value class is nonempty. -/
theorem plain_or_annot_ne_nil {v : List Char}
    (h : plainEnumVal v ∨ annotatedEnumVal v) : v ≠ [] := by
  rcases h with ⟨hne, _⟩ | ⟨lit, w, rfl, _, _, _, _⟩
  · exact hne
  · simp

/-- A value of either class does not start with whitespace. -/
theorem val_head_not_space {v : List Char}
    (h : plainEnumVal v ∨ annotatedEnumVal v) :
    ∀ c, v.head? = some c → isPySpace c = false := by
  rcases h with ⟨hne, hw⟩ | ⟨lit, w, rfl, _, _, _, _⟩
  · intro c hc
    cases v with
    | nil => cases hc
    | cons a t =>
      have ha : a = c := by simpa using hc
      subst ha
      exact isPySpace_eq_false_of_word (hw a (List.mem_cons_self _ _))
  · intro c hc
    have ha : '@' = c := by simpa using hc
    subst ha
    rfl

/-- A value of either class does not end with whitespace. -/
theorem val_last_not_space {v : List Char}
    (h : plainEnumVal v ∨ annotatedEnumVal v) :
    ∀ c, v.getLast? = some c → isPySpace c = false := by
  rcases h with ⟨hne, hw⟩ | ⟨lit, w, rfl, _, _, hwne, hw⟩
  · intro c hc
    exact isPySpace_eq_false_of_word (hw c (mem_of_getLast?Char hc))
  · intro c hc
    rw [getLast?_append_of_ne_nil hwne] at hc
    exact isPySpace_eq_false_of_word (hw c (mem_of_getLast?Char hc))

/-- No comma occurs in a value of either class. -/
theorem comma_not_mem_val {v : List Char}
    (h : plainEnumVal v ∨ annotatedEnumVal v) : ',' ∉ v := by
  intro hm
  rcases h with ⟨_, hw⟩ | ⟨lit, w, rfl, _, hlit, _, hw⟩
  · have h2 := hw ',' hm
    rw [show isWordChar ',' = false from rfl] at h2
    cases h2
  · rcases List.mem_append.mp hm with h1 | h1
    · rcases List.mem_append.mp h1 with h2 | h2
      · rcases List.mem_append.mp h2 with h3 | h3
        · revert h3
          decide
        · rcases hlit ',' h3 with h4 | h4
          · rw [show isWordChar ',' = false from rfl] at h4
            cases h4
          · cases h4
      · revert h2
        decide
    · have h2 := hw ',' h1
      rw [show isWordChar ',' = false from rfl] at h2
      cases h2

/-- No closing brace occurs in a value of either class. -/
theorem brace_not_mem_val {v : List Char}
    (h : plainEnumVal v ∨ annotatedEnumVal v) : '\x7d' ∉ v := by
  intro hm
  rcases h with ⟨_, hw⟩ | ⟨lit, w, rfl, _, hlit, _, hw⟩
  · have h2 := hw '\x7d' hm
    rw [show isWordChar '\x7d' = false from rfl] at h2
    cases h2
  · rcases List.mem_append.mp hm with h1 | h1
    · rcases List.mem_append.mp h1 with h2 | h2
      · rcases List.mem_append.mp h2 with h3 | h3
        · revert h3
          decide
        · rcases hlit '\x7d' h3 with h4 | h4
          · rw [show isWordChar '\x7d' = false from rfl] at h4
            cases h4
          · cases h4
      · revert h2
        decide
    · have h2 := hw '\x7d' h1
      rw [show isWordChar '\x7d' = false from rfl] at h2
      cases h2

/-- Characters of a separator join come from the separator or a piece. -/
theorem mem_joinSep {sep : List Char} {parts : List (List Char)} {ch : Char} :
    ch ∈ joinSep sep parts → ch ∈ sep ∨ ∃ p ∈ parts, ch ∈ p := by
  induction parts with
  | nil =>
    intro h
    cases h
  | cons v vs ih =>
    cases vs with
    | nil =>
      intro h
      exact Or.inr ⟨v, List.mem_cons_self _ _, by simpa [joinSep] using h⟩
    | cons w ws =>
      intro h
      simp only [joinSep, List.append_assoc, List.mem_append] at h
      rcases h with h1 | h2 | h3
      · exact Or.inr ⟨v, List.mem_cons_self _ _, h1⟩
      · exact Or.inl h2
      · rcases ih h3 with h4 | ⟨p, hp, hcp⟩
        · exact Or.inl h4
        · exact Or.inr ⟨p, List.mem_cons_of_mem _ hp, hcp⟩

/-- A join headed by a nonempty piece is nonempty. -/
theorem joinSep_ne_nil {sep : List Char} {v : List Char} {vs : List (List Char)}
    (h : v ≠ []) : joinSep sep (v :: vs) ≠ [] := by
  cases vs with
  | nil => simpa [joinSep] using h
  | cons w ws =>
    simp only [joinSep]
    intro he
    rcases List.append_eq_nil.mp he with ⟨he2, _⟩
    rcases List.append_eq_nil.mp he2 with ⟨he3, _⟩
    exact h he3

/-- A join of class values does not start with whitespace. -/
theorem joinSep_head_not_space {sep : List Char} {vals : List (List Char)}
    (hval : ∀ v ∈ vals, plainEnumVal v ∨ annotatedEnumVal v) :
    ∀ c, (joinSep sep vals).head? = some c → isPySpace c = false := by
  cases vals with
  | nil =>
    intro c hc
    cases hc
  | cons v vs =>
    cases vs with
    | nil =>
      intro c hc
      exact val_head_not_space (hval v (List.mem_cons_self _ _)) c
        (by simpa [joinSep] using hc)
    | cons w ws =>
      intro c hc
      rw [show joinSep sep (v :: w :: ws) = v ++ (sep ++ joinSep sep (w :: ws))
          from by simp [joinSep]] at hc
      rw [head?_append_of_ne_nil
        (plain_or_annot_ne_nil (hval v (List.mem_cons_self _ _)))] at hc
      exact val_head_not_space (hval v (List.mem_cons_self _ _)) c hc

/-- A join of class values does not end with whitespace. -/
theorem joinSep_last_not_space {sep : List Char} {vals : List (List Char)}
    (hval : ∀ v ∈ vals, plainEnumVal v ∨ annotatedEnumVal v) :
    ∀ c, (joinSep sep vals).getLast? = some c → isPySpace c = false := by
  induction vals with
  | nil =>
    intro c hc
    cases hc
  | cons v vs ih =>
    cases vs with
    | nil =>
      intro c hc
      exact val_last_not_space (hval v (List.mem_cons_self _ _)) c
        (by simpa [joinSep] using hc)
    | cons w ws =>
      intro c hc
      have hjne : joinSep sep (w :: ws) ≠ [] :=
        joinSep_ne_nil (plain_or_annot_ne_nil (hval w (by simp)))
      rw [show joinSep sep (v :: w :: ws) = v ++ (sep ++ joinSep sep (w :: ws))
          from by simp [joinSep]] at hc
      rw [getLast?_append_of_ne_nil (by
        intro he
        exact hjne (List.append_eq_nil.mp he).2)] at hc
      rw [getLast?_append_of_ne_nil hjne] at hc
      exact ih (fun x hx => hval x (List.mem_cons_of_mem _ hx)) c hc

/-- `str.strip()` fixes a text with non-space ends. -/
theorem pyStrip_eq_self_of_ends {m : List Char}
    (hm1 : ∀ c, m.head? = some c → isPySpace c = false)
    (hm2 : ∀ c, m.getLast? = some c → isPySpace c = false) :
    pyStrip m = m := by
  have h := pyStrip_frame (a := []) (b := [])
    (by intro c hc; cases hc) (by intro c hc; cases hc) hm1 hm2
  simpa using h

/-- `str.strip()` removes exactly the layout indent glued to a piece. -/
theorem pyStrip_indent {w : List Char}
    (hm1 : ∀ c, w.head? = some c → isPySpace c = false)
    (hm2 : ∀ c, w.getLast? = some c → isPySpace c = false) :
    pyStrip ("\n    ".toList ++ w) = w := by
  have h := pyStrip_frame (a := "\n    ".toList) (b := [])
    (by decide) (by intro c hc; cases hc) hm1 hm2
  simpa using h

/-- The `fix_enum_serialization` value extraction recovers exactly the
joined value list. -/
theorem enum_values_compute {vals : List (List Char)} (hvne : vals ≠ [])
    (hval : ∀ v ∈ vals, plainEnumVal v ∨ annotatedEnumVal v) :
    ((pySplitOn ','
        (pyStrip (("\n    ".toList ++ joinSep (",\n    ".toList) vals) ++
          "\n".toList))).map pyStrip).filter (· ≠ []) = vals := by
  obtain ⟨v, vs, rfl⟩ := List.exists_cons_of_ne_nil hvne
  have hstrip : pyStrip (("\n    ".toList ++ joinSep (",\n    ".toList) (v :: vs)) ++
      "\n".toList) = joinSep (",\n    ".toList) (v :: vs) := by
    apply pyStrip_frame
    · decide
    · decide
    · exact joinSep_head_not_space hval
    · exact joinSep_last_not_space hval
  rw [hstrip]
  have hsplit : pySplitOn ',' (joinSep (',' :: "\n    ".toList) (v :: vs)) =
      v :: vs.map (fun w => "\n    ".toList ++ w) :=
    pySplitOn_joinSep (by decide) (comma_not_mem_val (hval v (List.mem_cons_self _ _)))
      (fun w hw => comma_not_mem_val (hval w (List.mem_cons_of_mem _ hw)))
  rw [show (",\n    ".toList) = ',' :: "\n    ".toList from rfl, hsplit]
  simp only [List.map_cons, List.map_map]
  rw [pyStrip_eq_self_of_ends (val_head_not_space (hval v (List.mem_cons_self _ _)))
    (val_last_not_space (hval v (List.mem_cons_self _ _)))]
  have hmap : vs.map (pyStrip ∘ fun w => "\n    ".toList ++ w) = vs.map id := by
    apply List.map_congr_left
    intro w hw
    have hvw := hval w (List.mem_cons_of_mem _ hw)
    exact pyStrip_indent (val_head_not_space hvw) (val_last_not_space hvw)
  rw [hmap, List.map_id]
  apply List.filter_eq_self.mpr
  intro a ha
  exact decide_eq_true (plain_or_annot_ne_nil (hval a ha))

/-- An unannotated plain value receives the hyphen-lowered annotation. -/
theorem enumEntry_plain {v : List Char} (h : plainEnumVal v) :
    enumEntry v = "    @SerialName(\"".toList ++
      ((v.map (fun c => if c = '_' then '-' else c)).map pyLowerChar) ++
      "\")\n    ".toList ++ v := by
  obtain ⟨hne, hw⟩ := h
  unfold enumEntry
  rw [if_neg]
  intro hcon
  rw [show ("@SerialName".toList) = '@' :: "SerialName".toList from rfl] at hcon
  have h2 := hw '@' (head_mem_of_containsSub hcon)
  rw [show isWordChar '@' = false from rfl] at h2
  cases h2

/-- An already-annotated value is re-emitted with the indent only. -/
theorem enumEntry_annotated {v : List Char} (h : annotatedEnumVal v) :
    enumEntry v = "    ".toList ++ v := by
  obtain ⟨lit, w, rfl, _, _, _, _⟩ := h
  unfold enumEntry
  rw [if_pos]
  apply containsSub_of_startsWithL
  have h0 : startsWithL ("@SerialName".toList) ("@SerialName(\"".toList) = true := by
    decide
  exact startsWithL_append w
    (startsWithL_append ("\")\n    ".toList) (startsWithL_append lit h0))

/-- The matcher of `fix_enum_serialization` at a whole well-formed enum
declaration: it fires, consumes the entire declaration, and re-emits it
with every value rewritten by `enumEntry`. -/
theorem enumSerStep_at_decl {e0 : Char} {en' : List Char} {vals : List (List Char)}
    (hw0 : isWordChar e0 = true) (hwe : ∀ ch ∈ en', isWordChar ch = true)
    (hvne : vals ≠ []) (hval : ∀ v ∈ vals, plainEnumVal v ∨ annotatedEnumVal v) :
    enumSerStep [] ('e' :: 'n' :: 'u' :: 'm' :: ' ' :: 'c' :: 'l' :: 'a' :: 's' :: 's' :: ' ' ::
        ((e0 :: en') ++ (" \x7b\n    ".toList ++
          (joinSep (",\n    ".toList) vals ++ "\n\x7d".toList)))) =
      some ("enum class ".toList ++ (e0 :: en') ++ " \x7b\n".toList ++
          joinSep (",\n".toList) (vals.map enumEntry) ++ "\n\x7d".toList,
        ('e' :: 'n' :: 'u' :: 'm' :: ' ' :: 'c' :: 'l' :: 'a' :: 's' :: 's' :: ' ' ::
          ((e0 :: en') ++ (" \x7b\n    ".toList ++
            (joinSep (",\n    ".toList) vals ++ "\n\x7d".toList)))).length) := by
  have e1 : matchLit ("enum".toList)
      ('e' :: 'n' :: 'u' :: 'm' :: ' ' :: 'c' :: 'l' :: 'a' :: 's' :: 's' :: ' ' ::
        ((e0 :: en') ++ (" \x7b\n    ".toList ++
          (joinSep (",\n    ".toList) vals ++ "\n\x7d".toList)))) =
      some ([' '] ++ ('c' :: 'l' :: 'a' :: 's' :: 's' :: ' ' ::
        ((e0 :: en') ++ (" \x7b\n    ".toList ++
          (joinSep (",\n    ".toList) vals ++ "\n\x7d".toList))))) := rfl
  have e2 : munch isPySpace ([' '] ++ ('c' :: 'l' :: 'a' :: 's' :: 's' :: ' ' ::
      ((e0 :: en') ++ (" \x7b\n    ".toList ++
        (joinSep (",\n    ".toList) vals ++ "\n\x7d".toList))))) =
      ([' '], 'c' :: 'l' :: 'a' :: 's' :: 's' :: ' ' ::
        ((e0 :: en') ++ (" \x7b\n    ".toList ++
          (joinSep (",\n    ".toList) vals ++ "\n\x7d".toList)))) := rfl
  have e3 : matchLit ("class".toList) ('c' :: 'l' :: 'a' :: 's' :: 's' :: ' ' ::
      ((e0 :: en') ++ (" \x7b\n    ".toList ++
        (joinSep (",\n    ".toList) vals ++ "\n\x7d".toList)))) =
      some ([' '] ++ ((e0 :: en') ++ (" \x7b\n    ".toList ++
        (joinSep (",\n    ".toList) vals ++ "\n\x7d".toList)))) := rfl
  have e4 : munch isPySpace ([' '] ++ ((e0 :: en') ++ (" \x7b\n    ".toList ++
      (joinSep (",\n    ".toList) vals ++ "\n\x7d".toList)))) =
      ([' '], (e0 :: en') ++ (" \x7b\n    ".toList ++
        (joinSep (",\n    ".toList) vals ++ "\n\x7d".toList))) := by
    apply munch_exact
    · intro c hc
      have h3 : c = ' ' := by simpa using hc
      subst h3
      rfl
    · exact head_pred_of_eq rfl (isPySpace_eq_false_of_word hw0)
  have e5 : munch isWordChar ((e0 :: en') ++ (" \x7b\n    ".toList ++
      (joinSep (",\n    ".toList) vals ++ "\n\x7d".toList))) =
      (e0 :: en', " \x7b\n    ".toList ++
        (joinSep (",\n    ".toList) vals ++ "\n\x7d".toList)) := by
    apply munch_exact
    · intro ch hc
      rcases List.mem_cons.mp hc with rfl | h2
      · exact hw0
      · exact hwe ch h2
    · exact head_pred_of_eq rfl (by decide)
  have e6 : munch (· ≠ '\x7b') (" \x7b\n    ".toList ++
      (joinSep (",\n    ".toList) vals ++ "\n\x7d".toList)) =
      ([' '], '\x7b' :: ("\n    ".toList ++
        (joinSep (",\n    ".toList) vals ++ "\n\x7d".toList))) := rfl
  have e7 : matchLit ['\x7b'] ('\x7b' :: ("\n    ".toList ++
      (joinSep (",\n    ".toList) vals ++ "\n\x7d".toList))) =
      some ("\n    ".toList ++
        (joinSep (",\n    ".toList) vals ++ "\n\x7d".toList)) := by
    simp [matchLit]
  have e8 : munch (· ≠ '\x7d') ("\n    ".toList ++
      (joinSep (",\n    ".toList) vals ++ "\n\x7d".toList)) =
      ((("\n    ".toList ++ joinSep (",\n    ".toList) vals) ++ "\n".toList),
        ['\x7d']) := by
    rw [show ("\n    ".toList ++ (joinSep (",\n    ".toList) vals ++ "\n\x7d".toList)) =
      ((("\n    ".toList ++ joinSep (",\n    ".toList) vals) ++ "\n".toList) ++
        ['\x7d']) from by simp]
    apply munch_exact
    · intro c hc
      rcases List.mem_append.mp hc with h1 | h1
      · rcases List.mem_append.mp h1 with h2 | h2
        · apply decide_eq_true
          intro he
          subst he
          revert h2
          decide
        · apply decide_eq_true
          intro he
          subst he
          rcases mem_joinSep h2 with h3 | ⟨p, hp, hcp⟩
          · revert h3
            decide
          · exact brace_not_mem_val (hval p hp) hcp
      · apply decide_eq_true
        intro he
        subst he
        revert h1
        decide
    · exact head_pred_of_eq rfl (by decide)
  have e9 : matchLit ['\x7d'] ['\x7d'] = some [] := by
    simp [matchLit]
  unfold enumSerStep
  rw [e1]
  simp only []
  rw [e2]
  simp only []
  rw [if_neg (by simp)]
  rw [e3]
  simp only []
  rw [e4]
  simp only []
  rw [if_neg (by simp)]
  rw [e5]
  simp only []
  rw [if_neg (by simp)]
  rw [e6]
  simp only []
  rw [e7]
  simp only []
  rw [e8]
  simp only []
  rw [if_neg (by simp)]
  rw [e9]
  simp only []
  rw [enum_values_compute hvne hval]
  simp [List.length_append, List.length_cons]

/-! ## The claims -/

/-- C3 counterexample: on the content `val foo_bar: Int` the second
application of the per-file rewrite composition differs from the first —
the first run inserts a `@SerialName` annotation after import
normalization has already happened, so only the second run prepends the
now-required `SerialName` import. -/
theorem C3_counterexample :
    fixGeneratedContent (fixGeneratedContent ("val foo_bar: Int".toList)) ≠
      fixGeneratedContent ("val foo_bar: Int".toList) := by
  decide

/-- C3 (amended): the per-file rewrite composition is not idempotent (a
second application can prepend an import made necessary by annotations the
first application inserted), but the import-normalization pass itself is:
`fix_imports` applied to its own output changes nothing, for every
content. -/
theorem C3_import_pass_idempotent (s : List Char) :
    fix_imports (fix_imports s) = fix_imports s :=
  fix_imports_idem s

/-- C4 counterexample: re-applying endpoint collapsing to an
already-collapsed document changes it — on `{"paths": {}}` the second
application replaces the empty method table with a singleton binding the
empty method name to the previously collapsed operation. -/
theorem C4_counterexample :
    collapseEndpoints (collapseEndpoints emptyPathsDoc) ≠
      collapseEndpoints emptyPathsDoc := by
  decide

/-- C4 (amended): a second application of endpoint collapsing does change
an already-collapsed document — its method table becomes the singleton
mapping the empty method name (the stripped synthetic path `/`) to the
previous collapsed operation — while the pattern-constraint removal pass
is idempotent. -/
theorem C4_reapplication :
    (∀ (o pe : JObj), o.find? "paths" = some (.obj pe) →
      xMethodsObj (collapseEndpoints (collapseEndpoints (.obj o))) =
        some (JObj.cons "" (collapsedPostOp (allMethods pe)) JObj.nil)) ∧
    (∀ j, removePatternProps (removePatternProps j) = removePatternProps j) := by
  constructor
  · intro o pe hp
    have hcol : collapseEndpoints (.obj o) =
        .obj (o.set "paths" (.obj (objOf
          [("/", .obj (objOf
            [("post", collapsedPostOp (allMethods pe))]))]))) := by
      simp only [collapseEndpoints, hp]
    rw [hcol]
    simp only [collapseEndpoints, JObj.find?_set_self]
    simp only [xMethodsObj, pathsObj, JObj.find?_set_self, objOf, JObj.find?,
      collapsedPostOp, allMethods, JObj.toList, allMethodsGo, postOfItem,
      strippedName, pyStripChar]
    rfl
  · exact removePatternProps_idem

/-- C4 witness: the amended statement evaluated on the empty path
table. -/
theorem C4_reapplication_witness :
    xMethodsObj (collapseEndpoints (collapseEndpoints emptyPathsDoc)) =
      some (JObj.cons "" (collapsedPostOp (allMethods JObj.nil)) JObj.nil) :=
  C4_reapplication.1 (objOf [("paths", .obj .nil)]) .nil rfl

/-- C7 counterexample: the field pattern `[a-z]+(?:_[a-z]+)+` does not
match every snake_case identifier — a digit blocks it.  On
`val foo_bar2: Optional<String>` the pipeline neither renames the
identifier nor inserts any annotation; only the nullable-type rewrite
applies. -/
theorem C7_counterexample :
    fixGeneratedContent ("val foo_bar2: Optional<String>".toList) =
      "val foo_bar2: String?".toList ∧
    containsSub ("@SerialName".toList)
      (fixGeneratedContent ("val foo_bar2: Optional<String>".toList)) = false :=
  ⟨by decide, by decide⟩

/-- C7 (amended): for every identifier actually matched by the field
pattern `[a-z]+(?:_[a-z]+)+` — a nonempty all-lowercase first token
followed by one or more nonempty all-lowercase tokens each preceded by a
single underscore — the whole per-file rewrite pipeline transforms the
declaration `val <id>: Optional<String>` into a `@SerialName` annotation
carrying the original snake_case name, followed by the camel-cased
declaration with the nullable type: `@SerialName("<id>")\nval <camel id>:
String?`.  Identifiers containing digits or capitals are not matched and
are left without rename or annotation (see the counterexample). -/
theorem C7_field_rewrite {c0 : Char} {t0r : List Char} {toks : List (List Char)}
    (hc0 : isLowerAZ c0 = true) (ht0 : ∀ ch ∈ t0r, isLowerAZ ch = true)
    (hts : toks ≠ []) (htc : ∀ t ∈ toks, t ≠ [] ∧ ∀ ch ∈ t, isLowerAZ ch = true) :
    fixGeneratedContent ("val ".toList ++ ((c0 :: t0r) ++ underscoreJoin toks) ++
        ": Optional<String>".toList) =
      "@SerialName(\"".toList ++ ((c0 :: t0r) ++ underscoreJoin toks) ++
        "\")\nval ".toList ++ snake_to_camel ((c0 :: t0r) ++ underscoreJoin toks) ++
        ": String?".toList := by
  have hnw := name_chars_word hc0 ht0 htc
  have hcw : ∀ ch ∈ snake_to_camel ((c0 :: t0r) ++ underscoreJoin toks),
      isWordChar ch = true := fun ch hc =>
    isWordChar_of_alpha (snake_to_camel_alpha (name_chars_lower hc0 ht0 htc) ch hc)
  unfold fixGeneratedContent fix_api_client_paths fix_enum_serialization
    add_serializable_annotations fix_nullable_types_kotlin
  rw [fix_imports_on_decl hc0 ht0 htc]
  rw [serAnn_on_decl hc0 ht0 hts htc]
  rw [optionalStep_pass_on_shape hnw hcw]
  rw [arrayStep_id_on_shape hnw hcw]
  rw [dataClassStep_id_on_shape hnw hcw]
  rw [enumClassStep_id_on_shape hnw hcw]
  rw [dedupStep_id_on_shape hnw hcw]
  rw [enumSerStep_id_on_shape hnw hcw]
  rw [apiCallStep_id_on_shape hnw hcw]
  rw [apiIfaceStep_id_on_shape hnw hcw]
  rw [apiCreateStep_id_on_shape hnw hcw]

/-- C7 witness: the amended theorem instantiated at the identifier
`account_id` reproduces the specification scenario. -/
theorem C7_field_rewrite_witness :
    fixGeneratedContent ("val account_id: Optional<String>".toList) =
      "@SerialName(\"account_id\")\nval accountId: String?".toList := by
  have h := @C7_field_rewrite 'a' ("ccount".toList) [("id".toList)]
    (by decide) (by decide) (by decide) (by decide)
  exact h

/-- C8 counterexample: the annotation literal is derived from the whole
comma-piece, not from the value name — a value with constructor
arguments, `FOO_BAR(1)`, receives the literal `"foo-bar(1)"` rather than
`"foo-bar"`. -/
theorem C8_counterexample :
    fix_enum_serialization ("enum class E \x7b\n    FOO_BAR(1)\n\x7d".toList) =
      ("enum class E \x7b\n    @SerialName(\"foo-bar(1)\")\n    FOO_BAR(1)\n\x7d".toList) := by
  decide

/-- C8 (amended): for every enum declaration in the layout the pass
recognises — `enum class <Name> { v₁, …, vₙ }` whose values are plain
word-character identifiers or values already carrying a `@SerialName`
annotation in the pass's own emitted layout — the declaration is
re-emitted with every value rewritten by `enumEntry`; an unannotated
plain value receives a `@SerialName` annotation whose literal is the
value lower-cased with underscores replaced by hyphens, and an
already-annotated value is re-emitted with only the normalised indent,
gaining no second annotation. -/
theorem C8_enum_value_serialization {e0 : Char} {en' : List Char}
    {vals : List (List Char)}
    (hw0 : isWordChar e0 = true) (hwe : ∀ ch ∈ en', isWordChar ch = true)
    (hvne : vals ≠ []) (hval : ∀ v ∈ vals, plainEnumVal v ∨ annotatedEnumVal v) :
    fix_enum_serialization ("enum class ".toList ++ (e0 :: en') ++
        " \x7b\n    ".toList ++ joinSep (",\n    ".toList) vals ++ "\n\x7d".toList) =
      "enum class ".toList ++ (e0 :: en') ++ " \x7b\n".toList ++
        joinSep (",\n".toList) (vals.map enumEntry) ++ "\n\x7d".toList ∧
    ∀ v ∈ vals,
      (plainEnumVal v → enumEntry v = "    @SerialName(\"".toList ++
        ((v.map (fun c => if c = '_' then '-' else c)).map pyLowerChar) ++
        "\")\n    ".toList ++ v) ∧
      (annotatedEnumVal v → enumEntry v = "    ".toList ++ v) := by
  constructor
  · unfold fix_enum_serialization pySub
    rw [show ("enum class ".toList ++ (e0 :: en') ++ " \x7b\n    ".toList ++
        joinSep (",\n    ".toList) vals ++ "\n\x7d".toList) =
      'e' :: 'n' :: 'u' :: 'm' :: ' ' :: 'c' :: 'l' :: 'a' :: 's' :: 's' :: ' ' ::
        ((e0 :: en') ++ (" \x7b\n    ".toList ++
          (joinSep (",\n    ".toList) vals ++ "\n\x7d".toList))) from by simp]
    rw [show ('e' :: 'n' :: 'u' :: 'm' :: ' ' :: 'c' :: 'l' :: 'a' :: 's' :: 's' :: ' ' ::
        ((e0 :: en') ++ (" \x7b\n    ".toList ++
          (joinSep (",\n    ".toList) vals ++ "\n\x7d".toList)))).length =
      (('n' :: 'u' :: 'm' :: ' ' :: 'c' :: 'l' :: 'a' :: 's' :: 's' :: ' ' ::
        ((e0 :: en') ++ (" \x7b\n    ".toList ++
          (joinSep (",\n    ".toList) vals ++ "\n\x7d".toList)))).length) + 1 from rfl]
    rw [subScanGo_cons_some (enumSerStep_at_decl hw0 hwe hvne hval)]
    rw [List.drop_length, subScanGo_nil, List.append_nil]
  · intro v hv
    exact ⟨fun hp => enumEntry_plain hp, fun ha => enumEntry_annotated ha⟩

/-- C8 witness: the amended theorem instantiated at the
`AccountErrorKind` declaration reproduces the specification scenario,
annotating `ACCOUNT_DOES_NOT_EXIST` with `"account-does-not-exist"`. -/
theorem C8_enum_value_serialization_witness :
    fix_enum_serialization
        ("enum class AccountErrorKind \x7b\n    ACCOUNT_DOES_NOT_EXIST,\n    INVALID\n\x7d".toList) =
      ("enum class AccountErrorKind \x7b\n    @SerialName(\"account-does-not-exist\")\n    ACCOUNT_DOES_NOT_EXIST,\n    @SerialName(\"invalid\")\n    INVALID\n\x7d".toList) := by
  have h := @C8_enum_value_serialization 'A' ("ccountErrorKind".toList)
    [("ACCOUNT_DOES_NOT_EXIST".toList), ("INVALID".toList)]
    (by decide) (by decide) (by decide)
    (by
      intro v hv
      rcases List.mem_cons.mp hv with rfl | hv2
      · exact Or.inl ⟨by decide, by decide⟩
      · have hv3 : v = "INVALID".toList := by simpa using hv2
        subst hv3
        exact Or.inl ⟨by decide, by decide⟩)
  exact h.1

/-- C9: after `remove_pattern_properties` no object at any depth carries
the key `patternProperties`, and the pass is a pure deletion: a document
already free of the key is returned unchanged. -/
theorem C9_pattern_properties_removal (j : JSON) :
    hasPatternProps (removePatternProps j) = false ∧
      (hasPatternProps j = false → removePatternProps j = j) :=
  ⟨no_pp_removePatternProps j, removePatternProps_eq_self j⟩

/-- C9 witness: the removal result on a concrete document is free of the
key, and re-processing it changes nothing. -/
theorem C9_pattern_properties_removal_witness :
    hasPatternProps (removePatternProps patternPropsDoc) = false ∧
      removePatternProps (removePatternProps patternPropsDoc) =
        removePatternProps patternPropsDoc := by
  refine ⟨(C9_pattern_properties_removal patternPropsDoc).1, ?_⟩
  exact (C9_pattern_properties_removal (removePatternProps patternPropsDoc)).2
    (by decide)

/-- C10: `snake_to_camel` is a total function of its input and is stable
under re-application: converting an already-converted identifier changes
nothing, for every input string. -/
theorem C10_snake_to_camel_stable (s : List Char) :
    snake_to_camel (snake_to_camel s) = snake_to_camel s :=
  snake_to_camel_fixed (not_underscore_mem_snake_to_camel s)

/-- C1 counterexample: on `{"paths": {"/foo": {}}}` — a path with no
`post` operation — the collapsed method table is empty while the stripped
original path-name set is `{foo}`, so the two key sets differ. -/
theorem C1_counterexample :
    ¬ (∀ k, k ∈ xMethodsKeys (collapseEndpoints pathsNoPostDoc) ↔
        k ∈ strippedPathNames pathsNoPostDoc) := by
  intro h
  have h1 : "foo" ∈ strippedPathNames pathsNoPostDoc := by decide
  have h2 := (h "foo").mpr h1
  revert h2
  decide

/-- C1 (amended): after the endpoint-collapsing step the path table has
exactly one entry — the synthetic `/` path with a single `post`
operation — the key set of its `x-methods` table equals the stripped
names of exactly those original paths that carry a `post` operation, and
(when those stripped names are pairwise distinct) each method-table value
is the corresponding original path's `post` descriptor unmodified. -/
theorem C1_single_endpoint_collapse (o pe : JObj)
    (hp : o.find? "paths" = some (.obj pe)) :
    (∃ P, pathsObj (collapseEndpoints (.obj o)) =
      some (JObj.cons "/" (.obj (JObj.cons "post" P JObj.nil)) JObj.nil)) ∧
    (∀ k, k ∈ xMethodsKeys (collapseEndpoints (.obj o)) ↔
      ∃ p it, (p, it) ∈ pe.toList ∧ (postOfItem it).isSome = true ∧
        strippedName p = k) ∧
    ((postPathEntries pe).Pairwise
        (fun a b => strippedName a.1 ≠ strippedName b.1) →
      ∀ p it v, (p, it) ∈ pe.toList → postOfItem it = some v →
        xMethodsFind (strippedName p) (collapseEndpoints (.obj o)) = some v) := by
  have hcol : collapseEndpoints (.obj o) =
      .obj (o.set "paths" (.obj (objOf
        [("/", .obj (objOf
          [("post", collapsedPostOp (allMethods pe))]))]))) := by
    simp only [collapseEndpoints, hp]
  have hpaths : pathsObj (collapseEndpoints (.obj o)) =
      some (objOf
        [("/", .obj (objOf [("post", collapsedPostOp (allMethods pe))]))]) := by
    rw [hcol]
    simp [pathsObj, JObj.find?_set_self]
  have hxm : xMethodsObj (collapseEndpoints (.obj o)) =
      some (allMethods pe) := by
    unfold xMethodsObj
    rw [hpaths]
    simp [objOf, JObj.find?, collapsedPostOp]
  refine ⟨⟨collapsedPostOp (allMethods pe), by rw [hpaths]; rfl⟩, ?_, ?_⟩
  · intro k
    unfold xMethodsKeys
    rw [hxm]
    unfold allMethods
    rw [mem_keys_allMethodsGo]
    simp [JObj.keys]
  · intro hdist p it v hmem hpost
    unfold xMethodsFind
    rw [hxm]
    exact find?_allMethodsGo_mem pe.toList JObj.nil p it v hmem hpost hdist

/-- C1 witness: the amended statement on a two-path document with `post`
operations. -/
theorem C1_single_endpoint_collapse_witness :
    (∃ P, pathsObj (collapseEndpoints twoPathsDoc) =
      some (JObj.cons "/" (.obj (JObj.cons "post" P JObj.nil)) JObj.nil)) ∧
    ("a_method" ∈ xMethodsKeys (collapseEndpoints twoPathsDoc)) ∧
    (xMethodsFind "a_method" (collapseEndpoints twoPathsDoc) =
      some (.str "opA")) := by
  have h := C1_single_endpoint_collapse
    (objOf
      [("paths", .obj (objOf
        [("/a_method", .obj (objOf [("post", .str "opA")])),
         ("/b_method", .obj (objOf [("post", .str "opB")]))]))])
    (objOf
      [("/a_method", .obj (objOf [("post", .str "opA")])),
       ("/b_method", .obj (objOf [("post", .str "opB")]))])
    rfl
  refine ⟨h.1, ?_, ?_⟩
  · exact (h.2.1 "a_method").mpr
      ⟨"/a_method", .obj (objOf [("post", .str "opA")]), by decide, by decide, by decide⟩
  · exact h.2.2 (by decide) "/a_method" (.obj (objOf [("post", .str "opA")]))
      (.str "opA") (by decide) rfl

/-- C5: every named schema with none of the six keywords is replaced by
the fixed table's entry when its name has one and by the generic string
fallback otherwise, and afterwards every named object schema fails the
pass's emptiness test. -/
theorem C5_empty_schema_resolution (o co so : JObj)
    (hc : o.find? "components" = some (.obj co))
    (hs : co.find? "schemas" = some (.obj so)) :
    (∀ n s, so.find? n = some (.obj s) → claimEmptySchema s = true →
      (schemasOf (fixEmptySchemas (.obj o))).find? n =
        some (fixEmptyReplacement n)) ∧
    (∀ n s2, (schemasOf (fixEmptySchemas (.obj o))).find? n = some (.obj s2) →
      pyEmptySchema s2 = false) := by
  have hmap := schemasOf_mapSchemas (fun _ => fixEmptyOne) o co so hc hs
  unfold fixEmptySchemas
  constructor
  · intro n s hn hce
    rw [hmap, JObj.find?_mapVals, hn]
    have hpe := pyEmpty_of_claimEmpty hce
    simp [fixEmptyOne, hpe, fixEmptyReplacement]
  · intro n s2 hn
    rw [hmap, JObj.find?_mapVals] at hn
    rcases ho : so.find? n with _ | v
    · rw [ho] at hn
      cases hn
    · rw [ho] at hn
      simp only [Option.map_some', Option.some.injEq] at hn
      cases v with
      | obj s =>
        simp only [fixEmptyOne] at hn
        by_cases hpe : pyEmptySchema s = true
        · rw [if_pos hpe] at hn
          obtain ⟨ro, hro, hne⟩ := fixEmptyReplacement_not_empty n
          unfold fixEmptyReplacement at hro
          rw [hro] at hn
          cases hn
          exact hne
        · rw [if_neg hpe] at hn
          cases hn
          exact Bool.eq_false_iff.mpr hpe
      | null => cases hn
      | bool b => cases hn
      | num m => cases hn
      | str t => cases hn
      | arr a => cases hn

/-- C5 witness: on a document with the empty schemas `AccountId` and
`Zzz`, the former becomes the fixed table's string schema and the latter
the generic fallback, and both results are non-empty. -/
theorem C5_empty_schema_resolution_witness :
    ((schemasOf (fixEmptySchemas emptySchemasDoc)).find? "AccountId" =
      some (.obj (objOf
        [("type", .str "string"),
         ("description", .str "NEAR Account Identifier")]))) ∧
    ((schemasOf (fixEmptySchemas emptySchemasDoc)).find? "Zzz" =
      some (.obj (objOf
        [("type", .str "string"),
         ("description", .str "Auto-fixed empty schema for Zzz")]))) ∧
    (∀ n s2, (schemasOf (fixEmptySchemas emptySchemasDoc)).find? n =
      some (.obj s2) → pyEmptySchema s2 = false) := by
  have h := C5_empty_schema_resolution
    (objOf
      [("components", .obj (objOf
        [("schemas", .obj (objOf
          [("AccountId", .obj .nil),
           ("Zzz", .obj .nil),
           ("Keep", .obj (objOf [("type", .str "string")]))]))]))])
    (objOf
      [("schemas", .obj (objOf
        [("AccountId", .obj .nil),
         ("Zzz", .obj .nil),
         ("Keep", .obj (objOf [("type", .str "string")]))]))])
    (objOf
      [("AccountId", .obj .nil),
       ("Zzz", .obj .nil),
       ("Keep", .obj (objOf [("type", .str "string")]))])
    rfl rfl
  refine ⟨?_, ?_, h.2⟩
  · exact h.1 "AccountId" .nil rfl (by decide)
  · exact h.1 "Zzz" .nil (by decide) (by decide)

/-- C2 counterexample: after the union-resolution pass the schema `U`
(which is a `oneOf` union — the pass never inspects `oneOf`) still
carries `oneOf`, and the schema `V` (whose `anyOf` lists only
`{'type': 'null'}`, so no alternative is selected) still carries
`anyOf`. -/
theorem C2_counterexample :
    schemaHasOneOf (schemaAt "U" (fixAnyofSchemas unionCounterexampleDoc)) = true ∧
    schemaHasAnyOf (schemaAt "V" (fixAnyofSchemas unionCounterexampleDoc)) = true :=
  ⟨by decide, by decide⟩

/-- C2 (amended): after the union-resolution pass a named schema carries
no top-level `anyOf` keyword provided its union is resolvable — it is
`BlockId`, or an `Rpc…Request` schema from whose array of alternatives at
least one property is derived, or its first truthy non-`null` alternative
exists and itself carries no `anyOf`; `oneOf` keywords are not touched by
this pass. -/
theorem C2_union_resolution (o co so : JObj)
    (hc : o.find? "components" = some (.obj co))
    (hs : co.find? "schemas" = some (.obj so))
    (n : String) (s : JObj)
    (hn : so.find? n = some (.obj s))
    (hres : anyofResolvable n s) :
    ∀ s2, (schemasOf (fixAnyofSchemas (.obj o))).find? n = some s2 →
      schemaHasAnyOf s2 = false := by
  intro s2 h2
  unfold fixAnyofSchemas at h2
  rw [schemasOf_mapSchemas _ o co so hc hs, JObj.find?_mapVals, hn] at h2
  simp only [Option.map_some', Option.some.injEq] at h2
  subst h2
  simp only [fixAnyofOne]
  split
  · rename_i anyofVal heq
    split
    · simp [blockIdReplacement, schemaHasAnyOf, JObj.hasKey, JObj.find?, objOf]
    · rename_i hnb
      rcases hres anyofVal heq with hb | ⟨hr1, hr2, items, havEq, hne⟩ |
          ⟨hrr, items, it, havEq, hfst, hita⟩
      · exact absurd hb hnb
      · subst havEq
        split
        · split
          · rename_i items2 hitems2
            split
            · simp [schemaHasAnyOf, JObj.hasKey, JObj.find?, objOf]
            · rename_i hneg
              cases hitems2
              exact absurd hne hneg
          · rename_i hx
            exact absurd rfl (hx items)
        · rename_i hnotRpc
          rw [hr1, hr2] at hnotRpc
          simp at hnotRpc
      · subst havEq
        split
        · rename_i hRpc
          rw [hrr] at hRpc
          simp at hRpc
        · split
          · rename_i items2 hitems2
            cases hitems2
            split
            · rename_i item2 hitem2
              rw [hfst] at hitem2
              cases hitem2
              exact hita
            · rename_i hnone
              rw [hfst] at hnone
              cases hnone
          · rename_i hx
            exact absurd rfl (hx items)
  · rename_i heq
    simp [schemaHasAnyOf, JObj.hasKey, heq]

/-- C2 witness: the generic strategy on a union whose alternatives are
`{'type': 'null'}` and `{'type': 'string'}` resolves the schema `W` to
the string alternative, which is free of `anyOf`. -/
theorem C2_union_resolution_witness :
    (schemasOf (fixAnyofSchemas unionWitnessDoc)).find? "W" =
      some (.obj (objOf [("type", .str "string")])) ∧
    schemaHasAnyOf (.obj (objOf [("type", .str "string")])) = false := by
  refine ⟨by decide, ?_⟩
  exact C2_union_resolution
    (objOf
      [("components", .obj (objOf
        [("schemas", .obj (objOf
          [("W", .obj (objOf
            [("anyOf", .arr (arrOf
              [.obj (objOf [("type", .str "null")]),
               .obj (objOf [("type", .str "string")])]))]))]))]))])
    (objOf
      [("schemas", .obj (objOf
        [("W", .obj (objOf
          [("anyOf", .arr (arrOf
            [.obj (objOf [("type", .str "null")]),
             .obj (objOf [("type", .str "string")])]))]))]))])
    (objOf
      [("W", .obj (objOf
        [("anyOf", .arr (arrOf
          [.obj (objOf [("type", .str "null")]),
           .obj (objOf [("type", .str "string")])]))]))])
    rfl rfl "W"
    (objOf
      [("anyOf", .arr (arrOf
        [.obj (objOf [("type", .str "null")]),
         .obj (objOf [("type", .str "string")])]))])
    rfl
    (by
      intro av hav
      refine Or.inr (Or.inr ⟨by decide, ?_⟩)
      refine ⟨arrOf
        [.obj (objOf [("type", .str "null")]),
         .obj (objOf [("type", .str "string")])],
        .obj (objOf [("type", .str "string")]), ?_, by decide, by decide⟩
      have : av = .arr (arrOf
        [.obj (objOf [("type", .str "null")]),
         .obj (objOf [("type", .str "string")])]) := by
        cases hav
        rfl
      exact this)
    (.obj (objOf [("type", .str "string")]))
    (by decide)

/-- C6 counterexample: a `$ref` to a missing schema that sits nested
inside a property is never looked at by the repair — after the whole
repair the document still contains a dangling reference. -/
theorem C6_counterexample :
    hasDanglingRef (engineRepair nestedRefDoc) = true := by
  decide

/-- C6 (amended): after the structural-cleanup pass every named schema
whose own top level carries a `$ref` into `#/components/schemas/` points
at an existing name of the schema table, and a named schema whose
top-level `$ref` target is absent is replaced by a string schema
describing the lost reference. -/
theorem C6_toplevel_refs_resolved (o co so : JObj)
    (hc : o.find? "components" = some (.obj co))
    (hs : co.find? "schemas" = some (.obj so)) :
    (∀ n s2 r,
      (schemasOf (fixProblematicPatterns (.obj o))).find? n = some (.obj s2) →
      s2.find? "$ref" = some (.str r) →
      pyStartsWith "#/components/schemas/" r = true →
      (schemasOf (fixProblematicPatterns (.obj o))).keys.contains
        (lastSlashComponent r) = true) ∧
    (∀ n s r, so.find? n = some (.obj s) →
      s.find? "$ref" = some (.str r) →
      pyStartsWith "#/components/schemas/" r = true →
      so.keys.contains (lastSlashComponent r) = false →
      (schemasOf (fixProblematicPatterns (.obj o))).find? n =
        some (.obj (objOf
          [("type", .str "string"),
           ("description", .str ("Reference to " ++ lastSlashComponent r))]))) := by
  have hmap : schemasOf (fixProblematicPatterns (.obj o)) =
      so.mapVals (fixProblematicOne so.keys) := by
    unfold fixProblematicPatterns
    exact schemasOf_mapSchemas fixProblematicOne o co so hc hs
  have hkeys : (schemasOf (fixProblematicPatterns (.obj o))).keys = so.keys := by
    rw [hmap]
    exact JObj.keys_mapVals _ _
  constructor
  · intro n s2 r hfind href hpre
    rw [hkeys]
    rw [hmap, JObj.find?_mapVals] at hfind
    rcases ho : so.find? n with _ | v
    · rw [ho] at hfind
      cases hfind
    · rw [ho] at hfind
      simp only [Option.map_some', Option.some.injEq] at hfind
      cases v with
      | obj s0 =>
        simp only [fixProblematicOne] at hfind
        split at hfind
        · rename_i r0 heq
          split at hfind
          · rename_i hcond
            cases hfind
            simp [objOf, JObj.find?] at href
          · rename_i hcond
            split at hfind
            · cases hfind
              simp [objOf, JObj.find?] at href
            · cases hfind
              rw [heq] at href
              cases href
              cases hcb : so.keys.contains (lastSlashComponent r) with
              | true => rfl
              | false =>
                exfalso
                apply hcond
                rw [hpre, hcb]
                rfl
        · rename_i hno
          split at hfind
          · cases hfind
            simp [objOf, JObj.find?] at href
          · cases hfind
            exact absurd href (hno r)
      | null => cases hfind
      | bool b => cases hfind
      | num m => cases hfind
      | str t => cases hfind
      | arr a => cases hfind
  · intro n s r hn2 href2 hpre2 hnc
    rw [hmap, JObj.find?_mapVals, hn2]
    simp only [Option.map_some', Option.some.injEq]
    simp only [fixProblematicOne]
    split
    · rename_i r0 heq
      rw [href2] at heq
      cases heq
      have hcnd : (pyStartsWith "#/components/schemas/" r &&
          !so.keys.contains (lastSlashComponent r)) = true := by
        rw [hpre2, hnc]
        rfl
      rw [if_pos hcnd]
    · rename_i hno
      exact absurd href2 (hno r)

/-- C6 witness: on a document whose schema `C` carries a dangling
top-level reference, the cleanup pass replaces `C` by the string schema
describing the lost reference. -/
theorem C6_toplevel_refs_resolved_witness :
    (schemasOf (fixProblematicPatterns topRefDoc)).find? "C" =
      some (.obj (objOf
        [("type", .str "string"),
         ("description", .str "Reference to Zap")])) := by
  have h := C6_toplevel_refs_resolved
    (objOf
      [("components", .obj (objOf
        [("schemas", .obj (objOf
          [("A", .obj (objOf [("$ref", .str "#/components/schemas/B")])),
           ("B", .obj (objOf [("type", .str "string")])),
           ("C", .obj (objOf [("$ref", .str "#/components/schemas/Zap")]))]))]))])
    (objOf
      [("schemas", .obj (objOf
        [("A", .obj (objOf [("$ref", .str "#/components/schemas/B")])),
         ("B", .obj (objOf [("type", .str "string")])),
         ("C", .obj (objOf [("$ref", .str "#/components/schemas/Zap")]))]))])
    (objOf
      [("A", .obj (objOf [("$ref", .str "#/components/schemas/B")])),
       ("B", .obj (objOf [("type", .str "string")])),
       ("C", .obj (objOf [("$ref", .str "#/components/schemas/Zap")]))])
    rfl rfl
  exact h.2 "C" (objOf [("$ref", .str "#/components/schemas/Zap")])
    "#/components/schemas/Zap" (by decide) rfl (by decide) (by decide)

end NearRpcFixes
